import Mathlib

/-!
Verification of the matrix-assembly core of `kwant/_system.pyx`.

The development shallowly embeds the Cython source into Lean:

* a matrix block (`ta.matrix` / small numpy array) becomes `Blk α`, a pair of
  dimensions together with a total entry function;
* the dense assemblers, which fill a `np.zeros` buffer by slice assignment,
  become folds of `writeBlk` (region overwrite) over the traversal order of
  the source loops;
* the sparse assemblers, which fill COO triplet arrays, become lists of
  `(row, col, value)` triplets; scipy's COO semantics (duplicate entries
  accumulate on conversion to dense) is captured by `cooAt`;
* machine complex numbers are abstracted to a commutative star-ring `α`
  with decidable equality (witnesses instantiate `α := ℤ`).
-/

set_option maxHeartbeats 1000000
set_option linter.unusedSectionVars false

namespace Kwant

variable {α : Type} [CommRing α] [StarRing α] [DecidableEq α]

/-- A dense matrix block: dimensions and a (total) entry function. -/
structure Blk (α : Type) where
  rows : Nat
  cols : Nat
  entry : Nat → Nat → α

/-- `mat.transpose().conjugate()` on a block. -/
def Blk.adjoint [Star α] (b : Blk α) : Blk α :=
  ⟨b.cols, b.rows, fun i j => star (b.entry j i)⟩

/-- A write event: a block assigned at row offset `r`, column offset `c`
(the effect of one numpy slice assignment). -/
structure Ev (α : Type) where
  r : Nat
  c : Nat
  b : Blk α

/-- The event's region contains position `(r, c)`. -/
def covers (e : Ev α) (r c : Nat) : Prop :=
  e.r ≤ r ∧ r < e.r + e.b.rows ∧ e.c ≤ c ∧ c < e.c + e.b.cols

instance coversDec (e : Ev α) (r c : Nat) : Decidable (covers e r c) := by
  unfold covers; infer_instance

theorem covers_mk (r0 c0 : Nat) (b : Blk α) (r c : Nat) :
    covers ⟨r0, c0, b⟩ r c ↔
      r0 ≤ r ∧ r < r0 + b.rows ∧ c0 ≤ c ∧ c < c0 + b.cols := Iff.rfl

/-- Numpy slice assignment `m[r0:r0+b.rows, c0:c0+b.cols] = b` on a
function-represented matrix. -/
def writeBlk (m : Nat → Nat → α) (r0 c0 : Nat) (b : Blk α) : Nat → Nat → α :=
  fun r c =>
    if r0 ≤ r ∧ r < r0 + b.rows ∧ c0 ≤ c ∧ c < c0 + b.cols then
      b.entry (r - r0) (c - c0)
    else m r c

/-- Apply a sequence of write events in order (later writes overwrite). -/
def applyEvents (m : Nat → Nat → α) (l : List (Ev α)) : Nat → Nat → α :=
  l.foldl (fun m e => writeBlk m e.r e.c e.b) m

/-- Two events write to disjoint matrix regions (decidable interval test). -/
def evDisj (e1 e2 : Ev α) : Prop :=
  e1.r + e1.b.rows ≤ e2.r ∨ e2.r + e2.b.rows ≤ e1.r ∨
  e1.c + e1.b.cols ≤ e2.c ∨ e2.c + e2.b.cols ≤ e1.c ∨
  e1.b.rows = 0 ∨ e1.b.cols = 0 ∨ e2.b.rows = 0 ∨ e2.b.cols = 0

instance evDisjDec (e1 e2 : Ev α) : Decidable (evDisj e1 e2) := by
  unfold evDisj; infer_instance

theorem evDisj_no_common {e1 e2 : Ev α} (h : evDisj e1 e2) {r c : Nat}
    (h1 : covers e1 r c) (h2 : covers e2 r c) : False := by
  obtain ⟨a1, a2, a3, a4⟩ := h1
  obtain ⟨b1, b2, b3, b4⟩ := h2
  unfold evDisj at h
  omega

/-- The value at `(r, c)` of a COO triplet list converted to dense:
duplicate entries accumulate (scipy semantics). -/
def cooAt (l : List (Nat × Nat × α)) (r c : Nat) : α :=
  match l with
  | [] => 0
  | (r0, c0, v) :: t => (if r0 = r ∧ c0 = c then v else 0) + cooAt t r c

/-- Triplets of a block written at offsets `(r0, c0)`, skipping exact zeros
(the non-vectorized sparse assemblers test `value != 0`). -/
def blkTriplets (r0 c0 : Nat) (b : Blk α) : List (Nat × Nat × α) :=
  (List.range b.rows).flatMap fun i =>
    (List.range b.cols).flatMap fun j =>
      if b.entry i j ≠ 0 then [(r0 + i, c0 + j, b.entry i j)] else []

/-- Triplets of a block written at offsets `(r0, c0)`, including zeros
(the vectorized sparse assembler copies every array entry). -/
def blkTripletsAll (r0 c0 : Nat) (b : Blk α) : List (Nat × Nat × α) :=
  (List.range b.rows).flatMap fun i =>
    (List.range b.cols).flatMap fun j =>
      [(r0 + i, c0 + j, b.entry i j)]

/-! ### Elementary list-sum helpers -/

theorem list_sum_zero {β : Type} (l : List β) (g : β → α)
    (h : ∀ x ∈ l, g x = 0) : (l.map g).sum = 0 := by
  induction l with
  | nil => simp
  | cons x t ih =>
      simp only [List.map_cons, List.sum_cons]
      rw [h x (List.mem_cons_self x t), ih (fun y hy => h y (List.mem_cons_of_mem x hy))]
      simp

theorem list_sum_single {β : Type} (l : List β) (g : β → α) (x0 : β)
    (hnd : l.Nodup) (hmem : x0 ∈ l) (h : ∀ x ∈ l, x ≠ x0 → g x = 0) :
    (l.map g).sum = g x0 := by
  induction l with
  | nil => cases hmem
  | cons x t ih =>
      simp only [List.map_cons, List.sum_cons]
      rcases List.mem_cons.mp hmem with hx | hx
      · subst hx
        rw [list_sum_zero t g (fun y hy => h y (List.mem_cons_of_mem _ hy)
          (fun hyx => (List.nodup_cons.mp hnd).1 (hyx ▸ hy)))]
        simp
      · rw [h x (List.mem_cons_self x t)
          (fun hxx => (List.nodup_cons.mp hnd).1 (hxx ▸ hx))]
        rw [ih (List.nodup_cons.mp hnd).2 hx
          (fun y hy => h y (List.mem_cons_of_mem _ hy))]
        simp

/-! ### cooAt algebra -/

theorem cooAt_nil (r c : Nat) : cooAt ([] : List (Nat × Nat × α)) r c = 0 := rfl

theorem cooAt_append (l1 l2 : List (Nat × Nat × α)) (r c : Nat) :
    cooAt (l1 ++ l2) r c = cooAt l1 r c + cooAt l2 r c := by
  induction l1 with
  | nil => simp [cooAt]
  | cons p t ih =>
      obtain ⟨r0, c0, v⟩ := p
      simp only [List.cons_append, cooAt]
      rw [show t.append l2 = t ++ l2 from rfl, ih, add_assoc]

theorem cooAt_flatMap {β : Type} (l : List β) (f : β → List (Nat × Nat × α))
    (r c : Nat) :
    cooAt (l.flatMap f) r c = (l.map (fun x => cooAt (f x) r c)).sum := by
  induction l with
  | nil => simp [cooAt]
  | cons x t ih => simp [List.flatMap_cons, cooAt_append, ih]

theorem cooAt_zero_of_not_mem (l : List (Nat × Nat × α)) (r c : Nat)
    (h : ∀ p ∈ l, ¬(p.1 = r ∧ p.2.1 = c)) : cooAt l r c = 0 := by
  induction l with
  | nil => rfl
  | cons p t ih =>
      obtain ⟨r0, c0, v⟩ := p
      simp only [cooAt]
      rw [if_neg (h (r0, c0, v) (List.mem_cons_self _ _)), ih
        (fun q hq => h q (List.mem_cons_of_mem _ hq))]
      simp

/-! ### Region lemmas: a single block's triplets, converted to dense -/

theorem cooAt_blkTriplets (r0 c0 : Nat) (b : Blk α) (r c : Nat) :
    cooAt (blkTriplets r0 c0 b) r c =
      if r0 ≤ r ∧ r < r0 + b.rows ∧ c0 ≤ c ∧ c < c0 + b.cols then
        b.entry (r - r0) (c - c0)
      else 0 := by
  unfold blkTriplets
  rw [cooAt_flatMap]
  by_cases hc : r0 ≤ r ∧ r < r0 + b.rows ∧ c0 ≤ c ∧ c < c0 + b.cols
  · obtain ⟨h1, h2, h3, h4⟩ := hc
    rw [if_pos ⟨h1, h2, h3, h4⟩]
    have hi0 : r - r0 < b.rows := by omega
    have hj0 : c - c0 < b.cols := by omega
    rw [list_sum_single (List.range b.rows) _ (r - r0) (List.nodup_range _)
      (List.mem_range.mpr hi0)]
    · rw [cooAt_flatMap]
      rw [list_sum_single (List.range b.cols) _ (c - c0) (List.nodup_range _)
        (List.mem_range.mpr hj0)]
      · by_cases hz : b.entry (r - r0) (c - c0) ≠ 0
        · rw [if_pos hz]
          simp only [cooAt]
          rw [if_pos ⟨by omega, by omega⟩]
          simp
        · rw [if_neg hz]
          push_neg at hz
          simp [cooAt, hz]
      · intro j hj hne
        by_cases hz : b.entry (r - r0) j ≠ 0
        · rw [if_pos hz]
          simp only [cooAt]
          rw [if_neg (by
            rintro ⟨hr, hcc⟩
            exact hne (by omega))]
          simp
        · rw [if_neg hz]; rfl
    · intro i hi hne
      rw [cooAt_flatMap]
      apply list_sum_zero
      intro j hj
      by_cases hz : b.entry i j ≠ 0
      · rw [if_pos hz]
        simp only [cooAt]
        rw [if_neg (by
          rintro ⟨hr, hcc⟩
          exact hne (by omega))]
        simp
      · rw [if_neg hz]; rfl
  · rw [if_neg hc]
    apply list_sum_zero
    intro i hi
    rw [cooAt_flatMap]
    apply list_sum_zero
    intro j hj
    rw [List.mem_range] at hi hj
    by_cases hz : b.entry i j ≠ 0
    · rw [if_pos hz]
      simp only [cooAt]
      rw [if_neg (by
        rintro ⟨hr, hcc⟩
        exact hc ⟨by omega, by omega, by omega, by omega⟩)]
      simp
    · rw [if_neg hz]; rfl

theorem cooAt_blkTripletsAll (r0 c0 : Nat) (b : Blk α) (r c : Nat) :
    cooAt (blkTripletsAll r0 c0 b) r c =
      if r0 ≤ r ∧ r < r0 + b.rows ∧ c0 ≤ c ∧ c < c0 + b.cols then
        b.entry (r - r0) (c - c0)
      else 0 := by
  unfold blkTripletsAll
  rw [cooAt_flatMap]
  by_cases hc : r0 ≤ r ∧ r < r0 + b.rows ∧ c0 ≤ c ∧ c < c0 + b.cols
  · obtain ⟨h1, h2, h3, h4⟩ := hc
    rw [if_pos ⟨h1, h2, h3, h4⟩]
    have hi0 : r - r0 < b.rows := by omega
    have hj0 : c - c0 < b.cols := by omega
    rw [list_sum_single (List.range b.rows) _ (r - r0) (List.nodup_range _)
      (List.mem_range.mpr hi0)]
    · rw [cooAt_flatMap]
      rw [list_sum_single (List.range b.cols) _ (c - c0) (List.nodup_range _)
        (List.mem_range.mpr hj0)]
      · simp only [cooAt]
        rw [if_pos ⟨by omega, by omega⟩]
        simp
      · intro j hj hne
        simp only [cooAt]
        rw [if_neg (by
          rintro ⟨hr, hcc⟩
          exact hne (by omega))]
        simp
    · intro i hi hne
      rw [cooAt_flatMap]
      apply list_sum_zero
      intro j hj
      simp only [cooAt]
      rw [if_neg (by
        rintro ⟨hr, hcc⟩
        exact hne (by omega))]
      simp
  · rw [if_neg hc]
    apply list_sum_zero
    intro i hi
    rw [cooAt_flatMap]
    apply list_sum_zero
    intro j hj
    rw [List.mem_range] at hi hj
    simp only [cooAt]
    rw [if_neg (by
      rintro ⟨hr, hcc⟩
      exact hc ⟨by omega, by omega, by omega, by omega⟩)]
    simp


/-! ### Covered/uncovered wrappers -/

theorem writeBlk_at_covered (m : Nat → Nat → α) (e : Ev α) (r c : Nat)
    (hc : covers e r c) :
    writeBlk m e.r e.c e.b r c = e.b.entry (r - e.r) (c - e.c) := if_pos hc

theorem writeBlk_at_not_covered (m : Nat → Nat → α) (e : Ev α) (r c : Nat)
    (hc : ¬ covers e r c) :
    writeBlk m e.r e.c e.b r c = m r c := if_neg hc

theorem cooAt_blkTriplets_covered (e : Ev α) (r c : Nat) (hc : covers e r c) :
    cooAt (blkTriplets e.r e.c e.b) r c = e.b.entry (r - e.r) (c - e.c) := by
  rw [cooAt_blkTriplets]
  exact if_pos hc

theorem cooAt_blkTriplets_not_covered (e : Ev α) (r c : Nat)
    (hc : ¬ covers e r c) :
    cooAt (blkTriplets e.r e.c e.b) r c = 0 := by
  rw [cooAt_blkTriplets]
  exact if_neg hc

theorem cooAt_blkTripletsAll_covered (e : Ev α) (r c : Nat) (hc : covers e r c) :
    cooAt (blkTripletsAll e.r e.c e.b) r c = e.b.entry (r - e.r) (c - e.c) := by
  rw [cooAt_blkTripletsAll]
  exact if_pos hc

theorem cooAt_blkTripletsAll_not_covered (e : Ev α) (r c : Nat)
    (hc : ¬ covers e r c) :
    cooAt (blkTripletsAll e.r e.c e.b) r c = 0 := by
  rw [cooAt_blkTripletsAll]
  exact if_neg hc

/-! ### Master lemmas: unique-cover evaluation of write sequences and COO lists -/

/-- If no event covers a position, the sequence of writes leaves it unchanged. -/
theorem applyEvents_not_covered (l : List (Ev α)) (m0 : Nat → Nat → α)
    (r c : Nat) (h : ∀ e ∈ l, ¬ covers e r c) :
    applyEvents m0 l r c = m0 r c := by
  induction l generalizing m0 with
  | nil => rfl
  | cons e0 t ih =>
      simp only [applyEvents, List.foldl_cons] at *
      rw [ih _ (fun e2 he2 => h e2 (List.mem_cons_of_mem _ he2))]
      exact writeBlk_at_not_covered m0 e0 r c (h e0 (List.mem_cons_self _ _))

/-- With pairwise-disjoint write regions, the final value at a position
covered by some event is that event's entry (overwrite semantics). -/
theorem applyEvents_covered (l : List (Ev α)) (m0 : Nat → Nat → α)
    (hp : l.Pairwise evDisj) (e : Ev α) (he : e ∈ l)
    (r c : Nat) (hc : covers e r c) :
    applyEvents m0 l r c = e.b.entry (r - e.r) (c - e.c) := by
  induction l generalizing m0 with
  | nil => cases he
  | cons e0 t ih =>
      rw [List.pairwise_cons] at hp
      by_cases hc0 : covers e0 r c
      · have hee : e = e0 := by
          rcases List.mem_cons.mp he with h | h
          · exact h
          · exact absurd hc0 (fun hcc => evDisj_no_common (hp.1 e h) hcc hc)
        subst hee
        have hnotail : ∀ e2 ∈ t, ¬ covers e2 r c := by
          intro e2 he2 hc2
          exact evDisj_no_common (hp.1 e2 he2) hc0 hc2
        simp only [applyEvents, List.foldl_cons]
        rw [show (List.foldl (fun m e => writeBlk m e.r e.c e.b)
            (writeBlk m0 e.r e.c e.b) t) r c =
            applyEvents (writeBlk m0 e.r e.c e.b) t r c from rfl]
        rw [applyEvents_not_covered t _ r c hnotail]
        exact writeBlk_at_covered m0 e r c hc
      · have het : e ∈ t := by
          rcases List.mem_cons.mp he with h | h
          · exact absurd (h ▸ hc) hc0
          · exact h
        simp only [applyEvents, List.foldl_cons]
        exact ih _ hp.2 het

/-- COO accumulation over the zero-skipping triplets of a list of events,
at a position no event covers, is zero. -/
theorem cooAt_events_not_covered (l : List (Ev α)) (r c : Nat)
    (h : ∀ e ∈ l, ¬ covers e r c) :
    cooAt (l.flatMap fun e => blkTriplets e.r e.c e.b) r c = 0 := by
  induction l with
  | nil => rfl
  | cons e0 t ih =>
      rw [List.flatMap_cons, cooAt_append]
      rw [cooAt_blkTriplets_not_covered e0 r c (h e0 (List.mem_cons_self _ _))]
      rw [zero_add]
      exact ih (fun e2 he2 => h e2 (List.mem_cons_of_mem _ he2))

/-- With pairwise-disjoint regions, COO accumulation at a covered position
gives exactly the covering event's entry (zero-skipping variant: a skipped
exact zero accumulates to zero, which equals the entry). -/
theorem cooAt_events_covered (l : List (Ev α))
    (hp : l.Pairwise evDisj) (e : Ev α) (he : e ∈ l)
    (r c : Nat) (hc : covers e r c) :
    cooAt (l.flatMap fun e => blkTriplets e.r e.c e.b) r c =
      e.b.entry (r - e.r) (c - e.c) := by
  induction l with
  | nil => cases he
  | cons e0 t ih =>
      rw [List.pairwise_cons] at hp
      rw [List.flatMap_cons, cooAt_append]
      by_cases hc0 : covers e0 r c
      · have hee : e = e0 := by
          rcases List.mem_cons.mp he with h | h
          · exact h
          · exact absurd hc0 (fun hcc => evDisj_no_common (hp.1 e h) hcc hc)
        subst hee
        rw [cooAt_blkTriplets_covered e r c hc]
        rw [cooAt_events_not_covered t r c
          (fun e2 he2 hc2 => evDisj_no_common (hp.1 e2 he2) hc0 hc2), add_zero]
      · have het : e ∈ t := by
          rcases List.mem_cons.mp he with h | h
          · exact absurd (h ▸ hc) hc0
          · exact h
        rw [cooAt_blkTriplets_not_covered e0 r c hc0, zero_add]
        exact ih hp.2 het

/-- As `cooAt_events_not_covered`, for the zero-keeping triplet variant. -/
theorem cooAtAll_events_not_covered (l : List (Ev α)) (r c : Nat)
    (h : ∀ e ∈ l, ¬ covers e r c) :
    cooAt (l.flatMap fun e => blkTripletsAll e.r e.c e.b) r c = 0 := by
  induction l with
  | nil => rfl
  | cons e0 t ih =>
      rw [List.flatMap_cons, cooAt_append]
      rw [cooAt_blkTripletsAll_not_covered e0 r c (h e0 (List.mem_cons_self _ _))]
      rw [zero_add]
      exact ih (fun e2 he2 => h e2 (List.mem_cons_of_mem _ he2))

/-- As `cooAt_events_covered`, for the zero-keeping triplet variant. -/
theorem cooAtAll_events_covered (l : List (Ev α))
    (hp : l.Pairwise evDisj) (e : Ev α) (he : e ∈ l)
    (r c : Nat) (hc : covers e r c) :
    cooAt (l.flatMap fun e => blkTripletsAll e.r e.c e.b) r c =
      e.b.entry (r - e.r) (c - e.c) := by
  induction l with
  | nil => cases he
  | cons e0 t ih =>
      rw [List.pairwise_cons] at hp
      rw [List.flatMap_cons, cooAt_append]
      by_cases hc0 : covers e0 r c
      · have hee : e = e0 := by
          rcases List.mem_cons.mp he with h | h
          · exact h
          · exact absurd hc0 (fun hcc => evDisj_no_common (hp.1 e h) hcc hc)
        subst hee
        rw [cooAt_blkTripletsAll_covered e r c hc]
        rw [cooAtAll_events_not_covered t r c
          (fun e2 he2 hc2 => evDisj_no_common (hp.1 e2 he2) hc0 hc2), add_zero]
      · have het : e ∈ t := by
          rcases List.mem_cons.mp he with h | h
          · exact absurd (h ▸ hc) hc0
          · exact h
        rw [cooAt_blkTripletsAll_not_covered e0 r c hc0, zero_add]
        exact ih hp.2 het

/-! ### Offset arithmetic (cumulative-sum offset tables) -/

theorem list_sum_map_add {β : Type} (l : List β) (f g : β → α) :
    (l.map fun x => f x + g x).sum = (l.map f).sum + (l.map g).sum := by
  induction l with
  | nil => simp
  | cons x t ih =>
      simp only [List.map_cons, List.sum_cons, ih]
      ring

theorem off_mono (norb off : Nat → Nat) (n : Nat)
    (hcum : ∀ k, k < n → off (k + 1) = off k + norb k) :
    ∀ b, b ≤ n → ∀ a, a ≤ b → off a ≤ off b := by
  intro b
  induction b with
  | zero =>
      intro _ a ha
      have h0 : a = 0 := Nat.le_zero.mp ha
      simp [h0]
  | succ b ih =>
      intro hb a ha
      by_cases hcase : a = b + 1
      · simp [hcase]
      · have h1 : off a ≤ off b := ih (by omega) a (by omega)
        have h2 : off (b + 1) = off b + norb b := hcum b (by omega)
        omega

/-- Distinct blocks of a cumulative-offset partition occupy disjoint
index ranges: block decompositions of an index are unique. -/
theorem off_inj (norb off : Nat → Nat) (n : Nat)
    (hcum : ∀ k, k < n → off (k + 1) = off k + norb k)
    {a a2 i i2 : Nat} (ha : a < n) (ha2 : a2 < n)
    (hi : i < norb a) (hi2 : i2 < norb a2)
    (heq : off a + i = off a2 + i2) : a = a2 ∧ i = i2 := by
  rcases Nat.lt_trichotomy a a2 with h | h | h
  · exfalso
    have h1 : off (a + 1) = off a + norb a := hcum a (by omega)
    have h2 : off (a + 1) ≤ off a2 :=
      off_mono norb off n hcum a2 (by omega) (a + 1) (by omega)
    omega
  · exact ⟨h, by subst h; omega⟩
  · exfalso
    have h1 : off (a2 + 1) = off a2 + norb a2 := hcum a2 (by omega)
    have h2 : off (a2 + 1) ≤ off a :=
      off_mono norb off n hcum a (by omega) (a2 + 1) (by omega)
    omega

/-- Every index below the total decomposes into a block and an intra-block
offset. -/
theorem off_decomp (norb off : Nat → Nat) :
    ∀ n, (∀ k, k < n → off (k + 1) = off k + norb k) → off 0 = 0 →
    ∀ r, r < off n → ∃ a, a < n ∧ ∃ i, i < norb a ∧ r = off a + i := by
  intro n
  induction n with
  | zero =>
      intro _ h0 r hr
      rw [h0] at hr
      omega
  | succ n ih =>
      intro hcum h0 r hr
      rcases Nat.lt_or_ge r (off n) with h | h
      · obtain ⟨a, ha, i, hi, he⟩ := ih (fun k hk => hcum k (by omega)) h0 r h
        exact ⟨a, by omega, i, hi, he⟩
      · have h1 : off (n + 1) = off n + norb n := hcum n (by omega)
        exact ⟨n, by omega, r - off n, by omega, by omega⟩

/-! ## Non-vectorized full-system assemblers
(`make_sparse_full`, lines 106-173; `make_dense_full`, lines 215-247) -/

/-- The adjacency-graph interface the assemblers use (`CGraph`): a node
count and, per node, the list of outgoing neighbors. -/
structure CGraph where
  num_nodes : Nat
  out_neighbors : Nat → List Nat

/-- Hopping loop of `make_dense_full` (lines 235-246): for each outgoing
neighbor `ts` of `fs`, skip if `ts < fs`; otherwise evaluate `H(ts, fs)`,
validate its shape against `(to_norb[ts], from_norb[fs])`, write it at
`(to_off[ts], from_off[fs])` and its conjugate transpose at
`(from_off[fs], to_off[ts])`. -/
def denseHops (ham : Nat → Nat → Blk α)
    (to_norb to_off from_norb from_off : Nat → Nat) (fs : Nat)
    (m : Nat → Nat → α) : List Nat → Except (Nat × Nat) (Nat → Nat → α)
  | [] => .ok m
  | ts :: rest =>
      if ts < fs then denseHops ham to_norb to_off from_norb from_off fs m rest
      else
        let h := ham ts fs
        if h.rows = to_norb ts ∧ h.cols = from_norb fs then
          denseHops ham to_norb to_off from_norb from_off fs
            (writeBlk (writeBlk m (to_off ts) (from_off fs) h)
              (from_off fs) (to_off ts) h.adjoint) rest
        else .error (fs, ts)

/-- Site loop of `make_dense_full` (lines 228-246): write the onsite block
of `fs` at `(to_off[fs], from_off[fs])` after validating that it is square
of size `from_norb[fs]`, then process the outgoing neighbors. -/
def denseSites (ham : Nat → Nat → Blk α) (gr : CGraph) (diag : Nat → Blk α)
    (to_norb to_off from_norb from_off : Nat → Nat)
    (m : Nat → Nat → α) : List Nat → Except (Nat × Nat) (Nat → Nat → α)
  | [] => .ok m
  | fs :: rest =>
      let h := diag fs
      if h.rows = from_norb fs ∧ h.cols = from_norb fs then
        match denseHops ham to_norb to_off from_norb from_off fs
            (writeBlk m (to_off fs) (from_off fs) h) (gr.out_neighbors fs) with
        | .error e => .error e
        | .ok m2 => denseSites ham gr diag to_norb to_off from_norb from_off m2 rest
      else .error (fs, fs)

/-- `make_dense_full`: full-system dense assembly over all sites
`0, …, n-1`, starting from the zero-filled `np.zeros` buffer of shape
`(to_off[-1], from_off[-1])`. -/
def make_dense_full (ham : Nat → Nat → Blk α) (gr : CGraph) (diag : Nat → Blk α)
    (to_norb to_off from_norb from_off : Nat → Nat) : Except (Nat × Nat) (Blk α) :=
  (denseSites ham gr diag to_norb to_off from_norb from_off (fun _ _ => 0)
      (List.range gr.num_nodes)).map
    fun m => ⟨to_off gr.num_nodes, from_off gr.num_nodes, m⟩

/-- One processed hopping of `make_sparse_full` (lines 154-162): for each
nonzero entry `h[i,j]`, two consecutive triplets are emitted — the entry
at `(to_off[ts]+i, from_off[fs]+j)` and its conjugate at the mirrored
position `(from_off[fs]+j, to_off[ts]+i)`. -/
def sparseHopPairs (toOff fromOff : Nat) (h : Blk α) : List (Nat × Nat × α) :=
  (List.range h.rows).flatMap fun i =>
    (List.range h.cols).flatMap fun j =>
      if h.entry i j ≠ 0 then
        [(toOff + i, fromOff + j, h.entry i j),
         (fromOff + j, toOff + i, star (h.entry i j))]
      else []

/-- Hopping loop of `make_sparse_full` (lines 147-162). -/
def sparseHops (ham : Nat → Nat → Blk α)
    (to_norb to_off from_norb from_off : Nat → Nat) (fs : Nat) :
    List Nat → Except (Nat × Nat) (List (Nat × Nat × α))
  | [] => .ok []
  | ts :: rest =>
      if ts < fs then sparseHops ham to_norb to_off from_norb from_off fs rest
      else
        let h := ham ts fs
        if h.rows = to_norb ts ∧ h.cols = from_norb fs then
          (sparseHops ham to_norb to_off from_norb from_off fs rest).map
            fun tl => sparseHopPairs (to_off ts) (from_off fs) h ++ tl
        else .error (fs, ts)

/-- Site loop of `make_sparse_full` (lines 133-162): nonzero entries of the
onsite block of `fs`, then the hopping triplet pairs. -/
def sparseSites (ham : Nat → Nat → Blk α) (gr : CGraph) (diag : Nat → Blk α)
    (to_norb to_off from_norb from_off : Nat → Nat) :
    List Nat → Except (Nat × Nat) (List (Nat × Nat × α))
  | [] => .ok []
  | fs :: rest =>
      let h := diag fs
      if h.rows = from_norb fs ∧ h.cols = from_norb fs then
        match sparseHops ham to_norb to_off from_norb from_off fs
            (gr.out_neighbors fs) with
        | .error e => .error e
        | .ok hopT =>
            (sparseSites ham gr diag to_norb to_off from_norb from_off rest).map
              fun restT => blkTriplets (to_off fs) (from_off fs) h ++ hopT ++ restT
      else .error (fs, fs)

/-- A COO matrix: shape plus triplet data (`sp.coo_matrix`). -/
structure Coo (α : Type) where
  rows : Nat
  cols : Nat
  data : List (Nat × Nat × α)
  deriving DecidableEq

/-- `make_sparse_full`: full-system sparse assembly over all sites, with
the shape `(to_off[-1], from_off[-1])` passed to `sp.coo_matrix`. -/
def make_sparse_full (ham : Nat → Nat → Blk α) (gr : CGraph) (diag : Nat → Blk α)
    (to_norb to_off from_norb from_off : Nat → Nat) : Except (Nat × Nat) (Coo α) :=
  (sparseSites ham gr diag to_norb to_off from_norb from_off
      (List.range gr.num_nodes)).map
    fun tl => ⟨to_off gr.num_nodes, from_off gr.num_nodes, tl⟩

/-- The entry-counting pass of `make_sparse_full` (lines 121-128): one slot
per onsite entry, two slots per hopping entry, counted only for neighbors
with `fs < ts`. -/
def sparse_full_num_entries (gr : CGraph) (to_norb from_norb : Nat → Nat) : Nat :=
  (List.range gr.num_nodes).foldl
    (fun acc fs =>
      (gr.out_neighbors fs).foldl
        (fun a2 ts => if fs < ts then a2 + 2 * to_norb ts * from_norb fs else a2)
        (acc + from_norb fs * from_norb fs))
    0

/-! ### The interleaved hopping triplet pairs, pointwise -/

@[simp] theorem Blk.adjoint_rows (b : Blk α) : b.adjoint.rows = b.cols := rfl

@[simp] theorem Blk.adjoint_cols (b : Blk α) : b.adjoint.cols = b.rows := rfl

@[simp] theorem Blk.adjoint_entry (b : Blk α) (i j : Nat) :
    b.adjoint.entry i j = star (b.entry j i) := rfl

theorem cooAt_opt_single (r0 c0 : Nat) (v : α) (r c : Nat) :
    cooAt (if v ≠ 0 then [(r0, c0, v)] else []) r c =
      if r0 = r ∧ c0 = c then v else 0 := by
  by_cases hz : v ≠ 0
  · rw [if_pos hz]
    simp [cooAt]
  · rw [if_neg hz]
    push_neg at hz
    subst hz
    simp [cooAt]

theorem cooAt_opt_single_star (r0 c0 : Nat) (v : α) (r c : Nat) :
    cooAt (if v ≠ 0 then [(r0, c0, star v)] else []) r c =
      if r0 = r ∧ c0 = c then star v else 0 := by
  by_cases hz : v ≠ 0
  · rw [if_pos hz]
    simp [cooAt]
  · rw [if_neg hz]
    push_neg at hz
    subst hz
    simp [cooAt]

theorem cooAt_pair_chunk (toOff fromOff i j : Nat) (v : α) (r c : Nat) :
    cooAt (if v ≠ 0 then
        [(toOff + i, fromOff + j, v), (fromOff + j, toOff + i, star v)]
      else []) r c =
    cooAt (if v ≠ 0 then [(toOff + i, fromOff + j, v)] else []) r c +
    cooAt (if v ≠ 0 then [(fromOff + j, toOff + i, star v)] else []) r c := by
  by_cases hz : v ≠ 0
  · rw [if_pos hz, if_pos hz, if_pos hz]
    simp only [cooAt]
    ring
  · rw [if_neg hz, if_neg hz, if_neg hz]
    simp [cooAt]

theorem cooAt_mirror_part (toOff fromOff : Nat) (h : Blk α) (r c : Nat) :
    ((List.range h.rows).map fun i =>
      cooAt ((List.range h.cols).flatMap fun j =>
        if h.entry i j ≠ 0 then [(fromOff + j, toOff + i, star (h.entry i j))]
        else []) r c).sum =
    cooAt (blkTriplets fromOff toOff h.adjoint) r c := by
  have hM : ∀ i ∈ List.range h.rows,
      cooAt ((List.range h.cols).flatMap fun j =>
        if h.entry i j ≠ 0 then [(fromOff + j, toOff + i, star (h.entry i j))]
        else []) r c =
      ((List.range h.cols).map fun j =>
        if fromOff + j = r ∧ toOff + i = c then star (h.entry i j) else 0).sum := by
    intro i _
    rw [cooAt_flatMap]
    apply congrArg
    apply List.map_congr_left
    intro j _
    exact cooAt_opt_single_star (fromOff + j) (toOff + i) (h.entry i j) r c
  rw [List.map_congr_left hM]
  rw [cooAt_blkTriplets]
  by_cases hreg : fromOff ≤ r ∧ r < fromOff + h.adjoint.rows ∧
      toOff ≤ c ∧ c < toOff + h.adjoint.cols
  · rw [if_pos hreg]
    obtain ⟨g1, g2, g3, g4⟩ := hreg
    rw [Blk.adjoint_rows] at g2
    rw [Blk.adjoint_cols] at g4
    rw [list_sum_single (List.range h.rows) _ (c - toOff) (List.nodup_range _)
      (List.mem_range.mpr (by omega))]
    · rw [list_sum_single (List.range h.cols) _ (r - fromOff) (List.nodup_range _)
        (List.mem_range.mpr (by omega))]
      · rw [if_pos ⟨by omega, by omega⟩, Blk.adjoint_entry]
      · intro j hj hne
        rw [if_neg]
        rintro ⟨hj1, hi1⟩
        exact hne (by omega)
    · intro i hi hne
      apply list_sum_zero
      intro j hj
      rw [if_neg]
      rintro ⟨hj1, hi1⟩
      exact hne (by omega)
  · rw [if_neg hreg]
    apply list_sum_zero
    intro i hi
    apply list_sum_zero
    intro j hj
    rw [List.mem_range] at hi hj
    rw [if_neg]
    rintro ⟨h1, h2⟩
    refine hreg ⟨by omega, ?_, by omega, ?_⟩
    · rw [Blk.adjoint_rows]; omega
    · rw [Blk.adjoint_cols]; omega

/-- The interleaved `(entry, conjugate)` triplet stream of one hopping
accumulates, position by position, like the hopping block followed by its
conjugate-transpose block. -/
theorem cooAt_sparseHopPairs (toOff fromOff : Nat) (h : Blk α) (r c : Nat) :
    cooAt (sparseHopPairs toOff fromOff h) r c =
      cooAt (blkTriplets toOff fromOff h) r c +
      cooAt (blkTriplets fromOff toOff h.adjoint) r c := by
  unfold sparseHopPairs
  rw [cooAt_flatMap]
  have hrow : ∀ i ∈ List.range h.rows,
      cooAt ((List.range h.cols).flatMap fun j =>
        if h.entry i j ≠ 0 then
          [(toOff + i, fromOff + j, h.entry i j),
           (fromOff + j, toOff + i, star (h.entry i j))]
        else []) r c =
      cooAt ((List.range h.cols).flatMap fun j =>
        if h.entry i j ≠ 0 then [(toOff + i, fromOff + j, h.entry i j)]
        else []) r c +
      cooAt ((List.range h.cols).flatMap fun j =>
        if h.entry i j ≠ 0 then [(fromOff + j, toOff + i, star (h.entry i j))]
        else []) r c := by
    intro i _
    rw [cooAt_flatMap, cooAt_flatMap, cooAt_flatMap, ← list_sum_map_add]
    exact congrArg List.sum (List.map_congr_left
      (fun j _ => cooAt_pair_chunk toOff fromOff i j (h.entry i j) r c))
  rw [List.map_congr_left hrow, list_sum_map_add]
  congr 1
  · unfold blkTriplets
    rw [cooAt_flatMap]
  · exact cooAt_mirror_part toOff fromOff h r c

/-! ### Write-event view of the full-system traversal -/

/-- The write events produced by the hopping loop at site `fs`: neighbors
with `ts < fs` are skipped; each processed neighbor contributes the block
`H(ts, fs)` at `(to_off[ts], from_off[fs])` followed by its conjugate
transpose at `(from_off[fs], to_off[ts])`. -/
def hopEvents (ham : Nat → Nat → Blk α) (to_off from_off : Nat → Nat)
    (fs : Nat) : List Nat → List (Ev α)
  | [] => []
  | ts :: rest =>
      if ts < fs then hopEvents ham to_off from_off fs rest
      else
        ⟨to_off ts, from_off fs, ham ts fs⟩ ::
        ⟨from_off fs, to_off ts, (ham ts fs).adjoint⟩ ::
        hopEvents ham to_off from_off fs rest

/-- The write events of one site iteration: the onsite block, then the
hopping events. -/
def siteEvents (ham : Nat → Nat → Blk α) (gr : CGraph) (diag : Nat → Blk α)
    (to_off from_off : Nat → Nat) (fs : Nat) : List (Ev α) :=
  ⟨to_off fs, from_off fs, diag fs⟩ ::
    hopEvents ham to_off from_off fs (gr.out_neighbors fs)

/-- All write events of the full-system traversal, in traversal order. -/
def fullEvents (ham : Nat → Nat → Blk α) (gr : CGraph) (diag : Nat → Blk α)
    (to_off from_off : Nat → Nat) (sites : List Nat) : List (Ev α) :=
  sites.flatMap (siteEvents ham gr diag to_off from_off)

theorem denseHops_ok (ham : Nat → Nat → Blk α)
    (to_norb to_off from_norb from_off : Nat → Nat) (fs : Nat) :
    ∀ (l : List Nat) (m m2 : Nat → Nat → α),
      denseHops ham to_norb to_off from_norb from_off fs m l = .ok m2 →
      m2 = applyEvents m (hopEvents ham to_off from_off fs l) := by
  intro l
  induction l with
  | nil =>
      intro m m2 hh
      simp only [denseHops] at hh
      cases hh
      rfl
  | cons ts rest ih =>
      intro m m2 hh
      simp only [denseHops] at hh
      by_cases hlt : ts < fs
      · rw [if_pos hlt] at hh
        rw [show hopEvents ham to_off from_off fs (ts :: rest) =
          hopEvents ham to_off from_off fs rest from by
            simp only [hopEvents]; rw [if_pos hlt]]
        exact ih m m2 hh
      · rw [if_neg hlt] at hh
        by_cases hsh : (ham ts fs).rows = to_norb ts ∧
            (ham ts fs).cols = from_norb fs
        · rw [if_pos hsh] at hh
          rw [show hopEvents ham to_off from_off fs (ts :: rest) =
            ⟨to_off ts, from_off fs, ham ts fs⟩ ::
            ⟨from_off fs, to_off ts, (ham ts fs).adjoint⟩ ::
            hopEvents ham to_off from_off fs rest from by
              simp only [hopEvents]; rw [if_neg hlt]]
          exact ih _ m2 hh
        · rw [if_neg hsh] at hh
          cases hh

theorem denseSites_ok (ham : Nat → Nat → Blk α) (gr : CGraph)
    (diag : Nat → Blk α) (to_norb to_off from_norb from_off : Nat → Nat) :
    ∀ (sites : List Nat) (m m2 : Nat → Nat → α),
      denseSites ham gr diag to_norb to_off from_norb from_off m sites = .ok m2 →
      m2 = applyEvents m (fullEvents ham gr diag to_off from_off sites) := by
  intro sites
  induction sites with
  | nil =>
      intro m m2 hh
      simp only [denseSites] at hh
      cases hh
      rfl
  | cons fs rest ih =>
      intro m m2 hh
      simp only [denseSites] at hh
      by_cases hsh : (diag fs).rows = from_norb fs ∧ (diag fs).cols = from_norb fs
      · rw [if_pos hsh] at hh
        cases hd : denseHops ham to_norb to_off from_norb from_off fs
            (writeBlk m (to_off fs) (from_off fs) (diag fs))
            (gr.out_neighbors fs) with
        | error e => rw [hd] at hh; cases hh
        | ok m1 =>
            rw [hd] at hh
            have h1 := denseHops_ok ham to_norb to_off from_norb from_off fs
              (gr.out_neighbors fs) _ _ hd
            have h2 := ih m1 m2 hh
            rw [h2, h1]
            rw [show fullEvents ham gr diag to_off from_off (fs :: rest) =
              siteEvents ham gr diag to_off from_off fs ++
              fullEvents ham gr diag to_off from_off rest from by
                simp [fullEvents, List.flatMap_cons]]
            unfold applyEvents
            rw [List.foldl_append]
            rfl
      · rw [if_neg hsh] at hh
        cases hh

theorem sparseHops_ok (ham : Nat → Nat → Blk α)
    (to_norb to_off from_norb from_off : Nat → Nat) (fs : Nat) :
    ∀ (l : List Nat) (tl : List (Nat × Nat × α)),
      sparseHops ham to_norb to_off from_norb from_off fs l = .ok tl →
      ∀ r c, cooAt tl r c =
        cooAt ((hopEvents ham to_off from_off fs l).flatMap
          fun e => blkTriplets e.r e.c e.b) r c := by
  intro l
  induction l with
  | nil =>
      intro tl hh r c
      simp only [sparseHops] at hh
      cases hh
      rfl
  | cons ts rest ih =>
      intro tl hh r c
      simp only [sparseHops] at hh
      by_cases hlt : ts < fs
      · rw [if_pos hlt] at hh
        rw [show hopEvents ham to_off from_off fs (ts :: rest) =
          hopEvents ham to_off from_off fs rest from by
            simp only [hopEvents]; rw [if_pos hlt]]
        exact ih tl hh r c
      · rw [if_neg hlt] at hh
        by_cases hsh : (ham ts fs).rows = to_norb ts ∧
            (ham ts fs).cols = from_norb fs
        · rw [if_pos hsh] at hh
          cases hrec : sparseHops ham to_norb to_off from_norb from_off fs rest with
          | error e => rw [hrec] at hh; cases hh
          | ok tl2 =>
              rw [hrec] at hh
              simp only [Except.map] at hh
              cases hh
              rw [show hopEvents ham to_off from_off fs (ts :: rest) =
                ⟨to_off ts, from_off fs, ham ts fs⟩ ::
                ⟨from_off fs, to_off ts, (ham ts fs).adjoint⟩ ::
                hopEvents ham to_off from_off fs rest from by
                  simp only [hopEvents]; rw [if_neg hlt]]
              rw [List.flatMap_cons, List.flatMap_cons]
              rw [cooAt_append, cooAt_append, cooAt_append]
              rw [cooAt_sparseHopPairs]
              rw [ih tl2 hrec r c, add_assoc]
        · rw [if_neg hsh] at hh
          cases hh

theorem sparseSites_ok (ham : Nat → Nat → Blk α) (gr : CGraph)
    (diag : Nat → Blk α) (to_norb to_off from_norb from_off : Nat → Nat) :
    ∀ (sites : List Nat) (tl : List (Nat × Nat × α)),
      sparseSites ham gr diag to_norb to_off from_norb from_off sites = .ok tl →
      ∀ r c, cooAt tl r c =
        cooAt ((fullEvents ham gr diag to_off from_off sites).flatMap
          fun e => blkTriplets e.r e.c e.b) r c := by
  intro sites
  induction sites with
  | nil =>
      intro tl hh r c
      simp only [sparseSites] at hh
      cases hh
      rfl
  | cons fs rest ih =>
      intro tl hh r c
      simp only [sparseSites] at hh
      by_cases hsh : (diag fs).rows = from_norb fs ∧ (diag fs).cols = from_norb fs
      · rw [if_pos hsh] at hh
        cases hd : sparseHops ham to_norb to_off from_norb from_off fs
            (gr.out_neighbors fs) with
        | error e => rw [hd] at hh; cases hh
        | ok hopT =>
            rw [hd] at hh
            cases hrest : sparseSites ham gr diag to_norb to_off from_norb
                from_off rest with
            | error e => rw [hrest] at hh; cases hh
            | ok restT =>
                rw [hrest] at hh
                simp only [Except.map] at hh
                cases hh
                rw [show fullEvents ham gr diag to_off from_off (fs :: rest) =
                  ⟨to_off fs, from_off fs, diag fs⟩ ::
                  (hopEvents ham to_off from_off fs (gr.out_neighbors fs) ++
                   fullEvents ham gr diag to_off from_off rest) from by
                    simp [fullEvents, List.flatMap_cons, siteEvents]]
                rw [List.flatMap_cons, List.flatMap_append]
                rw [cooAt_append, cooAt_append, cooAt_append, cooAt_append]
                rw [sparseHops_ok ham to_norb to_off from_norb from_off fs
                  (gr.out_neighbors fs) hopT hd r c]
                rw [ih restT hrest r c, add_assoc]
      · rw [if_neg hsh] at hh
        cases hh

/-! ### Shape facts extracted from a successful assembly -/

theorem denseHops_ok_shapes (ham : Nat → Nat → Blk α)
    (to_norb to_off from_norb from_off : Nat → Nat) (fs : Nat) :
    ∀ (l : List Nat) (m m2 : Nat → Nat → α),
      denseHops ham to_norb to_off from_norb from_off fs m l = .ok m2 →
      ∀ ts ∈ l, ¬ ts < fs →
        (ham ts fs).rows = to_norb ts ∧ (ham ts fs).cols = from_norb fs := by
  intro l
  induction l with
  | nil => intro m m2 _ ts hts; cases hts
  | cons ts0 rest ih =>
      intro m m2 hh ts hts hge
      simp only [denseHops] at hh
      by_cases hlt : ts0 < fs
      · rw [if_pos hlt] at hh
        rcases List.mem_cons.mp hts with h | h
        · exact absurd (h ▸ hlt) hge
        · exact ih m m2 hh ts h hge
      · rw [if_neg hlt] at hh
        by_cases hsh : (ham ts0 fs).rows = to_norb ts0 ∧
            (ham ts0 fs).cols = from_norb fs
        · rw [if_pos hsh] at hh
          rcases List.mem_cons.mp hts with h | h
          · subst h; exact hsh
          · exact ih _ m2 hh ts h hge
        · rw [if_neg hsh] at hh
          cases hh

theorem sparseHops_ok_shapes (ham : Nat → Nat → Blk α)
    (to_norb to_off from_norb from_off : Nat → Nat) (fs : Nat) :
    ∀ (l : List Nat) (tl : List (Nat × Nat × α)),
      sparseHops ham to_norb to_off from_norb from_off fs l = .ok tl →
      ∀ ts ∈ l, ¬ ts < fs →
        (ham ts fs).rows = to_norb ts ∧ (ham ts fs).cols = from_norb fs := by
  intro l
  induction l with
  | nil => intro tl _ ts hts; cases hts
  | cons ts0 rest ih =>
      intro tl hh ts hts hge
      simp only [sparseHops] at hh
      by_cases hlt : ts0 < fs
      · rw [if_pos hlt] at hh
        rcases List.mem_cons.mp hts with h | h
        · exact absurd (h ▸ hlt) hge
        · exact ih tl hh ts h hge
      · rw [if_neg hlt] at hh
        by_cases hsh : (ham ts0 fs).rows = to_norb ts0 ∧
            (ham ts0 fs).cols = from_norb fs
        · rw [if_pos hsh] at hh
          rcases List.mem_cons.mp hts with h | h
          · subst h; exact hsh
          · cases hrec : sparseHops ham to_norb to_off from_norb from_off fs rest with
            | error e => rw [hrec] at hh; cases hh
            | ok tl2 => exact ih tl2 hrec ts h hge
        · rw [if_neg hsh] at hh
          cases hh

theorem denseSites_ok_shapes (ham : Nat → Nat → Blk α) (gr : CGraph)
    (diag : Nat → Blk α) (to_norb to_off from_norb from_off : Nat → Nat) :
    ∀ (sites : List Nat) (m m2 : Nat → Nat → α),
      denseSites ham gr diag to_norb to_off from_norb from_off m sites = .ok m2 →
      ∀ fs ∈ sites,
        ((diag fs).rows = from_norb fs ∧ (diag fs).cols = from_norb fs) ∧
        ∀ ts ∈ gr.out_neighbors fs, ¬ ts < fs →
          (ham ts fs).rows = to_norb ts ∧ (ham ts fs).cols = from_norb fs := by
  intro sites
  induction sites with
  | nil => intro m m2 _ fs hfs; cases hfs
  | cons fs0 rest ih =>
      intro m m2 hh fs hfs
      simp only [denseSites] at hh
      by_cases hsh : (diag fs0).rows = from_norb fs0 ∧
          (diag fs0).cols = from_norb fs0
      · rw [if_pos hsh] at hh
        cases hd : denseHops ham to_norb to_off from_norb from_off fs0
            (writeBlk m (to_off fs0) (from_off fs0) (diag fs0))
            (gr.out_neighbors fs0) with
        | error e => rw [hd] at hh; cases hh
        | ok m1 =>
            rw [hd] at hh
            rcases List.mem_cons.mp hfs with h | h
            · subst h
              exact ⟨hsh, denseHops_ok_shapes ham to_norb to_off from_norb
                from_off fs (gr.out_neighbors fs) _ _ hd⟩
            · exact ih m1 m2 hh fs h
      · rw [if_neg hsh] at hh
        cases hh

theorem sparseSites_ok_shapes (ham : Nat → Nat → Blk α) (gr : CGraph)
    (diag : Nat → Blk α) (to_norb to_off from_norb from_off : Nat → Nat) :
    ∀ (sites : List Nat) (tl : List (Nat × Nat × α)),
      sparseSites ham gr diag to_norb to_off from_norb from_off sites = .ok tl →
      ∀ fs ∈ sites,
        ((diag fs).rows = from_norb fs ∧ (diag fs).cols = from_norb fs) ∧
        ∀ ts ∈ gr.out_neighbors fs, ¬ ts < fs →
          (ham ts fs).rows = to_norb ts ∧ (ham ts fs).cols = from_norb fs := by
  intro sites
  induction sites with
  | nil => intro tl _ fs hfs; cases hfs
  | cons fs0 rest ih =>
      intro tl hh fs hfs
      simp only [sparseSites] at hh
      by_cases hsh : (diag fs0).rows = from_norb fs0 ∧
          (diag fs0).cols = from_norb fs0
      · rw [if_pos hsh] at hh
        cases hd : sparseHops ham to_norb to_off from_norb from_off fs0
            (gr.out_neighbors fs0) with
        | error e => rw [hd] at hh; cases hh
        | ok hopT =>
            rw [hd] at hh
            cases hrest : sparseSites ham gr diag to_norb to_off from_norb
                from_off rest with
            | error e => rw [hrest] at hh; cases hh
            | ok restT =>
                rcases List.mem_cons.mp hfs with h | h
                · subst h
                  exact ⟨hsh, sparseHops_ok_shapes ham to_norb to_off from_norb
                    from_off fs (gr.out_neighbors fs) hopT hd⟩
                · exact ih restT hrest fs h
      · rw [if_neg hsh] at hh
        cases hh

/-! ### Block coordinates and pairwise disjointness of the full-system events

Throughout, the full-system instantiation is symmetric: `to_norb` and
`from_norb` are the same per-site orbital table `norb`, and `to_off` and
`from_off` the same cumulative table `off` (in `hamiltonian_submatrix`,
`to_sites is from_sites is None` aliases the arrays). -/

/-- The event is the block at block coordinates `(a, b)` of the `off`
partition. -/
def GoodEv (norb off : Nat → Nat) (e : Ev α) (a b : Nat) : Prop :=
  e.r = off a ∧ e.c = off b ∧ e.b.rows = norb a ∧ e.b.cols = norb b

theorem goodEv_disj (norb off : Nat → Nat) (n : Nat)
    (hcum : ∀ k, k < n → off (k + 1) = off k + norb k)
    {a b a2 b2 : Nat} (ha : a < n) (hb : b < n) (ha2 : a2 < n) (hb2 : b2 < n)
    (hne : ¬(a = a2 ∧ b = b2)) {e e2 : Ev α}
    (g : GoodEv norb off e a b) (g2 : GoodEv norb off e2 a2 b2) :
    evDisj e e2 := by
  obtain ⟨g1, gc, g3, g4⟩ := g
  obtain ⟨k1, k2, k3, k4⟩ := g2
  unfold evDisj
  rw [g1, gc, g3, g4, k1, k2, k3, k4]
  rcases Nat.lt_trichotomy a a2 with h | h | h
  · have h1 : off (a + 1) = off a + norb a := hcum a ha
    have h2 : off (a + 1) ≤ off a2 :=
      off_mono norb off n hcum a2 (by omega) (a + 1) (by omega)
    omega
  · subst h
    have hbb : b ≠ b2 := fun hh => hne ⟨rfl, hh⟩
    rcases Nat.lt_trichotomy b b2 with h | h | h
    · have h1 : off (b + 1) = off b + norb b := hcum b hb
      have h2 : off (b + 1) ≤ off b2 :=
        off_mono norb off n hcum b2 (by omega) (b + 1) (by omega)
      omega
    · exact absurd h hbb
    · have h1 : off (b2 + 1) = off b2 + norb b2 := hcum b2 hb2
      have h2 : off (b2 + 1) ≤ off b :=
        off_mono norb off n hcum b (by omega) (b2 + 1) (by omega)
      omega
  · have h1 : off (a2 + 1) = off a2 + norb a2 := hcum a2 ha2
    have h2 : off (a2 + 1) ≤ off a :=
      off_mono norb off n hcum a (by omega) (a2 + 1) (by omega)
    omega

theorem mem_hopEvents (ham : Nat → Nat → Blk α) (to_off from_off : Nat → Nat)
    (fs : Nat) : ∀ (l : List Nat) (e : Ev α),
    e ∈ hopEvents ham to_off from_off fs l ↔
      ∃ ts, ts ∈ l ∧ ¬ ts < fs ∧
        (e = ⟨to_off ts, from_off fs, ham ts fs⟩ ∨
         e = ⟨from_off fs, to_off ts, (ham ts fs).adjoint⟩) := by
  intro l
  induction l with
  | nil =>
      intro e
      simp [hopEvents]
  | cons ts0 rest ih =>
      intro e
      by_cases hlt : ts0 < fs
      · rw [show hopEvents ham to_off from_off fs (ts0 :: rest) =
          hopEvents ham to_off from_off fs rest from by
            simp only [hopEvents]; rw [if_pos hlt]]
        rw [ih e]
        constructor
        · rintro ⟨ts, h1, h2, h3⟩
          exact ⟨ts, List.mem_cons_of_mem _ h1, h2, h3⟩
        · rintro ⟨ts, h1, h2, h3⟩
          rcases List.mem_cons.mp h1 with h | h
          · exact absurd (h ▸ hlt) h2
          · exact ⟨ts, h, h2, h3⟩
      · rw [show hopEvents ham to_off from_off fs (ts0 :: rest) =
          ⟨to_off ts0, from_off fs, ham ts0 fs⟩ ::
          ⟨from_off fs, to_off ts0, (ham ts0 fs).adjoint⟩ ::
          hopEvents ham to_off from_off fs rest from by
            simp only [hopEvents]; rw [if_neg hlt]]
        simp only [List.mem_cons]
        rw [ih e]
        constructor
        · rintro (h | h | ⟨ts, h1, h2, h3⟩)
          · exact ⟨ts0, Or.inl rfl, hlt, Or.inl h⟩
          · exact ⟨ts0, Or.inl rfl, hlt, Or.inr h⟩
          · exact ⟨ts, Or.inr h1, h2, h3⟩
        · rintro ⟨ts, h1, h2, h3⟩
          rcases h1 with h | h
          · subst h
            rcases h3 with h3 | h3
            · exact Or.inl h3
            · exact Or.inr (Or.inl h3)
          · exact Or.inr (Or.inr ⟨ts, h, h2, h3⟩)

/-- Every event of one site iteration sits at block coordinates `(a, b)`
with `a = b = fs`, or `b = fs < a`, or `a = fs < b`. -/
theorem siteEvents_coords (ham : Nat → Nat → Blk α) (gr : CGraph)
    (diag : Nat → Blk α) (norb off : Nat → Nat) (n : Nat) (fs : Nat)
    (hfs : fs < n)
    (hbound : ∀ ts ∈ gr.out_neighbors fs, ts < n)
    (hself : fs ∉ gr.out_neighbors fs)
    (hdsh : (diag fs).rows = norb fs ∧ (diag fs).cols = norb fs)
    (hhsh : ∀ ts ∈ gr.out_neighbors fs, ¬ ts < fs →
      (ham ts fs).rows = norb ts ∧ (ham ts fs).cols = norb fs)
    (e : Ev α) (he : e ∈ siteEvents ham gr diag off off fs) :
    ∃ a b, a < n ∧ b < n ∧ GoodEv norb off e a b ∧
      ((a = fs ∧ b = fs ∧ e = ⟨off fs, off fs, diag fs⟩) ∨
       (b = fs ∧ fs < a ∧ a ∈ gr.out_neighbors fs ∧
         e = ⟨off a, off fs, ham a fs⟩) ∨
       (a = fs ∧ fs < b ∧ b ∈ gr.out_neighbors fs ∧
         e = ⟨off fs, off b, (ham b fs).adjoint⟩)) := by
  rcases List.mem_cons.mp he with h | h
  · subst h
    exact ⟨fs, fs, hfs, hfs, ⟨rfl, rfl, hdsh.1, hdsh.2⟩, Or.inl ⟨rfl, rfl, rfl⟩⟩
  · obtain ⟨ts, h1, h2, h3⟩ := (mem_hopEvents ham off off fs _ e).mp h
    have hts : ts < n := hbound ts h1
    have htsne : ts ≠ fs := fun hh => hself (hh ▸ h1)
    have hsh := hhsh ts h1 h2
    rcases h3 with h3 | h3
    · subst h3
      exact ⟨ts, fs, hts, hfs, ⟨rfl, rfl, hsh.1, hsh.2⟩,
        Or.inr (Or.inl ⟨rfl, by omega, h1, rfl⟩)⟩
    · subst h3
      refine ⟨fs, ts, hfs, hts, ⟨rfl, rfl, ?_, ?_⟩,
        Or.inr (Or.inr ⟨rfl, by omega, h1, rfl⟩)⟩
      · rw [Blk.adjoint_rows, hsh.2]
      · rw [Blk.adjoint_cols, hsh.1]

/-- The events of one site iteration have pairwise-disjoint regions. -/
theorem siteEvents_pairwise (ham : Nat → Nat → Blk α) (gr : CGraph)
    (diag : Nat → Blk α) (norb off : Nat → Nat) (n : Nat) (fs : Nat)
    (hcum : ∀ k, k < n → off (k + 1) = off k + norb k)
    (hfs : fs < n)
    (hbound : ∀ ts ∈ gr.out_neighbors fs, ts < n)
    (hself : fs ∉ gr.out_neighbors fs)
    (hnodup : (gr.out_neighbors fs).Nodup)
    (hdsh : (diag fs).rows = norb fs ∧ (diag fs).cols = norb fs)
    (hhsh : ∀ ts ∈ gr.out_neighbors fs, ¬ ts < fs →
      (ham ts fs).rows = norb ts ∧ (ham ts fs).cols = norb fs) :
    (siteEvents ham gr diag off off fs).Pairwise evDisj := by
  unfold siteEvents
  rw [List.pairwise_cons]
  constructor
  · -- the onsite event is disjoint from every hopping event
    intro e2 he2
    obtain ⟨ts, h1, h2, h3⟩ := (mem_hopEvents ham off off fs _ e2).mp he2
    have hts : ts < n := hbound ts h1
    have htsne : ts ≠ fs := fun hh => hself (hh ▸ h1)
    have hsh := hhsh ts h1 h2
    rcases h3 with h3 | h3
    · subst h3
      exact goodEv_disj norb off n hcum hfs hfs hts hfs
        (by rintro ⟨hh, -⟩; exact htsne hh.symm)
        ⟨rfl, rfl, hdsh.1, hdsh.2⟩ ⟨rfl, rfl, hsh.1, hsh.2⟩
    · subst h3
      exact goodEv_disj norb off n hcum hfs hfs hfs hts
        (by rintro ⟨-, hh⟩; exact htsne hh.symm)
        ⟨rfl, rfl, hdsh.1, hdsh.2⟩
        ⟨rfl, rfl, by rw [Blk.adjoint_rows, hsh.2], by rw [Blk.adjoint_cols, hsh.1]⟩
  · -- hopping events are pairwise disjoint
    have main : ∀ l : List Nat, l.Nodup → (∀ ts ∈ l, ts ∈ gr.out_neighbors fs) →
        (hopEvents ham off off fs l).Pairwise evDisj := by
      intro l
      induction l with
      | nil => intro _ _; simp [hopEvents]
      | cons ts0 rest ih =>
          intro hnd hmem
          have hndr := (List.nodup_cons.mp hnd).2
          have hnin := (List.nodup_cons.mp hnd).1
          by_cases hlt : ts0 < fs
          · rw [show hopEvents ham off off fs (ts0 :: rest) =
              hopEvents ham off off fs rest from by
                simp only [hopEvents]; rw [if_pos hlt]]
            exact ih hndr (fun ts h => hmem ts (List.mem_cons_of_mem _ h))
          · have hts0 : ts0 ∈ gr.out_neighbors fs := hmem ts0 (List.mem_cons_self _ _)
            have hts0n : ts0 < n := hbound ts0 hts0
            have hts0ne : ts0 ≠ fs := fun hh => hself (hh ▸ hts0)
            have hsh0 := hhsh ts0 hts0 hlt
            have tailco : ∀ e2 ∈ hopEvents ham off off fs rest,
                ∃ a b, a < n ∧ b < n ∧ GoodEv norb off e2 a b ∧
                  ((b = fs ∧ fs < a ∧ a ≠ ts0) ∨ (a = fs ∧ fs < b ∧ b ≠ ts0)) := by
              intro e2 he2
              obtain ⟨ts, h1, h2, h3⟩ := (mem_hopEvents ham off off fs _ e2).mp he2
              have hmem2 : ts ∈ gr.out_neighbors fs := hmem ts (List.mem_cons_of_mem _ h1)
              have htsn : ts < n := hbound ts hmem2
              have htsne : ts ≠ fs := fun hh => hself (hh ▸ hmem2)
              have hne0 : ts ≠ ts0 := fun hh => hnin (hh ▸ h1)
              have hsh := hhsh ts hmem2 h2
              rcases h3 with h3 | h3
              · subst h3
                exact ⟨ts, fs, htsn, hfs, ⟨rfl, rfl, hsh.1, hsh.2⟩,
                  Or.inl ⟨rfl, by omega, hne0⟩⟩
              · subst h3
                refine ⟨fs, ts, hfs, htsn, ⟨rfl, rfl, ?_, ?_⟩,
                  Or.inr ⟨rfl, by omega, hne0⟩⟩
                · rw [Blk.adjoint_rows, hsh.2]
                · rw [Blk.adjoint_cols, hsh.1]
            rw [show hopEvents ham off off fs (ts0 :: rest) =
              ⟨off ts0, off fs, ham ts0 fs⟩ ::
              ⟨off fs, off ts0, (ham ts0 fs).adjoint⟩ ::
              hopEvents ham off off fs rest from by
                simp only [hopEvents]; rw [if_neg hlt]]
            rw [List.pairwise_cons, List.pairwise_cons]
            refine ⟨?_, ?_, ih hndr (fun ts h => hmem ts (List.mem_cons_of_mem _ h))⟩
            · intro e2 he2
              rcases List.mem_cons.mp he2 with h | h
              · subst h
                exact goodEv_disj norb off n hcum hts0n hfs hfs hts0n
                  (by rintro ⟨hh, -⟩; exact hts0ne hh)
                  ⟨rfl, rfl, hsh0.1, hsh0.2⟩
                  ⟨rfl, rfl, by rw [Blk.adjoint_rows, hsh0.2],
                   by rw [Blk.adjoint_cols, hsh0.1]⟩
              · obtain ⟨a, b, han, hbn, hg, hcase⟩ := tailco e2 h
                refine goodEv_disj norb off n hcum hts0n hfs han hbn ?_
                  ⟨rfl, rfl, hsh0.1, hsh0.2⟩ hg
                rintro ⟨h1, h2⟩
                rcases hcase with ⟨c1, c2, c3⟩ | ⟨c1, c2, c3⟩
                · exact c3 h1.symm
                · omega
            · intro e2 he2
              obtain ⟨a, b, han, hbn, hg, hcase⟩ := tailco e2 he2
              refine goodEv_disj norb off n hcum hfs hts0n han hbn ?_
                ⟨rfl, rfl, by rw [Blk.adjoint_rows, hsh0.2],
                 by rw [Blk.adjoint_cols, hsh0.1]⟩ hg
              rintro ⟨h1, h2⟩
              rcases hcase with ⟨c1, c2, c3⟩ | ⟨c1, c2, c3⟩
              · omega
              · exact c3 h2.symm
    exact main (gr.out_neighbors fs) hnodup (fun ts h => h)

theorem pairwise_flatMap_of {β γ : Type} {R : γ → γ → Prop} {l : List β}
    {f : β → List γ}
    (h1 : ∀ x ∈ l, (f x).Pairwise R)
    (h2 : l.Pairwise fun x y => ∀ e1 ∈ f x, ∀ e2 ∈ f y, R e1 e2) :
    (l.flatMap f).Pairwise R := by
  induction l with
  | nil => simp
  | cons x t ih =>
      rw [List.flatMap_cons, List.pairwise_append]
      rw [List.pairwise_cons] at h2
      refine ⟨h1 x (List.mem_cons_self _ _),
        ih (fun y hy => h1 y (List.mem_cons_of_mem _ hy)) h2.2, ?_⟩
      intro e1 he1 e2 he2
      obtain ⟨y, hy, he2y⟩ := List.mem_flatMap.mp he2
      exact h2.1 y hy e1 he1 e2 he2y

/-- All write events of the full-system assembly over `0, …, n-1` have
pairwise-disjoint regions: no matrix position is written twice. Requires
the graph to have no self-loops and duplicate-free neighbor lists. -/
theorem fullEvents_pairwise (ham : Nat → Nat → Blk α) (gr : CGraph)
    (diag : Nat → Blk α) (norb off : Nat → Nat) (n : Nat)
    (hcum : ∀ k, k < n → off (k + 1) = off k + norb k)
    (hbound : ∀ fs, fs < n → ∀ ts ∈ gr.out_neighbors fs, ts < n)
    (hself : ∀ fs, fs < n → fs ∉ gr.out_neighbors fs)
    (hnodup : ∀ fs, fs < n → (gr.out_neighbors fs).Nodup)
    (hdsh : ∀ fs, fs < n → (diag fs).rows = norb fs ∧ (diag fs).cols = norb fs)
    (hhsh : ∀ fs, fs < n → ∀ ts ∈ gr.out_neighbors fs, ¬ ts < fs →
      (ham ts fs).rows = norb ts ∧ (ham ts fs).cols = norb fs) :
    (fullEvents ham gr diag off off (List.range n)).Pairwise evDisj := by
  unfold fullEvents
  apply pairwise_flatMap_of
  · intro fs hfs
    rw [List.mem_range] at hfs
    exact siteEvents_pairwise ham gr diag norb off n fs hcum hfs
      (hbound fs hfs) (hself fs hfs) (hnodup fs hfs) (hdsh fs hfs) (hhsh fs hfs)
  · have key : ∀ fs1 fs2, fs1 < n → fs2 < n → fs1 ≠ fs2 →
        ∀ e1 ∈ siteEvents ham gr diag off off fs1,
        ∀ e2 ∈ siteEvents ham gr diag off off fs2, evDisj e1 e2 := by
      intro fs1 fs2 hn1 hn2 hne e1 he1 e2 he2
      obtain ⟨a1, b1, ha1, hb1, hg1, hc1⟩ := siteEvents_coords ham gr diag
        norb off n fs1 hn1 (hbound fs1 hn1) (hself fs1 hn1) (hdsh fs1 hn1)
        (hhsh fs1 hn1) e1 he1
      obtain ⟨a2, b2, ha2, hb2, hg2, hc2⟩ := siteEvents_coords ham gr diag
        norb off n fs2 hn2 (hbound fs2 hn2) (hself fs2 hn2) (hdsh fs2 hn2)
        (hhsh fs2 hn2) e2 he2
      refine goodEv_disj norb off n hcum ha1 hb1 ha2 hb2 ?_ hg1 hg2
      rintro ⟨hh1, hh2⟩
      rcases hc1 with ⟨c1, c2, -⟩ | ⟨c1, c2, -⟩ | ⟨c1, c2, -⟩ <;>
        rcases hc2 with ⟨d1, d2, -⟩ | ⟨d1, d2, -⟩ | ⟨d1, d2, -⟩ <;> omega
    have hlt : (List.range n).Pairwise (· < ·) := List.pairwise_lt_range n
    exact hlt.imp_of_mem (fun ha hb hab =>
      key _ _ (List.mem_range.mp ha) (List.mem_range.mp hb) (Nat.ne_of_lt hab))

/-- The block that the full-system traversal writes at block coordinates
`(a, b)`: the onsite block on the diagonal; for `b < a` the hopping block
`H(a, b)` if the graph has the edge `b → a`; for `a < b` the conjugate
transpose of `H(b, a)` if the graph has the edge `a → b`; nothing
otherwise. -/
def fullBlockVal (ham : Nat → Nat → Blk α) (gr : CGraph) (diag : Nat → Blk α)
    (a b : Nat) : Option (Blk α) :=
  if a = b then some (diag a)
  else if b < a ∧ a ∈ gr.out_neighbors b then some (ham a b)
  else if a < b ∧ b ∈ gr.out_neighbors a then some ((ham b a).adjoint)
  else none

theorem fullEvents_cover_some (ham : Nat → Nat → Blk α) (gr : CGraph)
    (diag : Nat → Blk α) (norb off : Nat → Nat) (n : Nat)
    (hdsh : ∀ fs, fs < n → (diag fs).rows = norb fs ∧ (diag fs).cols = norb fs)
    (hhsh : ∀ fs, fs < n → ∀ ts ∈ gr.out_neighbors fs, ¬ ts < fs →
      (ham ts fs).rows = norb ts ∧ (ham ts fs).cols = norb fs)
    (a b i j : Nat) (ha : a < n) (hb : b < n) (hi : i < norb a) (hj : j < norb b)
    (blk : Blk α) (hbv : fullBlockVal ham gr diag a b = some blk) :
    ∃ e, e ∈ fullEvents ham gr diag off off (List.range n) ∧
      e.r = off a ∧ e.c = off b ∧ e.b = blk ∧
      covers e (off a + i) (off b + j) := by
  unfold fullBlockVal at hbv
  by_cases hab : a = b
  · rw [if_pos hab] at hbv
    subst hab
    obtain rfl : diag a = blk := Option.some.inj hbv
    refine ⟨⟨off a, off a, diag a⟩, ?_, rfl, rfl, rfl, ?_, ?_, ?_, ?_⟩
    · exact List.mem_flatMap.mpr
        ⟨a, List.mem_range.mpr ha, List.mem_cons_self _ _⟩
    · show off a ≤ off a + i
      omega
    · show off a + i < off a + (diag a).rows
      have h1 : (diag a).rows = norb a := (hdsh a ha).1
      omega
    · show off a ≤ off a + j
      omega
    · show off a + j < off a + (diag a).cols
      have h2 : (diag a).cols = norb a := (hdsh a ha).2
      omega
  · rw [if_neg hab] at hbv
    by_cases hcase : b < a ∧ a ∈ gr.out_neighbors b
    · rw [if_pos hcase] at hbv
      obtain rfl : ham a b = blk := Option.some.inj hbv
      have hsh := hhsh b hb a hcase.2 (by omega)
      refine ⟨⟨off a, off b, ham a b⟩, ?_, rfl, rfl, rfl, ?_, ?_, ?_, ?_⟩
      · refine List.mem_flatMap.mpr ⟨b, List.mem_range.mpr hb,
          List.mem_cons_of_mem _ ?_⟩
        exact (mem_hopEvents ham off off b (gr.out_neighbors b) _).mpr
          ⟨a, hcase.2, by omega, Or.inl rfl⟩
      · show off a ≤ off a + i
        omega
      · show off a + i < off a + (ham a b).rows
        omega
      · show off b ≤ off b + j
        omega
      · show off b + j < off b + (ham a b).cols
        omega
    · rw [if_neg hcase] at hbv
      by_cases hcase2 : a < b ∧ b ∈ gr.out_neighbors a
      · rw [if_pos hcase2] at hbv
        obtain rfl : (ham b a).adjoint = blk := Option.some.inj hbv
        have hsh := hhsh a ha b hcase2.2 (by omega)
        refine ⟨⟨off a, off b, (ham b a).adjoint⟩, ?_, rfl, rfl, rfl,
          ?_, ?_, ?_, ?_⟩
        · refine List.mem_flatMap.mpr ⟨a, List.mem_range.mpr ha,
            List.mem_cons_of_mem _ ?_⟩
          exact (mem_hopEvents ham off off a (gr.out_neighbors a) _).mpr
            ⟨b, hcase2.2, by omega, Or.inr rfl⟩
        · show off a ≤ off a + i
          omega
        · show off a + i < off a + (ham b a).adjoint.rows
          rw [Blk.adjoint_rows]
          omega
        · show off b ≤ off b + j
          omega
        · show off b + j < off b + (ham b a).adjoint.cols
          rw [Blk.adjoint_cols]
          omega
      · rw [if_neg hcase2] at hbv
        cases hbv

theorem fullEvents_cover_none (ham : Nat → Nat → Blk α) (gr : CGraph)
    (diag : Nat → Blk α) (norb off : Nat → Nat) (n : Nat)
    (hcum : ∀ k, k < n → off (k + 1) = off k + norb k)
    (hbound : ∀ fs, fs < n → ∀ ts ∈ gr.out_neighbors fs, ts < n)
    (hself : ∀ fs, fs < n → fs ∉ gr.out_neighbors fs)
    (hdsh : ∀ fs, fs < n → (diag fs).rows = norb fs ∧ (diag fs).cols = norb fs)
    (hhsh : ∀ fs, fs < n → ∀ ts ∈ gr.out_neighbors fs, ¬ ts < fs →
      (ham ts fs).rows = norb ts ∧ (ham ts fs).cols = norb fs)
    (a b i j : Nat) (ha : a < n) (hb : b < n) (hi : i < norb a) (hj : j < norb b)
    (hbv : fullBlockVal ham gr diag a b = none) :
    ∀ e ∈ fullEvents ham gr diag off off (List.range n),
      ¬ covers e (off a + i) (off b + j) := by
  intro e he hcov
  obtain ⟨fs, hfs, hesite⟩ := List.mem_flatMap.mp he
  rw [List.mem_range] at hfs
  obtain ⟨a2, b2, ha2, hb2, hg, hcase⟩ := siteEvents_coords ham gr diag
    norb off n fs hfs (hbound fs hfs) (hself fs hfs) (hdsh fs hfs)
    (hhsh fs hfs) e hesite
  obtain ⟨g1, g2, g3, g4⟩ := hg
  obtain ⟨c1, c2, c3, c4⟩ := hcov
  rw [g1] at c1
  rw [g1, g3] at c2
  rw [g2] at c3
  rw [g2, g4] at c4
  have hrr : off a + i = off a2 + (off a + i - off a2) := by omega
  have hia : off a + i - off a2 < norb a2 := by omega
  have haa : a = a2 ∧ i = off a + i - off a2 :=
    off_inj norb off n hcum ha ha2 hi hia hrr
  have hcc : off b + j = off b2 + (off b + j - off b2) := by omega
  have hjb : off b + j - off b2 < norb b2 := by omega
  have hbb : b = b2 ∧ j = off b + j - off b2 :=
    off_inj norb off n hcum hb hb2 hj hjb hcc
  unfold fullBlockVal at hbv
  rcases hcase with ⟨d1, d2, -⟩ | ⟨d1, d2, d3, -⟩ | ⟨d1, d2, d3, -⟩
  · rw [if_pos (by omega : a = b)] at hbv
    cases hbv
  · -- b = fs < a, edge fs → a present: second branch of fullBlockVal fires
    have hfs2 : b = fs := by omega
    have hmem : a ∈ gr.out_neighbors b := by
      rw [hfs2]
      rw [show a = a2 from haa.1]
      exact d3
    rw [if_neg (by omega : ¬ a = b), if_pos ⟨by omega, hmem⟩] at hbv
    cases hbv
  · have hfs2 : a = fs := by omega
    have hmem : b ∈ gr.out_neighbors a := by
      rw [hfs2]
      rw [show b = b2 from hbb.1]
      exact d3
    have hnab : ¬ a = b := by omega
    have hnc : ¬ (b < a ∧ a ∈ gr.out_neighbors b) := by
      rintro ⟨hlt, -⟩
      omega
    rw [if_neg hnab, if_neg hnc, if_pos ⟨by omega, hmem⟩] at hbv
    cases hbv

/-- Value of the full-system dense assembly at orbital position
`(off a + i, off b + j)`: the corresponding entry of the block that the
traversal writes there, or the initial zero. -/
theorem full_dense_at (ham : Nat → Nat → Blk α) (gr : CGraph)
    (diag : Nat → Blk α) (norb off : Nat → Nat) (n : Nat)
    (hcum : ∀ k, k < n → off (k + 1) = off k + norb k)
    (hbound : ∀ fs, fs < n → ∀ ts ∈ gr.out_neighbors fs, ts < n)
    (hself : ∀ fs, fs < n → fs ∉ gr.out_neighbors fs)
    (hnodup : ∀ fs, fs < n → (gr.out_neighbors fs).Nodup)
    (hdsh : ∀ fs, fs < n → (diag fs).rows = norb fs ∧ (diag fs).cols = norb fs)
    (hhsh : ∀ fs, fs < n → ∀ ts ∈ gr.out_neighbors fs, ¬ ts < fs →
      (ham ts fs).rows = norb ts ∧ (ham ts fs).cols = norb fs)
    (a b i j : Nat) (ha : a < n) (hb : b < n) (hi : i < norb a) (hj : j < norb b) :
    applyEvents (fun _ _ => 0)
        (fullEvents ham gr diag off off (List.range n)) (off a + i) (off b + j) =
      (fullBlockVal ham gr diag a b).elim 0 (fun blk => blk.entry i j) := by
  cases hbv : fullBlockVal ham gr diag a b with
  | some blk =>
      obtain ⟨e, hmem, her, hec, heb, hcov⟩ := fullEvents_cover_some ham gr diag
        norb off n hdsh hhsh a b i j ha hb hi hj blk hbv
      rw [applyEvents_covered _ _ (fullEvents_pairwise ham gr diag norb off n
        hcum hbound hself hnodup hdsh hhsh) e hmem _ _ hcov]
      rw [her, hec, heb]
      simp [Option.elim]
  | none =>
      rw [applyEvents_not_covered _ _ _ _ (fullEvents_cover_none ham gr diag
        norb off n hcum hbound hself hdsh hhsh a b i j ha hb hi hj hbv)]
      rfl

/-- Value of the full-system sparse assembly, converted to dense, at
orbital position `(off a + i, off b + j)`: the same block entry. -/
theorem full_sparse_at (ham : Nat → Nat → Blk α) (gr : CGraph)
    (diag : Nat → Blk α) (norb off : Nat → Nat) (n : Nat)
    (hcum : ∀ k, k < n → off (k + 1) = off k + norb k)
    (hbound : ∀ fs, fs < n → ∀ ts ∈ gr.out_neighbors fs, ts < n)
    (hself : ∀ fs, fs < n → fs ∉ gr.out_neighbors fs)
    (hnodup : ∀ fs, fs < n → (gr.out_neighbors fs).Nodup)
    (hdsh : ∀ fs, fs < n → (diag fs).rows = norb fs ∧ (diag fs).cols = norb fs)
    (hhsh : ∀ fs, fs < n → ∀ ts ∈ gr.out_neighbors fs, ¬ ts < fs →
      (ham ts fs).rows = norb ts ∧ (ham ts fs).cols = norb fs)
    (a b i j : Nat) (ha : a < n) (hb : b < n) (hi : i < norb a) (hj : j < norb b) :
    cooAt ((fullEvents ham gr diag off off (List.range n)).flatMap
        fun e => blkTriplets e.r e.c e.b) (off a + i) (off b + j) =
      (fullBlockVal ham gr diag a b).elim 0 (fun blk => blk.entry i j) := by
  cases hbv : fullBlockVal ham gr diag a b with
  | some blk =>
      obtain ⟨e, hmem, her, hec, heb, hcov⟩ := fullEvents_cover_some ham gr diag
        norb off n hdsh hhsh a b i j ha hb hi hj blk hbv
      rw [cooAt_events_covered _ (fullEvents_pairwise ham gr diag norb off n
        hcum hbound hself hnodup hdsh hhsh) e hmem _ _ hcov]
      rw [her, hec, heb]
      simp [Option.elim]
  | none =>
      rw [cooAt_events_not_covered _ _ _ (fullEvents_cover_none ham gr diag
        norb off n hcum hbound hself hdsh hhsh a b i j ha hb hi hj hbv)]
      rfl

/-! ### Duplicate-tolerant master lemmas: a duplicated adjacency entry
re-writes the identical block at the identical position, which the dense
overwrite semantics absorbs -/

theorem evDisj_symm {e1 e2 : Ev α} (h : evDisj e1 e2) : evDisj e2 e1 := by
  unfold evDisj at h ⊢
  omega

/-- Two events write disjoint regions or are the same write. -/
def evCompat (e1 e2 : Ev α) : Prop :=
  evDisj e1 e2 ∨ e1 = e2

theorem evCompat_symm {e1 e2 : Ev α} (h : evCompat e1 e2) : evCompat e2 e1 := by
  rcases h with h | h
  · exact Or.inl (evDisj_symm h)
  · exact Or.inr h.symm

/-- In a pairwise disjoint-or-equal event list, any two events covering a
common position are the same write. -/
theorem pairwise_compat_covers_eq {l : List (Ev α)} (hp : l.Pairwise evCompat)
    {e e2 : Ev α} (he : e ∈ l) (he2 : e2 ∈ l) {r c : Nat}
    (hc : covers e r c) (hc2 : covers e2 r c) : e = e2 := by
  by_cases heq : e = e2
  · exact heq
  · rcases hp.forall (fun x y h => evCompat_symm h) he he2 heq with h | h
    · exact (evDisj_no_common h hc hc2).elim
    · exact h

/-- With pairwise disjoint-or-equal write events, the final value at a
covered position is the covering event's entry: a repeated identical
write is absorbed by overwriting. -/
theorem applyEvents_covered_dup (l : List (Ev α)) :
    ∀ (m0 : Nat → Nat → α), l.Pairwise evCompat → ∀ e ∈ l,
      ∀ r c, covers e r c →
      applyEvents m0 l r c = e.b.entry (r - e.r) (c - e.c) := by
  induction l with
  | nil => intro m0 _ e he; cases he
  | cons e0 t ih =>
      intro m0 hp e he r c hc
      have hp2 := (List.pairwise_cons.mp hp).2
      simp only [applyEvents, List.foldl_cons]
      rw [show (List.foldl (fun m e => writeBlk m e.r e.c e.b)
          (writeBlk m0 e0.r e0.c e0.b) t) r c =
          applyEvents (writeBlk m0 e0.r e0.c e0.b) t r c from rfl]
      by_cases hct : ∃ e2 ∈ t, covers e2 r c
      · obtain ⟨e2, he2, hc2⟩ := hct
        have heq : e = e2 := pairwise_compat_covers_eq hp he
          (List.mem_cons_of_mem _ he2) hc hc2
        rw [heq]
        exact ih _ hp2 e2 he2 r c hc2
      · push_neg at hct
        have he0 : e = e0 := by
          rcases List.mem_cons.mp he with h | h
          · exact h
          · exact absurd hc (hct e h)
        subst he0
        rw [applyEvents_not_covered t _ r c hct]
        exact writeBlk_at_covered m0 e r c hc

/-- Without assuming a duplicate-free adjacency list, the events of one
site iteration are pairwise disjoint-or-equal: a repeated neighbor emits
the identical pair of write events again. -/
theorem siteEvents_pairwise_dup (ham : Nat → Nat → Blk α) (gr : CGraph)
    (diag : Nat → Blk α) (norb off : Nat → Nat) (n : Nat) (fs : Nat)
    (hcum : ∀ k, k < n → off (k + 1) = off k + norb k)
    (hfs : fs < n)
    (hbound : ∀ ts ∈ gr.out_neighbors fs, ts < n)
    (hself : fs ∉ gr.out_neighbors fs)
    (hdsh : (diag fs).rows = norb fs ∧ (diag fs).cols = norb fs)
    (hhsh : ∀ ts ∈ gr.out_neighbors fs, ¬ ts < fs →
      (ham ts fs).rows = norb ts ∧ (ham ts fs).cols = norb fs) :
    (siteEvents ham gr diag off off fs).Pairwise evCompat := by
  unfold siteEvents
  rw [List.pairwise_cons]
  constructor
  · intro e2 he2
    obtain ⟨ts, h1, h2, h3⟩ := (mem_hopEvents ham off off fs _ e2).mp he2
    have hts : ts < n := hbound ts h1
    have htsne : ts ≠ fs := fun hh => hself (hh ▸ h1)
    have hsh := hhsh ts h1 h2
    rcases h3 with h3 | h3
    · subst h3
      exact Or.inl (goodEv_disj norb off n hcum hfs hfs hts hfs
        (by rintro ⟨hh, -⟩; exact htsne hh.symm)
        ⟨rfl, rfl, hdsh.1, hdsh.2⟩ ⟨rfl, rfl, hsh.1, hsh.2⟩)
    · subst h3
      exact Or.inl (goodEv_disj norb off n hcum hfs hfs hfs hts
        (by rintro ⟨-, hh⟩; exact htsne hh.symm)
        ⟨rfl, rfl, hdsh.1, hdsh.2⟩
        ⟨rfl, rfl, by rw [Blk.adjoint_rows, hsh.2],
         by rw [Blk.adjoint_cols, hsh.1]⟩)
  · have main : ∀ l : List Nat, (∀ ts ∈ l, ts ∈ gr.out_neighbors fs) →
        (hopEvents ham off off fs l).Pairwise evCompat := by
      intro l
      induction l with
      | nil => intro _; simp [hopEvents]
      | cons ts0 rest ih =>
          intro hmem
          by_cases hlt : ts0 < fs
          · rw [show hopEvents ham off off fs (ts0 :: rest) =
              hopEvents ham off off fs rest from by
                simp only [hopEvents]; rw [if_pos hlt]]
            exact ih (fun ts h => hmem ts (List.mem_cons_of_mem _ h))
          · have hts0 : ts0 ∈ gr.out_neighbors fs :=
              hmem ts0 (List.mem_cons_self _ _)
            have hts0n : ts0 < n := hbound ts0 hts0
            have hts0ne : ts0 ≠ fs := fun hh => hself (hh ▸ hts0)
            have hsh0 := hhsh ts0 hts0 hlt
            have tailco : ∀ e2 ∈ hopEvents ham off off fs rest,
                ∃ ts, ts ∈ gr.out_neighbors fs ∧ ¬ ts < fs ∧
                  (e2 = ⟨off ts, off fs, ham ts fs⟩ ∨
                   e2 = ⟨off fs, off ts, (ham ts fs).adjoint⟩) := by
              intro e2 he2
              obtain ⟨ts, h1, h2, h3⟩ :=
                (mem_hopEvents ham off off fs _ e2).mp he2
              exact ⟨ts, hmem ts (List.mem_cons_of_mem _ h1), h2, h3⟩
            rw [show hopEvents ham off off fs (ts0 :: rest) =
              ⟨off ts0, off fs, ham ts0 fs⟩ ::
              ⟨off fs, off ts0, (ham ts0 fs).adjoint⟩ ::
              hopEvents ham off off fs rest from by
                simp only [hopEvents]; rw [if_neg hlt]]
            rw [List.pairwise_cons, List.pairwise_cons]
            refine ⟨?_, ?_, ih (fun ts h => hmem ts (List.mem_cons_of_mem _ h))⟩
            · -- head entry event against everything after it
              intro e2 he2
              rcases List.mem_cons.mp he2 with h | h
              · subst h
                exact Or.inl (goodEv_disj norb off n hcum hts0n hfs hfs hts0n
                  (by rintro ⟨hh, -⟩; exact hts0ne hh)
                  ⟨rfl, rfl, hsh0.1, hsh0.2⟩
                  ⟨rfl, rfl, by rw [Blk.adjoint_rows, hsh0.2],
                   by rw [Blk.adjoint_cols, hsh0.1]⟩)
              · obtain ⟨ts, hm1, hm2, h3⟩ := tailco e2 h
                have htsn : ts < n := hbound ts hm1
                have htsne : ts ≠ fs := fun hh => hself (hh ▸ hm1)
                have hsh := hhsh ts hm1 hm2
                by_cases hee : ts = ts0
                · subst hee
                  rcases h3 with h3 | h3
                  · exact Or.inr h3.symm
                  · subst h3
                    exact Or.inl (goodEv_disj norb off n hcum htsn hfs hfs htsn
                      (by rintro ⟨hh, -⟩; exact htsne hh)
                      ⟨rfl, rfl, hsh.1, hsh.2⟩
                      ⟨rfl, rfl, by rw [Blk.adjoint_rows, hsh.2],
                       by rw [Blk.adjoint_cols, hsh.1]⟩)
                · rcases h3 with h3 | h3
                  · subst h3
                    exact Or.inl (goodEv_disj norb off n hcum hts0n hfs htsn hfs
                      (by rintro ⟨hh, -⟩; exact hee hh.symm)
                      ⟨rfl, rfl, hsh0.1, hsh0.2⟩ ⟨rfl, rfl, hsh.1, hsh.2⟩)
                  · subst h3
                    exact Or.inl (goodEv_disj norb off n hcum hts0n hfs hfs htsn
                      (by rintro ⟨hh, -⟩; exact hts0ne hh)
                      ⟨rfl, rfl, hsh0.1, hsh0.2⟩
                      ⟨rfl, rfl, by rw [Blk.adjoint_rows, hsh.2],
                       by rw [Blk.adjoint_cols, hsh.1]⟩)
            · -- head mirror event against the tail
              intro e2 he2
              obtain ⟨ts, hm1, hm2, h3⟩ := tailco e2 he2
              have htsn : ts < n := hbound ts hm1
              have htsne : ts ≠ fs := fun hh => hself (hh ▸ hm1)
              have hsh := hhsh ts hm1 hm2
              by_cases hee : ts = ts0
              · subst hee
                rcases h3 with h3 | h3
                · subst h3
                  exact Or.inl (goodEv_disj norb off n hcum hfs htsn htsn hfs
                    (by rintro ⟨hh, -⟩; exact htsne hh.symm)
                    ⟨rfl, rfl, by rw [Blk.adjoint_rows, hsh.2],
                     by rw [Blk.adjoint_cols, hsh.1]⟩
                    ⟨rfl, rfl, hsh.1, hsh.2⟩)
                · exact Or.inr h3.symm
              · rcases h3 with h3 | h3
                · subst h3
                  exact Or.inl (goodEv_disj norb off n hcum hfs hts0n htsn hfs
                    (by rintro ⟨hh, -⟩; exact htsne hh.symm)
                    ⟨rfl, rfl, by rw [Blk.adjoint_rows, hsh0.2],
                     by rw [Blk.adjoint_cols, hsh0.1]⟩
                    ⟨rfl, rfl, hsh.1, hsh.2⟩)
                · subst h3
                  exact Or.inl (goodEv_disj norb off n hcum hfs hts0n hfs htsn
                    (by rintro ⟨-, hh⟩; exact hee hh.symm)
                    ⟨rfl, rfl, by rw [Blk.adjoint_rows, hsh0.2],
                     by rw [Blk.adjoint_cols, hsh0.1]⟩
                    ⟨rfl, rfl, by rw [Blk.adjoint_rows, hsh.2],
                     by rw [Blk.adjoint_cols, hsh.1]⟩)
    exact main (gr.out_neighbors fs) (fun ts h => h)

/-- All write events of the full-system assembly are pairwise
disjoint-or-equal, with no duplicate-freeness assumption on the adjacency
lists. -/
theorem fullEvents_pairwise_dup (ham : Nat → Nat → Blk α) (gr : CGraph)
    (diag : Nat → Blk α) (norb off : Nat → Nat) (n : Nat)
    (hcum : ∀ k, k < n → off (k + 1) = off k + norb k)
    (hbound : ∀ fs, fs < n → ∀ ts ∈ gr.out_neighbors fs, ts < n)
    (hself : ∀ fs, fs < n → fs ∉ gr.out_neighbors fs)
    (hdsh : ∀ fs, fs < n → (diag fs).rows = norb fs ∧ (diag fs).cols = norb fs)
    (hhsh : ∀ fs, fs < n → ∀ ts ∈ gr.out_neighbors fs, ¬ ts < fs →
      (ham ts fs).rows = norb ts ∧ (ham ts fs).cols = norb fs) :
    (fullEvents ham gr diag off off (List.range n)).Pairwise evCompat := by
  unfold fullEvents
  apply pairwise_flatMap_of
  · intro fs hfs
    rw [List.mem_range] at hfs
    exact siteEvents_pairwise_dup ham gr diag norb off n fs hcum hfs
      (hbound fs hfs) (hself fs hfs) (hdsh fs hfs) (hhsh fs hfs)
  · have key : ∀ fs1 fs2, fs1 < n → fs2 < n → fs1 ≠ fs2 →
        ∀ e1 ∈ siteEvents ham gr diag off off fs1,
        ∀ e2 ∈ siteEvents ham gr diag off off fs2, evCompat e1 e2 := by
      intro fs1 fs2 hn1 hn2 hne e1 he1 e2 he2
      obtain ⟨a1, b1, ha1, hb1, hg1, hc1⟩ := siteEvents_coords ham gr diag
        norb off n fs1 hn1 (hbound fs1 hn1) (hself fs1 hn1) (hdsh fs1 hn1)
        (hhsh fs1 hn1) e1 he1
      obtain ⟨a2, b2, ha2, hb2, hg2, hc2⟩ := siteEvents_coords ham gr diag
        norb off n fs2 hn2 (hbound fs2 hn2) (hself fs2 hn2) (hdsh fs2 hn2)
        (hhsh fs2 hn2) e2 he2
      refine Or.inl (goodEv_disj norb off n hcum ha1 hb1 ha2 hb2 ?_ hg1 hg2)
      rintro ⟨hh1, hh2⟩
      rcases hc1 with ⟨c1, c2, -⟩ | ⟨c1, c2, -⟩ | ⟨c1, c2, -⟩ <;>
        rcases hc2 with ⟨d1, d2, -⟩ | ⟨d1, d2, -⟩ | ⟨d1, d2, -⟩ <;> omega
    have hlt : (List.range n).Pairwise (· < ·) := List.pairwise_lt_range n
    exact hlt.imp_of_mem (fun ha hb hab =>
      key _ _ (List.mem_range.mp ha) (List.mem_range.mp hb) (Nat.ne_of_lt hab))

/-- Value of the full-system dense assembly at orbital position
`(off a + i, off b + j)`, with duplicate adjacency entries allowed: the
overwrite semantics absorbs repeated identical writes. -/
theorem full_dense_at_dup (ham : Nat → Nat → Blk α) (gr : CGraph)
    (diag : Nat → Blk α) (norb off : Nat → Nat) (n : Nat)
    (hcum : ∀ k, k < n → off (k + 1) = off k + norb k)
    (hbound : ∀ fs, fs < n → ∀ ts ∈ gr.out_neighbors fs, ts < n)
    (hself : ∀ fs, fs < n → fs ∉ gr.out_neighbors fs)
    (hdsh : ∀ fs, fs < n → (diag fs).rows = norb fs ∧ (diag fs).cols = norb fs)
    (hhsh : ∀ fs, fs < n → ∀ ts ∈ gr.out_neighbors fs, ¬ ts < fs →
      (ham ts fs).rows = norb ts ∧ (ham ts fs).cols = norb fs)
    (a b i j : Nat) (ha : a < n) (hb : b < n) (hi : i < norb a) (hj : j < norb b) :
    applyEvents (fun _ _ => 0)
        (fullEvents ham gr diag off off (List.range n)) (off a + i) (off b + j) =
      (fullBlockVal ham gr diag a b).elim 0 (fun blk => blk.entry i j) := by
  cases hbv : fullBlockVal ham gr diag a b with
  | some blk =>
      obtain ⟨e, hmem, her, hec, heb, hcov⟩ := fullEvents_cover_some ham gr diag
        norb off n hdsh hhsh a b i j ha hb hi hj blk hbv
      rw [applyEvents_covered_dup _ _ (fullEvents_pairwise_dup ham gr diag norb
        off n hcum hbound hself hdsh hhsh) e hmem _ _ hcov]
      rw [her, hec, heb]
      simp [Option.elim]
  | none =>
      rw [applyEvents_not_covered _ _ _ _ (fullEvents_cover_none ham gr diag
        norb off n hcum hbound hself hdsh hhsh a b i j ha hb hi hj hbv)]
      rfl

/-! ## Concrete fixtures for counterexamples and witnesses -/

deriving instance DecidableEq for Except


/-- Two nodes, one edge `0 → 1`. -/
def exGraphChain : CGraph := ⟨2, fun fs => if fs = 0 then [1] else []⟩

/-- Two nodes, the edge `0 → 1` listed twice. -/
def exGraphDup : CGraph := ⟨2, fun fs => if fs = 0 then [1, 1] else []⟩

/-- One node with a self-loop `0 → 0`. -/
def exGraphLoop : CGraph := ⟨1, fun _ => [0]⟩

/-- The constant `1 × 1` block with the given entry. -/
def exBlk (v : α) : Blk α := ⟨1, 1, fun _ _ => v⟩

theorem except_ok_of_map_ok {ε β γ : Type} (x : Except ε β) (f : β → γ) (v : γ)
    (h : x.map f = .ok v) : ∃ b, x = .ok b ∧ f b = v := by
  cases x with
  | error e => simp [Except.map] at h
  | ok b =>
      refine ⟨b, rfl, ?_⟩
      simpa [Except.map] using h

/-- **C1** (amended): for every graph whose adjacency lists contain no
self-loops and no duplicates (as holds for every finalized kwant system),
and every full-system assembly (`to_norb = from_norb = norb`,
`to_off = from_off = off` the cumulative offsets), when both variants
succeed the sparse COO result converted to dense equals the dense result
elementwise over the common shape: the sparse variant differs only by
omitting exact-zero entries, which does not change the effective matrix. -/
theorem C1_sparse_full_matches_dense_full
    {α : Type} [CommRing α] [StarRing α] [DecidableEq α]
    (ham : Nat → Nat → Blk α) (gr : CGraph) (diag : Nat → Blk α)
    (norb off : Nat → Nat)
    (hcum : ∀ k, k < gr.num_nodes → off (k + 1) = off k + norb k)
    (h0 : off 0 = 0)
    (hbound : ∀ fs, fs < gr.num_nodes →
      ∀ ts ∈ gr.out_neighbors fs, ts < gr.num_nodes)
    (hself : ∀ fs, fs < gr.num_nodes → fs ∉ gr.out_neighbors fs)
    (hnodup : ∀ fs, fs < gr.num_nodes → (gr.out_neighbors fs).Nodup)
    (coo : Coo α) (dm : Blk α)
    (hs : make_sparse_full ham gr diag norb off norb off = .ok coo)
    (hd : make_dense_full ham gr diag norb off norb off = .ok dm) :
    coo.rows = off gr.num_nodes ∧ coo.cols = off gr.num_nodes ∧
    dm.rows = off gr.num_nodes ∧ dm.cols = off gr.num_nodes ∧
    ∀ r c, r < off gr.num_nodes → c < off gr.num_nodes →
      cooAt coo.data r c = dm.entry r c := by
  obtain ⟨tl, hsl, hcoo⟩ := except_ok_of_map_ok _ _ _ hs
  obtain ⟨m, hdm, hblk⟩ := except_ok_of_map_ok _ _ _ hd
  subst hcoo
  subst hblk
  refine ⟨rfl, rfl, rfl, rfl, ?_⟩
  intro r c hr hc
  obtain ⟨a, ha, i, hi, hri⟩ := off_decomp norb off gr.num_nodes hcum h0 r hr
  obtain ⟨b, hb, j, hj, hcj⟩ := off_decomp norb off gr.num_nodes hcum h0 c hc
  have hshapes := denseSites_ok_shapes ham gr diag norb off norb off
    (List.range gr.num_nodes) _ _ hdm
  have hdsh : ∀ fs, fs < gr.num_nodes →
      (diag fs).rows = norb fs ∧ (diag fs).cols = norb fs :=
    fun fs hfs => (hshapes fs (List.mem_range.mpr hfs)).1
  have hhsh : ∀ fs, fs < gr.num_nodes → ∀ ts ∈ gr.out_neighbors fs, ¬ ts < fs →
      (ham ts fs).rows = norb ts ∧ (ham ts fs).cols = norb fs :=
    fun fs hfs => (hshapes fs (List.mem_range.mpr hfs)).2
  have hm := denseSites_ok ham gr diag norb off norb off _ _ _ hdm
  have htl := sparseSites_ok ham gr diag norb off norb off _ _ hsl
  subst hri
  subst hcj
  show cooAt tl (off a + i) (off b + j) = m (off a + i) (off b + j)
  rw [htl (off a + i) (off b + j), hm]
  rw [full_sparse_at ham gr diag norb off gr.num_nodes hcum hbound hself hnodup
    hdsh hhsh a b i j ha hb hi hj]
  rw [full_dense_at ham gr diag norb off gr.num_nodes hcum hbound hself hnodup
    hdsh hhsh a b i j ha hb hi hj]

/-- **C1** (counterexample): on a graph that lists the edge `0 → 1` twice,
the sparse full assembly accumulates the hopping twice (value `2` at
position `(1,0)` of the dense conversion) while the dense full assembly
overwrites (value `1` at the same in-shape position), so the claim as
stated — equality for *every* graph — is false. -/
theorem C1_counterexample :
    ((make_sparse_full (fun _ _ => exBlk (1 : ℤ)) exGraphDup (fun _ => exBlk 0)
        (fun _ => 1) id (fun _ => 1) id).map
      (fun coo => cooAt coo.data 1 0) = .ok 2) ∧
    ((make_dense_full (fun _ _ => exBlk (1 : ℤ)) exGraphDup (fun _ => exBlk 0)
        (fun _ => 1) id (fun _ => 1) id).map
      (fun dm => (dm.rows, dm.cols, dm.entry 1 0)) = .ok (2, 2, 1)) := by
  constructor <;> decide

/-- **C1** (witness): the amended theorem applied to the two-site chain
with a nonzero `1 × 1` hopping block. -/
theorem C1_witness :
    ∃ (coo : Coo ℤ) (dm : Blk ℤ),
      make_sparse_full (fun _ _ => exBlk (1 : ℤ)) exGraphChain (fun _ => exBlk 0)
        (fun _ => 1) id (fun _ => 1) id = .ok coo ∧
      make_dense_full (fun _ _ => exBlk (1 : ℤ)) exGraphChain (fun _ => exBlk 0)
        (fun _ => 1) id (fun _ => 1) id = .ok dm ∧
      cooAt coo.data 1 0 = dm.entry 1 0 := by
  have hs : make_sparse_full (fun _ _ => exBlk (1 : ℤ)) exGraphChain
      (fun _ => exBlk 0) (fun _ => 1) id (fun _ => 1) id =
      .ok ⟨2, 2, [(1, 0, 1), (0, 1, 1)]⟩ := by decide
  have hm : (make_dense_full (fun _ _ => exBlk (1 : ℤ)) exGraphChain
      (fun _ => exBlk 0) (fun _ => 1) id (fun _ => 1) id).map
      (fun dm => dm.rows) = .ok 2 := by decide
  rcases hdm : make_dense_full (fun _ _ => exBlk (1 : ℤ)) exGraphChain
      (fun _ => exBlk 0) (fun _ => 1) id (fun _ => 1) id with e | dm
  · rw [hdm] at hm
    simp [Except.map] at hm
  · have hmain := C1_sparse_full_matches_dense_full
      (fun _ _ => exBlk (1 : ℤ)) exGraphChain (fun _ => exBlk 0)
      (fun _ => 1) id (by decide) (by decide) (by decide) (by decide)
      (by decide) _ dm hs hdm
    exact ⟨_, dm, hs, rfl, hmain.2.2.2.2 1 0 (by decide) (by decide)⟩

/-- **C2** (amended): for every full-system dense assembly over a graph
without self-loops (duplicate adjacency entries are allowed: a repeated
edge re-writes the identical pair of blocks, which the dense overwrite
semantics absorbs), if every onsite block equals its own conjugate
transpose then the assembled matrix satisfies
`M == M.conjugate().transpose()` exactly, entry for entry: each
off-diagonal block's mirror is written directly from the
conjugate-transposed source data, never recomputed. -/
theorem C2_dense_full_hermitian
    {α : Type} [CommRing α] [StarRing α] [DecidableEq α]
    (ham : Nat → Nat → Blk α) (gr : CGraph) (diag : Nat → Blk α)
    (norb off : Nat → Nat)
    (hcum : ∀ k, k < gr.num_nodes → off (k + 1) = off k + norb k)
    (h0 : off 0 = 0)
    (hbound : ∀ fs, fs < gr.num_nodes →
      ∀ ts ∈ gr.out_neighbors fs, ts < gr.num_nodes)
    (hself : ∀ fs, fs < gr.num_nodes → fs ∉ gr.out_neighbors fs)
    (hherm : ∀ fs, fs < gr.num_nodes → ∀ i, i < norb fs → ∀ j, j < norb fs →
      (diag fs).entry i j = star ((diag fs).entry j i))
    (dm : Blk α)
    (hd : make_dense_full ham gr diag norb off norb off = .ok dm) :
    dm.rows = dm.cols ∧
    ∀ r c, r < dm.rows → c < dm.cols → dm.entry r c = star (dm.entry c r) := by
  obtain ⟨m, hdm, hblk⟩ := except_ok_of_map_ok _ _ _ hd
  subst hblk
  refine ⟨rfl, ?_⟩
  intro r c hr hc
  have hshapes := denseSites_ok_shapes ham gr diag norb off norb off
    (List.range gr.num_nodes) _ _ hdm
  have hdsh : ∀ fs, fs < gr.num_nodes →
      (diag fs).rows = norb fs ∧ (diag fs).cols = norb fs :=
    fun fs hfs => (hshapes fs (List.mem_range.mpr hfs)).1
  have hhsh : ∀ fs, fs < gr.num_nodes → ∀ ts ∈ gr.out_neighbors fs, ¬ ts < fs →
      (ham ts fs).rows = norb ts ∧ (ham ts fs).cols = norb fs :=
    fun fs hfs => (hshapes fs (List.mem_range.mpr hfs)).2
  have hm := denseSites_ok ham gr diag norb off norb off _ _ _ hdm
  obtain ⟨a, ha, i, hi, hri⟩ := off_decomp norb off gr.num_nodes hcum h0 r hr
  obtain ⟨b, hb, j, hj, hcj⟩ := off_decomp norb off gr.num_nodes hcum h0 c hc
  subst hri
  subst hcj
  show m (off a + i) (off b + j) = star (m (off b + j) (off a + i))
  rw [hm]
  rw [full_dense_at_dup ham gr diag norb off gr.num_nodes hcum hbound hself
    hdsh hhsh a b i j ha hb hi hj]
  rw [full_dense_at_dup ham gr diag norb off gr.num_nodes hcum hbound hself
    hdsh hhsh b a j i hb ha hj hi]
  unfold fullBlockVal
  by_cases hab : a = b
  · subst hab
    rw [if_pos rfl]
    simp only [Option.elim]
    exact hherm a ha i hi j hj
  · have hba : ¬ b = a := fun hh => hab hh.symm
    by_cases hc1 : b < a ∧ a ∈ gr.out_neighbors b
    · rw [if_neg hab, if_pos hc1, if_neg hba,
        if_neg (by rintro ⟨hh, -⟩; omega : ¬ (a < b ∧ b ∈ gr.out_neighbors a)),
        if_pos hc1]
      simp only [Option.elim, Blk.adjoint_entry, star_star]
    · by_cases hc2 : a < b ∧ b ∈ gr.out_neighbors a
      · rw [if_neg hab, if_neg hc1, if_pos hc2, if_neg hba, if_pos hc2]
        simp only [Option.elim, Blk.adjoint_entry]
      · rw [if_neg hab, if_neg hc1, if_neg hc2, if_neg hba,
          if_neg (by rintro ⟨hh, h2⟩; exact hc2 ⟨hh, h2⟩ :
            ¬ (a < b ∧ b ∈ gr.out_neighbors a)),
          if_neg (by rintro ⟨hh, h2⟩; exact hc1 ⟨hh, h2⟩ :
            ¬ (b < a ∧ a ∈ gr.out_neighbors b))]
        simp only [Option.elim]
        rw [star_zero]

/-- **C2** (counterexample): on a one-site graph with a self-loop edge
`0 → 0` and the non-Hermitian `1 × 1` hopping block `[[2i]]`, every onsite
block (`[[0]]`) is Hermitian, yet the assembled dense matrix is `[[-2i]]`,
which differs from its conjugate transpose `[[2i]]` — so the claim as
stated, quantified over every full-system assembly, is false. -/
theorem C2_counterexample :
    (∀ i j, (exBlk (0 : GaussianInt)).entry i j =
      star ((exBlk (0 : GaussianInt)).entry i j)) ∧
    ((make_dense_full (fun _ _ => exBlk (⟨0, 2⟩ : GaussianInt)) exGraphLoop
        (fun _ => exBlk 0) (fun _ => 1) id (fun _ => 1) id).map
      (fun dm => (dm.rows, dm.cols, dm.entry 0 0)) =
      .ok (1, 1, (⟨0, -2⟩ : GaussianInt))) ∧
    (⟨0, -2⟩ : GaussianInt) ≠ star (⟨0, -2⟩ : GaussianInt) := by
  refine ⟨?_, by decide, by decide⟩
  intro i j
  show (0 : GaussianInt) = star 0
  rw [star_zero]

/-- **C2** (witness): the amended theorem applied to the two-site graph
that lists the edge `0 → 1` twice, with Hermitian onsite blocks and the
hopping block `[[2i]]`: the duplicated write does not break the exact
symmetry of the dense result. -/
theorem C2_witness :
    ∃ dm : Blk GaussianInt,
      make_dense_full (fun _ _ => exBlk (⟨0, 2⟩ : GaussianInt)) exGraphDup
        (fun _ => exBlk 3) (fun _ => 1) id (fun _ => 1) id = .ok dm ∧
      dm.entry 1 0 = star (dm.entry 0 1) := by
  have hm : (make_dense_full (fun _ _ => exBlk (⟨0, 2⟩ : GaussianInt))
      exGraphDup (fun _ => exBlk 3) (fun _ => 1) id (fun _ => 1) id).map
      (fun dm => (dm.rows, dm.cols)) = .ok (2, 2) := by decide
  rcases hdm : make_dense_full (fun _ _ => exBlk (⟨0, 2⟩ : GaussianInt))
      exGraphDup (fun _ => exBlk 3) (fun _ => 1) id (fun _ => 1) id with e | dm
  · rw [hdm] at hm
    simp [Except.map] at hm
  · rw [hdm] at hm
    simp only [Except.map] at hm
    have hrows : dm.rows = 2 := congrArg Prod.fst (Except.ok.inj hm)
    have hcols : dm.cols = 2 := congrArg Prod.snd (Except.ok.inj hm)
    have hmain := C2_dense_full_hermitian
      (fun _ _ => exBlk (⟨0, 2⟩ : GaussianInt)) exGraphDup (fun _ => exBlk 3)
      (fun _ => 1) id (by decide) (by decide) (by decide) (by decide)
      (by decide) dm hdm
    exact ⟨dm, rfl, hmain.2 1 0 (by omega) (by omega)⟩

/-! ### Congruence: the full-system assemblers read the evaluator only at
pairs `(ts, fs)` with `ts` an out-neighbor of `fs` and `¬ ts < fs` -/

theorem denseHops_congr (ham ham2 : Nat → Nat → Blk α)
    (to_norb to_off from_norb from_off : Nat → Nat) (fs : Nat) :
    ∀ l : List Nat, (∀ ts ∈ l, ¬ ts < fs → ham ts fs = ham2 ts fs) →
    ∀ m, denseHops ham to_norb to_off from_norb from_off fs m l =
      denseHops ham2 to_norb to_off from_norb from_off fs m l := by
  intro l
  induction l with
  | nil => intro _ m; rfl
  | cons ts rest ih =>
      intro hyp m
      simp only [denseHops]
      by_cases hlt : ts < fs
      · rw [if_pos hlt, if_pos hlt]
        exact ih (fun t h hn => hyp t (List.mem_cons_of_mem _ h) hn) m
      · rw [if_neg hlt, if_neg hlt]
        rw [hyp ts (List.mem_cons_self _ _) hlt]
        by_cases hsh : (ham2 ts fs).rows = to_norb ts ∧
            (ham2 ts fs).cols = from_norb fs
        · rw [if_pos hsh, if_pos hsh]
          exact ih (fun t h hn => hyp t (List.mem_cons_of_mem _ h) hn) _
        · rw [if_neg hsh, if_neg hsh]

theorem sparseHops_congr (ham ham2 : Nat → Nat → Blk α)
    (to_norb to_off from_norb from_off : Nat → Nat) (fs : Nat) :
    ∀ l : List Nat, (∀ ts ∈ l, ¬ ts < fs → ham ts fs = ham2 ts fs) →
    sparseHops ham to_norb to_off from_norb from_off fs l =
      sparseHops ham2 to_norb to_off from_norb from_off fs l := by
  intro l
  induction l with
  | nil => intro _; rfl
  | cons ts rest ih =>
      intro hyp
      simp only [sparseHops]
      by_cases hlt : ts < fs
      · rw [if_pos hlt, if_pos hlt]
        exact ih (fun t h hn => hyp t (List.mem_cons_of_mem _ h) hn)
      · rw [if_neg hlt, if_neg hlt]
        rw [hyp ts (List.mem_cons_self _ _) hlt]
        rw [ih (fun t h hn => hyp t (List.mem_cons_of_mem _ h) hn)]

theorem denseSites_congr (ham ham2 : Nat → Nat → Blk α) (gr : CGraph)
    (diag : Nat → Blk α) (to_norb to_off from_norb from_off : Nat → Nat) :
    ∀ sites : List Nat,
    (∀ fs ∈ sites, ∀ ts ∈ gr.out_neighbors fs, ¬ ts < fs →
      ham ts fs = ham2 ts fs) →
    ∀ m, denseSites ham gr diag to_norb to_off from_norb from_off m sites =
      denseSites ham2 gr diag to_norb to_off from_norb from_off m sites := by
  intro sites
  induction sites with
  | nil => intro _ m; rfl
  | cons fs rest ih =>
      intro hyp m
      simp only [denseSites]
      by_cases hsh : (diag fs).rows = from_norb fs ∧ (diag fs).cols = from_norb fs
      · rw [if_pos hsh, if_pos hsh]
        rw [denseHops_congr ham ham2 to_norb to_off from_norb from_off fs
          (gr.out_neighbors fs) (hyp fs (List.mem_cons_self _ _)) _]
        cases hd : denseHops ham2 to_norb to_off from_norb from_off fs
            (writeBlk m (to_off fs) (from_off fs) (diag fs))
            (gr.out_neighbors fs) with
        | error e => rfl
        | ok m1 => exact ih (fun f h => hyp f (List.mem_cons_of_mem _ h)) m1
      · rw [if_neg hsh, if_neg hsh]

theorem sparseSites_congr (ham ham2 : Nat → Nat → Blk α) (gr : CGraph)
    (diag : Nat → Blk α) (to_norb to_off from_norb from_off : Nat → Nat) :
    ∀ sites : List Nat,
    (∀ fs ∈ sites, ∀ ts ∈ gr.out_neighbors fs, ¬ ts < fs →
      ham ts fs = ham2 ts fs) →
    sparseSites ham gr diag to_norb to_off from_norb from_off sites =
      sparseSites ham2 gr diag to_norb to_off from_norb from_off sites := by
  intro sites
  induction sites with
  | nil => intro _; rfl
  | cons fs rest ih =>
      intro hyp
      simp only [sparseSites]
      by_cases hsh : (diag fs).rows = from_norb fs ∧ (diag fs).cols = from_norb fs
      · rw [if_pos hsh, if_pos hsh]
        rw [sparseHops_congr ham ham2 to_norb to_off from_norb from_off fs
          (gr.out_neighbors fs) (hyp fs (List.mem_cons_self _ _))]
        cases hd : sparseHops ham2 to_norb to_off from_norb from_off fs
            (gr.out_neighbors fs) with
        | error e => rfl
        | ok hopT =>
            rw [ih (fun f h => hyp f (List.mem_cons_of_mem _ h))]
      · rw [if_neg hsh, if_neg hsh]

/-- **C3** (amended): the full-system assemblers process, for each site
`fs`, exactly those outgoing neighbors `ts` with `fs ≤ ts` — the source
skips only `ts < fs`, so on graphs without self-loop edges these are
exactly the pairs `fs < ts`, each undirected pair handled once.
Part 1: both assemblers depend on the evaluator only at such pairs (no
reverse edge needs to exist in the graph).
Part 2: for each processed pair `fs < ts` the evaluated block `H(ts, fs)`
is written at block position `(to_off[ts], from_off[fs])` and its conjugate
transpose at `(to_off[fs], from_off[ts])`, in both output variants. -/
theorem C3_full_assemblers_processing
    {α : Type} [CommRing α] [StarRing α] [DecidableEq α]
    (ham ham2 : Nat → Nat → Blk α) (gr : CGraph) (diag : Nat → Blk α)
    (norb off : Nat → Nat) :
    ((∀ fs, ∀ ts ∈ gr.out_neighbors fs, ¬ ts < fs → ham ts fs = ham2 ts fs) →
      make_dense_full ham gr diag norb off norb off =
        make_dense_full ham2 gr diag norb off norb off ∧
      make_sparse_full ham gr diag norb off norb off =
        make_sparse_full ham2 gr diag norb off norb off) ∧
    (∀ (hcum : ∀ k, k < gr.num_nodes → off (k + 1) = off k + norb k)
       (hbound : ∀ fs, fs < gr.num_nodes →
         ∀ ts ∈ gr.out_neighbors fs, ts < gr.num_nodes)
       (hself : ∀ fs, fs < gr.num_nodes → fs ∉ gr.out_neighbors fs)
       (hnodup : ∀ fs, fs < gr.num_nodes → (gr.out_neighbors fs).Nodup)
       (dm : Blk α) (coo : Coo α),
       make_dense_full ham gr diag norb off norb off = .ok dm →
       make_sparse_full ham gr diag norb off norb off = .ok coo →
       ∀ fs ts, fs < gr.num_nodes → ts ∈ gr.out_neighbors fs → fs < ts →
       ∀ i j, i < norb ts → j < norb fs →
         dm.entry (off ts + i) (off fs + j) = (ham ts fs).entry i j ∧
         dm.entry (off fs + j) (off ts + i) = star ((ham ts fs).entry i j) ∧
         cooAt coo.data (off ts + i) (off fs + j) = (ham ts fs).entry i j ∧
         cooAt coo.data (off fs + j) (off ts + i) = star ((ham ts fs).entry i j)) := by
  constructor
  · intro hagree
    constructor
    · unfold make_dense_full
      rw [denseSites_congr ham ham2 gr diag norb off norb off
        (List.range gr.num_nodes) (fun fs _ => hagree fs) _]
    · unfold make_sparse_full
      rw [sparseSites_congr ham ham2 gr diag norb off norb off
        (List.range gr.num_nodes) (fun fs _ => hagree fs)]
  · intro hcum hbound hself hnodup dm coo hd hs fs ts hfs hmem hlt i j hi hj
    obtain ⟨m, hdm, hblk⟩ := except_ok_of_map_ok _ _ _ hd
    obtain ⟨tl, hsl, hcoo⟩ := except_ok_of_map_ok _ _ _ hs
    subst hblk
    subst hcoo
    have hts : ts < gr.num_nodes := hbound fs hfs ts hmem
    have hshapes := denseSites_ok_shapes ham gr diag norb off norb off
      (List.range gr.num_nodes) _ _ hdm
    have hdsh : ∀ f2, f2 < gr.num_nodes →
        (diag f2).rows = norb f2 ∧ (diag f2).cols = norb f2 :=
      fun f2 hf2 => (hshapes f2 (List.mem_range.mpr hf2)).1
    have hhsh : ∀ f2, f2 < gr.num_nodes →
        ∀ t2 ∈ gr.out_neighbors f2, ¬ t2 < f2 →
        (ham t2 f2).rows = norb t2 ∧ (ham t2 f2).cols = norb f2 :=
      fun f2 hf2 => (hshapes f2 (List.mem_range.mpr hf2)).2
    have hm := denseSites_ok ham gr diag norb off norb off _ _ _ hdm
    have htl := sparseSites_ok ham gr diag norb off norb off _ _ hsl
    have hbv1 : fullBlockVal ham gr diag ts fs = some (ham ts fs) := by
      unfold fullBlockVal
      rw [if_neg (by omega : ¬ ts = fs), if_pos ⟨hlt, hmem⟩]
    have hbv2 : fullBlockVal ham gr diag fs ts = some ((ham ts fs).adjoint) := by
      unfold fullBlockVal
      rw [if_neg (by omega : ¬ fs = ts),
        if_neg (by rintro ⟨hh, -⟩; omega : ¬ (ts < fs ∧ fs ∈ gr.out_neighbors ts)),
        if_pos ⟨hlt, hmem⟩]
    refine ⟨?_, ?_, ?_, ?_⟩
    · show m (off ts + i) (off fs + j) = (ham ts fs).entry i j
      rw [hm, full_dense_at ham gr diag norb off gr.num_nodes hcum hbound hself
        hnodup hdsh hhsh ts fs i j hts hfs hi hj, hbv1]
      rfl
    · show m (off fs + j) (off ts + i) = star ((ham ts fs).entry i j)
      rw [hm, full_dense_at ham gr diag norb off gr.num_nodes hcum hbound hself
        hnodup hdsh hhsh fs ts j i hfs hts hj hi, hbv2]
      simp
    · rw [htl (off ts + i) (off fs + j), full_sparse_at ham gr diag norb off
        gr.num_nodes hcum hbound hself hnodup hdsh hhsh ts fs i j hts hfs hi hj,
        hbv1]
      rfl
    · rw [htl (off fs + j) (off ts + i), full_sparse_at ham gr diag norb off
        gr.num_nodes hcum hbound hself hnodup hdsh hhsh fs ts j i hfs hts hj hi,
        hbv2]
      simp

/-- **C3** (counterexample): on a one-site graph with the self-loop
`0 → 0` there are no pairs with `fs < ts` at all, so two evaluators that
agree on every such pair should be indistinguishable if the claim held;
yet the dense full assembler produces different matrices for them — the
write pass skips only `ts < fs` and therefore also processes the
self-loop neighbor `ts = fs`. -/
theorem C3_counterexample :
    (∀ fs ts, ts ∈ exGraphLoop.out_neighbors fs → fs < ts →
      (fun _ _ => exBlk (2 : ℤ)) ts fs = (fun _ _ => exBlk (3 : ℤ)) ts fs) ∧
    ((make_dense_full (fun _ _ => exBlk (2 : ℤ)) exGraphLoop (fun _ => exBlk 0)
        (fun _ => 1) id (fun _ => 1) id).map
      (fun dm => dm.entry 0 0) = .ok 2) ∧
    ((make_dense_full (fun _ _ => exBlk (3 : ℤ)) exGraphLoop (fun _ => exBlk 0)
        (fun _ => 1) id (fun _ => 1) id).map
      (fun dm => dm.entry 0 0) = .ok 3) := by
  refine ⟨?_, by decide, by decide⟩
  intro fs ts hmem hlt
  exfalso
  have hts : ts = 0 := by simpa [exGraphLoop] using hmem
  omega

/-- **C3** (witness): the amended theorem applied to the two-site chain;
the second evaluator differs only at skipped pairs `ts < fs`. -/
theorem C3_witness :
    ∃ (dm : Blk ℤ) (coo : Coo ℤ),
      make_dense_full (fun _ _ => exBlk (1 : ℤ)) exGraphChain (fun _ => exBlk 0)
        (fun _ => 1) id (fun _ => 1) id = .ok dm ∧
      make_sparse_full (fun _ _ => exBlk (1 : ℤ)) exGraphChain (fun _ => exBlk 0)
        (fun _ => 1) id (fun _ => 1) id = .ok coo ∧
      make_dense_full (fun _ _ => exBlk (1 : ℤ)) exGraphChain (fun _ => exBlk 0)
        (fun _ => 1) id (fun _ => 1) id =
        make_dense_full (fun ts fs => if ts < fs then exBlk 5 else exBlk (1 : ℤ))
          exGraphChain (fun _ => exBlk 0) (fun _ => 1) id (fun _ => 1) id ∧
      dm.entry 1 0 = 1 ∧ dm.entry 0 1 = 1 ∧
      cooAt coo.data 1 0 = 1 ∧ cooAt coo.data 0 1 = 1 := by
  have hagree : ∀ fs, ∀ ts ∈ exGraphChain.out_neighbors fs, ¬ ts < fs →
      (fun _ _ => exBlk (1 : ℤ)) ts fs =
      (fun ts fs => if ts < fs then exBlk 5 else exBlk (1 : ℤ)) ts fs := by
    intro fs ts hmem hge
    show exBlk (1 : ℤ) = if ts < fs then exBlk 5 else exBlk (1 : ℤ)
    rw [if_neg hge]
  have hthm := C3_full_assemblers_processing (fun _ _ => exBlk (1 : ℤ))
    (fun ts fs => if ts < fs then exBlk 5 else exBlk (1 : ℤ)) exGraphChain
    (fun _ => exBlk 0) (fun _ => 1) id
  have hs : make_sparse_full (fun _ _ => exBlk (1 : ℤ)) exGraphChain
      (fun _ => exBlk 0) (fun _ => 1) id (fun _ => 1) id =
      .ok ⟨2, 2, [(1, 0, 1), (0, 1, 1)]⟩ := by decide
  have hm : (make_dense_full (fun _ _ => exBlk (1 : ℤ)) exGraphChain
      (fun _ => exBlk 0) (fun _ => 1) id (fun _ => 1) id).map
      (fun dm => dm.rows) = .ok 2 := by decide
  rcases hdm : make_dense_full (fun _ _ => exBlk (1 : ℤ)) exGraphChain
      (fun _ => exBlk 0) (fun _ => 1) id (fun _ => 1) id with e | dm
  · rw [hdm] at hm
    simp [Except.map] at hm
  · have hplace := hthm.2 (by decide) (by decide) (by decide) (by decide)
      dm ⟨2, 2, [(1, 0, 1), (0, 1, 1)]⟩ hdm hs 0 1 (by decide) (by decide)
      (by decide) 0 0 (by decide) (by decide)
    refine ⟨dm, ⟨2, 2, [(1, 0, 1), (0, 1, 1)]⟩, rfl, hs, ?_, ?_, ?_, ?_, ?_⟩
    · rw [← hdm, (hthm.1 hagree).1]
    · exact hplace.1
    · exact hplace.2.1
    · exact hplace.2.2.1
    · exact hplace.2.2.2

/-! ### C10: the counting pass bounds the write index -/

theorem sum_map_const_one {β : Type} (l : List β) (k : Nat) :
    (l.map fun _ => k).sum = l.length * k := by
  induction l with
  | nil => simp
  | cons x t ih =>
      simp only [List.map_cons, List.sum_cons, List.length_cons, ih]
      ring

theorem length_flatMap_le {β γ : Type} (l : List β) (f : β → List γ)
    (k : β → Nat) (h : ∀ x ∈ l, (f x).length ≤ k x) :
    (l.flatMap f).length ≤ (l.map k).sum := by
  induction l with
  | nil => simp
  | cons x t ih =>
      rw [List.flatMap_cons, List.length_append, List.map_cons, List.sum_cons]
      exact Nat.add_le_add (h x (List.mem_cons_self _ _))
        (ih fun y hy => h y (List.mem_cons_of_mem _ hy))

theorem blkTriplets_length_le (r0 c0 : Nat) (b : Blk α) :
    (blkTriplets r0 c0 b).length ≤ b.rows * b.cols := by
  unfold blkTriplets
  have h1 : ∀ i ∈ List.range b.rows,
      ((List.range b.cols).flatMap fun j =>
        if b.entry i j ≠ 0 then [(r0 + i, c0 + j, b.entry i j)] else []).length
      ≤ b.cols := by
    intro i _
    have h2 := length_flatMap_le (List.range b.cols)
      (fun j => if b.entry i j ≠ 0 then [(r0 + i, c0 + j, b.entry i j)] else [])
      (fun _ => 1)
      (by
        intro j _
        dsimp only
        by_cases hz : b.entry i j ≠ 0
        · rw [if_pos hz]; exact Nat.le_refl 1
        · rw [if_neg hz]; exact Nat.zero_le 1)
    rw [sum_map_const_one, List.length_range, Nat.mul_one] at h2
    exact h2
  have h3 := length_flatMap_le (List.range b.rows) _ (fun _ => b.cols) h1
  rw [sum_map_const_one, List.length_range] at h3
  exact h3

theorem sparseHopPairs_length_le (toOff fromOff : Nat) (h : Blk α) :
    (sparseHopPairs toOff fromOff h).length ≤ 2 * h.rows * h.cols := by
  unfold sparseHopPairs
  have h1 : ∀ i ∈ List.range h.rows,
      ((List.range h.cols).flatMap fun j =>
        if h.entry i j ≠ 0 then
          [(toOff + i, fromOff + j, h.entry i j),
           (fromOff + j, toOff + i, star (h.entry i j))]
        else []).length ≤ 2 * h.cols := by
    intro i _
    have h2 := length_flatMap_le (List.range h.cols)
      (fun j => if h.entry i j ≠ 0 then
          [(toOff + i, fromOff + j, h.entry i j),
           (fromOff + j, toOff + i, star (h.entry i j))]
        else [])
      (fun _ => 2)
      (by
        intro j _
        dsimp only
        by_cases hz : h.entry i j ≠ 0
        · rw [if_pos hz]; exact Nat.le_refl 2
        · rw [if_neg hz]; exact Nat.zero_le 2)
    rw [sum_map_const_one, List.length_range] at h2
    calc ((List.range h.cols).flatMap _).length ≤ h.cols * 2 := h2
      _ = 2 * h.cols := by ring
  have h3 := length_flatMap_le (List.range h.rows) _ (fun _ => 2 * h.cols) h1
  rw [sum_map_const_one, List.length_range] at h3
  have h4 : h.rows * (2 * h.cols) = 2 * h.rows * h.cols := by ring
  rw [h4] at h3
  exact h3

theorem foldl_cond_add (fs : Nat) (k : Nat → Nat) :
    ∀ (l : List Nat) (a : Nat),
      l.foldl (fun a2 ts => if fs < ts then a2 + k ts else a2) a =
      a + (l.map fun ts => if fs < ts then k ts else 0).sum := by
  intro l
  induction l with
  | nil => intro a; simp
  | cons ts rest ih =>
      intro a
      simp only [List.foldl_cons, List.map_cons, List.sum_cons]
      by_cases h : fs < ts
      · rw [if_pos h, if_pos h, ih]
        omega
      · rw [if_neg h, if_neg h, ih]
        omega

theorem sparse_full_num_entries_eq (gr : CGraph) (to_norb from_norb : Nat → Nat) :
    sparse_full_num_entries gr to_norb from_norb =
      ((List.range gr.num_nodes).map fun fs =>
        from_norb fs * from_norb fs +
        ((gr.out_neighbors fs).map fun ts =>
          if fs < ts then 2 * to_norb ts * from_norb fs else 0).sum).sum := by
  unfold sparse_full_num_entries
  have main : ∀ (l : List Nat) (a : Nat),
      l.foldl (fun acc fs => (gr.out_neighbors fs).foldl
        (fun a2 ts => if fs < ts then a2 + 2 * to_norb ts * from_norb fs else a2)
        (acc + from_norb fs * from_norb fs)) a =
      a + (l.map fun fs =>
        from_norb fs * from_norb fs +
        ((gr.out_neighbors fs).map fun ts =>
          if fs < ts then 2 * to_norb ts * from_norb fs else 0).sum).sum := by
    intro l
    induction l with
    | nil => intro a; simp
    | cons fs rest ih =>
        intro a
        simp only [List.foldl_cons, List.map_cons, List.sum_cons]
        rw [foldl_cond_add fs (fun ts => 2 * to_norb ts * from_norb fs)
          (gr.out_neighbors fs) (a + from_norb fs * from_norb fs), ih]
        ring
  rw [main (List.range gr.num_nodes) 0, Nat.zero_add]

theorem sparseHops_length_le (ham : Nat → Nat → Blk α)
    (to_norb to_off from_norb from_off : Nat → Nat) (fs : Nat) :
    ∀ (l : List Nat) (tl : List (Nat × Nat × α)), (∀ ts ∈ l, ts ≠ fs) →
      sparseHops ham to_norb to_off from_norb from_off fs l = .ok tl →
      tl.length ≤ (l.map fun ts =>
        if fs < ts then 2 * to_norb ts * from_norb fs else 0).sum := by
  intro l
  induction l with
  | nil =>
      intro tl _ hh
      simp only [sparseHops] at hh
      cases hh
      simp
  | cons ts rest ih =>
      intro tl hne hh
      simp only [sparseHops] at hh
      simp only [List.map_cons, List.sum_cons]
      by_cases hlt : ts < fs
      · rw [if_pos hlt] at hh
        rw [if_neg (by omega : ¬ fs < ts), Nat.zero_add]
        exact ih tl (fun t h => hne t (List.mem_cons_of_mem _ h)) hh
      · rw [if_neg hlt] at hh
        have hgt : fs < ts := by
          have := hne ts (List.mem_cons_self _ _)
          omega
        by_cases hsh : (ham ts fs).rows = to_norb ts ∧
            (ham ts fs).cols = from_norb fs
        · rw [if_pos hsh] at hh
          cases hrec : sparseHops ham to_norb to_off from_norb from_off fs rest with
          | error e => rw [hrec] at hh; cases hh
          | ok tl2 =>
              rw [hrec] at hh
              simp only [Except.map] at hh
              cases hh
              rw [List.length_append, if_pos hgt]
              have h1 : (sparseHopPairs (to_off ts) (from_off fs)
                  (ham ts fs)).length ≤ 2 * to_norb ts * from_norb fs := by
                have := sparseHopPairs_length_le (to_off ts) (from_off fs)
                  (ham ts fs)
                rw [hsh.1, hsh.2] at this
                exact this
              exact Nat.add_le_add h1
                (ih tl2 (fun t h => hne t (List.mem_cons_of_mem _ h)) hrec)
        · rw [if_neg hsh] at hh
          cases hh

theorem sparseSites_length_le (ham : Nat → Nat → Blk α) (gr : CGraph)
    (diag : Nat → Blk α) (to_norb to_off from_norb from_off : Nat → Nat) :
    ∀ (sites : List Nat) (tl : List (Nat × Nat × α)),
      (∀ fs ∈ sites, fs ∉ gr.out_neighbors fs) →
      sparseSites ham gr diag to_norb to_off from_norb from_off sites = .ok tl →
      tl.length ≤ (sites.map fun fs =>
        from_norb fs * from_norb fs +
        ((gr.out_neighbors fs).map fun ts =>
          if fs < ts then 2 * to_norb ts * from_norb fs else 0).sum).sum := by
  intro sites
  induction sites with
  | nil =>
      intro tl _ hh
      simp only [sparseSites] at hh
      cases hh
      simp
  | cons fs rest ih =>
      intro tl hselfl hh
      simp only [sparseSites] at hh
      by_cases hsh : (diag fs).rows = from_norb fs ∧ (diag fs).cols = from_norb fs
      · rw [if_pos hsh] at hh
        cases hd : sparseHops ham to_norb to_off from_norb from_off fs
            (gr.out_neighbors fs) with
        | error e => rw [hd] at hh; cases hh
        | ok hopT =>
            rw [hd] at hh
            cases hrest : sparseSites ham gr diag to_norb to_off from_norb
                from_off rest with
            | error e => rw [hrest] at hh; cases hh
            | ok restT =>
                rw [hrest] at hh
                simp only [Except.map] at hh
                cases hh
                simp only [List.map_cons, List.sum_cons]
                rw [List.length_append, List.length_append]
                have h1 : (blkTriplets (to_off fs) (from_off fs)
                    (diag fs)).length ≤ from_norb fs * from_norb fs := by
                  have := blkTriplets_length_le (to_off fs) (from_off fs) (diag fs)
                  rw [hsh.1, hsh.2] at this
                  exact this
                have h2 := sparseHops_length_le ham to_norb to_off from_norb
                  from_off fs (gr.out_neighbors fs) hopT
                  (fun ts hts heq => hselfl fs (List.mem_cons_self _ _)
                    (heq ▸ hts)) hd
                have h3 := ih restT
                  (fun f h => hselfl f (List.mem_cons_of_mem _ h)) hrest
                omega
      · rw [if_neg hsh] at hh
        cases hh

/-- **C10**: in `make_sparse_full` the counting pass counts hopping slots
only for neighbors with `fs < ts` while the write pass skips only
`ts < fs`; under the precondition that no site appears in its own
out-neighbor list and no neighbor is listed twice, every emitted entry
fits: the final write index (the number of emitted triplets) never exceeds
the pre-allocated `num_entries`, so every write into the `rows`/`cols`/
`data` buffers is in bounds. -/
theorem C10_sparse_full_write_index_bounded
    {α : Type} [CommRing α] [StarRing α] [DecidableEq α]
    (ham : Nat → Nat → Blk α) (gr : CGraph) (diag : Nat → Blk α)
    (to_norb to_off from_norb from_off : Nat → Nat)
    (hself : ∀ fs, fs < gr.num_nodes → fs ∉ gr.out_neighbors fs)
    (hnodup : ∀ fs, fs < gr.num_nodes → (gr.out_neighbors fs).Nodup)
    (coo : Coo α)
    (hs : make_sparse_full ham gr diag to_norb to_off from_norb from_off =
      .ok coo) :
    coo.data.length ≤ sparse_full_num_entries gr to_norb from_norb := by
  obtain ⟨tl, hsl, hcoo⟩ := except_ok_of_map_ok _ _ _ hs
  subst hcoo
  rw [sparse_full_num_entries_eq]
  exact sparseSites_length_le ham gr diag to_norb to_off from_norb from_off
    (List.range gr.num_nodes) tl
    (fun fs hfs => hself fs (List.mem_range.mp hfs)) hsl

/-- **C10** (witness): the bound evaluated on the two-site chain. -/
theorem C10_witness :
    ∃ coo : Coo ℤ,
      make_sparse_full (fun _ _ => exBlk (1 : ℤ)) exGraphChain (fun _ => exBlk 0)
        (fun _ => 1) id (fun _ => 1) id = .ok coo ∧
      coo.data.length ≤ sparse_full_num_entries exGraphChain
        (fun _ => 1) (fun _ => 1) := by
  have hs : make_sparse_full (fun _ _ => exBlk (1 : ℤ)) exGraphChain
      (fun _ => exBlk 0) (fun _ => 1) id (fun _ => 1) id =
      .ok ⟨2, 2, [(1, 0, 1), (0, 1, 1)]⟩ := by decide
  exact ⟨_, hs, C10_sparse_full_write_index_bounded (fun _ _ => exBlk (1 : ℤ))
    exGraphChain (fun _ => exBlk 0) (fun _ => 1) id (fun _ => 1) id
    (by decide) (by decide) _ hs⟩

/-! ## Vectorized assemblers
(`_vectorized_make_sparse`, lines 370-417; `_vectorized_make_dense`,
lines 420-453) -/

/-- A batched block array of shape `(num_instances, to_norb, from_norb)`. -/
structure Blk3 (α : Type) where
  n1 : Nat
  n2 : Nat
  n3 : Nat
  entry : Nat → Nat → Nat → α

/-- `ham.conjugate().transpose(0, 2, 1)`: per-instance conjugate
transpose. -/
def Blk3.adjoint [Star α] (h : Blk3 α) : Blk3 α :=
  ⟨h.n1, h.n3, h.n2, fun i j k => star (h.entry i k j)⟩

@[simp] theorem Blk3.adjoint_n1 [Star α] (h : Blk3 α) : h.adjoint.n1 = h.n1 := rfl

@[simp] theorem Blk3.adjoint_n2 [Star α] (h : Blk3 α) : h.adjoint.n2 = h.n3 := rfl

@[simp] theorem Blk3.adjoint_n3 [Star α] (h : Blk3 α) : h.adjoint.n3 = h.n2 := rfl

@[simp] theorem Blk3.adjoint_ent [Star α] (h : Blk3 α) (i j k : Nat) :
    h.adjoint.entry i j k = star (h.entry i k j) := rfl

/-- A term subgraph `((to_array, from_array), (to_offsets, from_offsets))`:
the site-array pair plus the per-instance intra-array site offsets. -/
structure Subg where
  ta : Nat
  fa : Nat
  tsOffs : List Nat
  fsOffs : List Nat
  deriving DecidableEq

/-- `_reverse_subgraph` (lines 527-529): swap the site-array endpoints and
swap the local-offset arrays. -/
def _reverse_subgraph (sg : Subg) : Subg := ⟨sg.fa, sg.ta, sg.fsOffs, sg.tsOffs⟩

/-- The `hops` payload of the shape error: every `(to_site, from_site)`
pair of the term, obtained by adding `site_offsets[array]` to each local
offset (lines 399-401). -/
def shapeErrPairs (siteOffs : Nat → Nat) (sg : Subg) : List (Nat × Nat) :=
  (sg.tsOffs.map fun t => siteOffs sg.ta + t).zip
    (sg.fsOffs.map fun f => siteOffs sg.fa + f)

/-- The write event of instance `i` of a `(subgraph, block_array)` pair:
the `(n2, n3)` block of instance `i` at row offset
`orb_offsets[ta] + norbs[ta] * ts_offs[i]` and column offset
`orb_offsets[fa] + norbs[fa] * fs_offs[i]`. -/
def vectInstEv (norbs orbOffs : Nat → Nat) (sg : Subg) (h : Blk3 α)
    (i : Nat) : Ev α :=
  ⟨orbOffs sg.ta + norbs sg.ta * sg.tsOffs.getD i 0,
   orbOffs sg.fa + norbs sg.fa * sg.fsOffs.getD i 0,
   ⟨h.n2, h.n3, h.entry i⟩⟩

/-- All write events of one `(subgraph, block_array)` pair, in instance
order. -/
def vectPairEvents (norbs orbOffs : Nat → Nat) (sg : Subg) (h : Blk3 α) :
    List (Ev α) :=
  (List.range h.n1).map (vectInstEv norbs orbOffs sg h)

/-- The COO triplets emitted for one pair by `_vectorized_make_sparse`
(lines 404-412): every entry of every instance block, zeros included. -/
def vectPairTriplets (norbs orbOffs : Nat → Nat) (sg : Subg) (h : Blk3 α) :
    List (Nat × Nat × α) :=
  (vectPairEvents norbs orbOffs sg h).flatMap fun e =>
    blkTripletsAll e.r e.c e.b

/-- The loop of `_vectorized_make_sparse` over `zip(subgraphs, hams)`:
validate the trailing dimensions of each block array against
`(norbs[ta], norbs[fa])`, failing with the full per-term hops list, then
emit all instance entries. -/
def vectSparseLoop (norbs orbOffs siteOffs : Nat → Nat) :
    List (Subg × Blk3 α) → Except (List (Nat × Nat)) (List (Nat × Nat × α))
  | [] => .ok []
  | (sg, h) :: rest =>
      if norbs sg.ta = h.n2 ∧ norbs sg.fa = h.n3 then
        (vectSparseLoop norbs orbOffs siteOffs rest).map
          fun tl => vectPairTriplets norbs orbOffs sg h ++ tl
      else .error (shapeErrPairs siteOffs sg)

/-- `_vectorized_make_sparse`: shape defaults to
`(orb_offsets[-1], orb_offsets[-1])`; `A` is the number of site arrays, so
`orbOffs A` is the final (total) entry of the offset table. -/
def _vectorized_make_sparse (subgraphs : List Subg) (hams : List (Blk3 α))
    (norbs orbOffs siteOffs : Nat → Nat) (A : Nat)
    (shape : Option (Nat × Nat)) : Except (List (Nat × Nat)) (Coo α) :=
  (vectSparseLoop norbs orbOffs siteOffs (subgraphs.zip hams)).map fun tl =>
    match shape with
    | some (r, c) => ⟨r, c, tl⟩
    | none => ⟨orbOffs A, orbOffs A, tl⟩

/-- The loop of `_vectorized_make_dense` (lines 436-452): same validation,
then per-instance block assignment into the dense buffer (overwrite). -/
def vectDenseLoop (norbs orbOffs siteOffs : Nat → Nat) (m : Nat → Nat → α) :
    List (Subg × Blk3 α) → Except (List (Nat × Nat)) (Nat → Nat → α)
  | [] => .ok m
  | (sg, h) :: rest =>
      if norbs sg.ta = h.n2 ∧ norbs sg.fa = h.n3 then
        vectDenseLoop norbs orbOffs siteOffs
          (applyEvents m (vectPairEvents norbs orbOffs sg h)) rest
      else .error (shapeErrPairs siteOffs sg)

/-- `_vectorized_make_dense`: a zero buffer of the given (or default)
shape, filled by the loop. -/
def _vectorized_make_dense (subgraphs : List Subg) (hams : List (Blk3 α))
    (norbs orbOffs siteOffs : Nat → Nat) (A : Nat)
    (shape : Option (Nat × Nat)) : Except (List (Nat × Nat)) (Blk α) :=
  (vectDenseLoop norbs orbOffs siteOffs (fun _ _ => 0)
      (subgraphs.zip hams)).map fun m =>
    match shape with
    | some (r, c) => ⟨r, c, m⟩
    | none => ⟨orbOffs A, orbOffs A, m⟩

/-- All write events of a vectorized run, in traversal order. -/
def vectEvents (norbs orbOffs : Nat → Nat) (pairs : List (Subg × Blk3 α)) :
    List (Ev α) :=
  pairs.flatMap fun p => vectPairEvents norbs orbOffs p.1 p.2

theorem vectDenseLoop_ok (norbs orbOffs siteOffs : Nat → Nat) :
    ∀ (pairs : List (Subg × Blk3 α)) (m m2 : Nat → Nat → α),
      vectDenseLoop norbs orbOffs siteOffs m pairs = .ok m2 →
      m2 = applyEvents m (vectEvents norbs orbOffs pairs) := by
  intro pairs
  induction pairs with
  | nil =>
      intro m m2 hh
      simp only [vectDenseLoop] at hh
      cases hh
      rfl
  | cons p rest ih =>
      intro m m2 hh
      obtain ⟨sg, h⟩ := p
      simp only [vectDenseLoop] at hh
      by_cases hv : norbs sg.ta = h.n2 ∧ norbs sg.fa = h.n3
      · rw [if_pos hv] at hh
        rw [ih _ m2 hh]
        rw [show vectEvents norbs orbOffs ((sg, h) :: rest) =
          vectPairEvents norbs orbOffs sg h ++ vectEvents norbs orbOffs rest
          from by simp [vectEvents, List.flatMap_cons]]
        unfold applyEvents
        rw [List.foldl_append]
      · rw [if_neg hv] at hh
        cases hh

theorem vectSparseLoop_ok (norbs orbOffs siteOffs : Nat → Nat) :
    ∀ (pairs : List (Subg × Blk3 α)) (tl : List (Nat × Nat × α)),
      vectSparseLoop norbs orbOffs siteOffs pairs = .ok tl →
      tl = (vectEvents norbs orbOffs pairs).flatMap
        fun e => blkTripletsAll e.r e.c e.b := by
  intro pairs
  induction pairs with
  | nil =>
      intro tl hh
      simp only [vectSparseLoop] at hh
      cases hh
      rfl
  | cons p rest ih =>
      intro tl hh
      obtain ⟨sg, h⟩ := p
      simp only [vectSparseLoop] at hh
      by_cases hv : norbs sg.ta = h.n2 ∧ norbs sg.fa = h.n3
      · rw [if_pos hv] at hh
        cases hrec : vectSparseLoop norbs orbOffs siteOffs rest with
        | error e => rw [hrec] at hh; cases hh
        | ok tl2 =>
            rw [hrec] at hh
            simp only [Except.map] at hh
            cases hh
            rw [show vectEvents norbs orbOffs ((sg, h) :: rest) =
              vectPairEvents norbs orbOffs sg h ++ vectEvents norbs orbOffs rest
              from by simp [vectEvents, List.flatMap_cons]]
            rw [List.flatMap_append, ih tl2 hrec]
            rfl
      · rw [if_neg hv] at hh
        cases hh

theorem vectSparseLoop_ok_shapes (norbs orbOffs siteOffs : Nat → Nat) :
    ∀ (pairs : List (Subg × Blk3 α)) (tl : List (Nat × Nat × α)),
      vectSparseLoop norbs orbOffs siteOffs pairs = .ok tl →
      ∀ p ∈ pairs, norbs p.1.ta = p.2.n2 ∧ norbs p.1.fa = p.2.n3 := by
  intro pairs
  induction pairs with
  | nil => intro tl _ p hp; cases hp
  | cons p0 rest ih =>
      intro tl hh p hp
      obtain ⟨sg, h⟩ := p0
      simp only [vectSparseLoop] at hh
      by_cases hv : norbs sg.ta = h.n2 ∧ norbs sg.fa = h.n3
      · rw [if_pos hv] at hh
        rcases List.mem_cons.mp hp with he | he
        · subst he; exact hv
        · cases hrec : vectSparseLoop norbs orbOffs siteOffs rest with
          | error e => rw [hrec] at hh; cases hh
          | ok tl2 => exact ih tl2 hrec p he
      · rw [if_neg hv] at hh
        cases hh

theorem vectDenseLoop_ok_shapes (norbs orbOffs siteOffs : Nat → Nat) :
    ∀ (pairs : List (Subg × Blk3 α)) (m m2 : Nat → Nat → α),
      vectDenseLoop norbs orbOffs siteOffs m pairs = .ok m2 →
      ∀ p ∈ pairs, norbs p.1.ta = p.2.n2 ∧ norbs p.1.fa = p.2.n3 := by
  intro pairs
  induction pairs with
  | nil => intro m m2 _ p hp; cases hp
  | cons p0 rest ih =>
      intro m m2 hh p hp
      obtain ⟨sg, h⟩ := p0
      simp only [vectDenseLoop] at hh
      by_cases hv : norbs sg.ta = h.n2 ∧ norbs sg.fa = h.n3
      · rw [if_pos hv] at hh
        rcases List.mem_cons.mp hp with he | he
        · subst he; exact hv
        · exact ih _ m2 hh p he
      · rw [if_neg hv] at hh
        cases hh

theorem vectSparseLoop_ok_mem (norbs orbOffs siteOffs : Nat → Nat) :
    ∀ (pairs : List (Subg × Blk3 α)) (tl : List (Nat × Nat × α)),
      vectSparseLoop norbs orbOffs siteOffs pairs = .ok tl →
      ∀ p ∈ pairs, ∀ x ∈ vectPairTriplets norbs orbOffs p.1 p.2, x ∈ tl := by
  intro pairs
  induction pairs with
  | nil => intro tl _ p hp; cases hp
  | cons p0 rest ih =>
      intro tl hh p hp x hx
      obtain ⟨sg, h⟩ := p0
      simp only [vectSparseLoop] at hh
      by_cases hv : norbs sg.ta = h.n2 ∧ norbs sg.fa = h.n3
      · rw [if_pos hv] at hh
        cases hrec : vectSparseLoop norbs orbOffs siteOffs rest with
        | error e => rw [hrec] at hh; cases hh
        | ok tl2 =>
            rw [hrec] at hh
            simp only [Except.map] at hh
            cases hh
            rcases List.mem_cons.mp hp with he | he
            · subst he
              exact List.mem_append_left _ hx
            · exact List.mem_append_right _ (ih tl2 hrec p he x hx)
      · rw [if_neg hv] at hh
        cases hh

/-- **C9** (amended): for every vectorized assembly input whose instance
write regions are pairwise disjoint, the dense output equals the sparse
output converted to dense, elementwise; the hypothesis is needed because
repeated writes to the same position accumulate in the sparse COO output
but overwrite in the dense buffer. -/
theorem C9_vectorized_sparse_matches_dense
    {α : Type} [CommRing α] [StarRing α] [DecidableEq α]
    (subgraphs : List Subg) (hams : List (Blk3 α))
    (norbs orbOffs siteOffs : Nat → Nat) (A : Nat) (shape : Option (Nat × Nat))
    (hp : (vectEvents norbs orbOffs (subgraphs.zip hams)).Pairwise evDisj)
    (coo : Coo α) (dm : Blk α)
    (hs : _vectorized_make_sparse subgraphs hams norbs orbOffs siteOffs A
      shape = .ok coo)
    (hd : _vectorized_make_dense subgraphs hams norbs orbOffs siteOffs A
      shape = .ok dm) :
    coo.rows = dm.rows ∧ coo.cols = dm.cols ∧
    ∀ r c, cooAt coo.data r c = dm.entry r c := by
  obtain ⟨tl, hsl, hcoo⟩ := except_ok_of_map_ok _ _ _ hs
  obtain ⟨m, hdm, hblk⟩ := except_ok_of_map_ok _ _ _ hd
  have htl := vectSparseLoop_ok norbs orbOffs siteOffs _ _ hsl
  have hm := vectDenseLoop_ok norbs orbOffs siteOffs _ _ _ hdm
  have hmain : ∀ r c, cooAt tl r c = m r c := by
    intro r c
    subst htl
    subst hm
    by_cases hex : ∃ e ∈ vectEvents norbs orbOffs (subgraphs.zip hams),
        covers e r c
    · obtain ⟨e, he, hc⟩ := hex
      rw [cooAtAll_events_covered _ hp e he r c hc,
        applyEvents_covered _ _ hp e he r c hc]
    · push_neg at hex
      rw [cooAtAll_events_not_covered _ r c hex,
        applyEvents_not_covered _ _ r c hex]
  cases shape with
  | none =>
      subst hcoo
      subst hblk
      exact ⟨rfl, rfl, hmain⟩
  | some rc =>
      obtain ⟨r0, c0⟩ := rc
      subst hcoo
      subst hblk
      exact ⟨rfl, rfl, hmain⟩

/-- Fixture: a single pair whose two instances write to the same position. -/
def exSubgOverlap : Subg := ⟨0, 0, [0, 0], [0, 0]⟩

/-- Fixture: a single pair with two instances at distinct positions. -/
def exSubgTwo : Subg := ⟨0, 0, [0, 1], [0, 1]⟩

/-- Fixture: block array with two `1 × 1` instances, all entries `1`. -/
def exBlk3Ones : Blk3 ℤ := ⟨2, 1, 1, fun _ _ _ => 1⟩

/-- **C9** (counterexample): two instances of one term target the same
matrix position; the vectorized sparse output accumulates them (`2` after
conversion to dense) while the vectorized dense output overwrites (`1`),
so the claimed unconditional equality is false. -/
theorem C9_counterexample :
    ((_vectorized_make_sparse [exSubgOverlap] [exBlk3Ones]
        (fun _ => 1) id id 1 none).map
      (fun coo => cooAt coo.data 0 0) = .ok 2) ∧
    ((_vectorized_make_dense [exSubgOverlap] [exBlk3Ones]
        (fun _ => 1) id id 1 none).map
      (fun dm => (dm.rows, dm.cols, dm.entry 0 0)) = .ok (1, 1, 1)) := by
  constructor <;> decide

/-- **C9** (witness): the amended theorem on a pair with two disjoint
instances. -/
theorem C9_witness :
    ∃ (coo : Coo ℤ) (dm : Blk ℤ),
      _vectorized_make_sparse [exSubgTwo] [exBlk3Ones]
        (fun _ => 1) id id 2 none = .ok coo ∧
      _vectorized_make_dense [exSubgTwo] [exBlk3Ones]
        (fun _ => 1) id id 2 none = .ok dm ∧
      cooAt coo.data 0 0 = dm.entry 0 0 ∧ cooAt coo.data 1 1 = dm.entry 1 1 := by
  have hs : _vectorized_make_sparse [exSubgTwo] [exBlk3Ones]
      (fun _ => 1) id id 2 none = .ok ⟨2, 2, [(0, 0, 1), (1, 1, 1)]⟩ := by decide
  have hm : (_vectorized_make_dense [exSubgTwo] [exBlk3Ones]
      (fun _ => 1) id id 2 none).map (fun dm => dm.rows) = .ok 2 := by decide
  rcases hdm : _vectorized_make_dense [exSubgTwo] [exBlk3Ones]
      (fun _ => 1) id id 2 none with e | dm
  · rw [hdm] at hm
    simp [Except.map] at hm
  · have hmain := C9_vectorized_sparse_matches_dense [exSubgTwo] [exBlk3Ones]
      (fun _ => 1) id id 2 none (by decide) _ dm hs hdm
    exact ⟨_, dm, hs, rfl, hmain.2.2 0 0, hmain.2.2 1 1⟩

theorem mem_blkTripletsAll (r0 c0 : Nat) (b : Blk α) (j k : Nat)
    (hj : j < b.rows) (hk : k < b.cols) :
    (r0 + j, c0 + k, b.entry j k) ∈ blkTripletsAll r0 c0 b := by
  unfold blkTripletsAll
  refine List.mem_flatMap.mpr ⟨j, List.mem_range.mpr hj, ?_⟩
  exact List.mem_flatMap.mpr ⟨k, List.mem_range.mpr hk,
    List.mem_singleton.mpr rfl⟩

/-- **C5**: for every `(subgraph, block_array)` pair that passes shape
validation (implied by overall success) and every instance `i`, the
vectorized assemblers write the full `norbs[ta] × norbs[fa]` block of
instance `i` at row offset `orb_offsets[ta] + norbs[ta] * ts_offs[i]` and
column offset `orb_offsets[fa] + norbs[fa] * fs_offs[i]`: the sparse
variant emits every entry of the block as a triplet at those coordinates,
and the dense variant (when no two writes overlap) holds exactly those
entries there. -/
theorem C5_vectorized_write_placement
    {α : Type} [CommRing α] [StarRing α] [DecidableEq α]
    (subgraphs : List Subg) (hams : List (Blk3 α))
    (norbs orbOffs siteOffs : Nat → Nat) (A : Nat)
    (shape : Option (Nat × Nat)) :
    (∀ coo : Coo α,
      _vectorized_make_sparse subgraphs hams norbs orbOffs siteOffs A shape =
        .ok coo →
      ∀ sg h, (sg, h) ∈ subgraphs.zip hams →
      ∀ i, i < h.n1 → ∀ j, j < norbs sg.ta → ∀ k, k < norbs sg.fa →
        (orbOffs sg.ta + norbs sg.ta * sg.tsOffs.getD i 0 + j,
         orbOffs sg.fa + norbs sg.fa * sg.fsOffs.getD i 0 + k,
         h.entry i j k) ∈ coo.data) ∧
    (∀ dm : Blk α,
      _vectorized_make_dense subgraphs hams norbs orbOffs siteOffs A shape =
        .ok dm →
      (vectEvents norbs orbOffs (subgraphs.zip hams)).Pairwise evDisj →
      ∀ sg h, (sg, h) ∈ subgraphs.zip hams →
      ∀ i, i < h.n1 → ∀ j, j < norbs sg.ta → ∀ k, k < norbs sg.fa →
        dm.entry (orbOffs sg.ta + norbs sg.ta * sg.tsOffs.getD i 0 + j)
          (orbOffs sg.fa + norbs sg.fa * sg.fsOffs.getD i 0 + k) =
          h.entry i j k) := by
  constructor
  · intro coo hs sg h hmem i hi j hj k hk
    obtain ⟨tl, hsl, hcoo⟩ := except_ok_of_map_ok _ _ _ hs
    have hsh := vectSparseLoop_ok_shapes norbs orbOffs siteOffs _ _ hsl
      (sg, h) hmem
    have hdata : coo.data = tl := by
      cases shape with
      | none => rw [← hcoo]
      | some rc => obtain ⟨r0, c0⟩ := rc; rw [← hcoo]
    rw [hdata]
    refine vectSparseLoop_ok_mem norbs orbOffs siteOffs _ _ hsl (sg, h) hmem _ ?_
    unfold vectPairTriplets
    refine List.mem_flatMap.mpr ⟨vectInstEv norbs orbOffs sg h i, ?_, ?_⟩
    · exact List.mem_map.mpr ⟨i, List.mem_range.mpr hi, rfl⟩
    · have hsh2 : norbs sg.ta = h.n2 := hsh.1
      have hsh3 : norbs sg.fa = h.n3 := hsh.2
      exact mem_blkTripletsAll _ _ ⟨h.n2, h.n3, h.entry i⟩ j k
        (by show j < h.n2; omega) (by show k < h.n3; omega)
  · intro dm hd hp sg h hmem i hi j hj k hk
    obtain ⟨m, hdm, hblk⟩ := except_ok_of_map_ok _ _ _ hd
    have hsh := vectDenseLoop_ok_shapes norbs orbOffs siteOffs _ _ _ hdm
      (sg, h) hmem
    have hentry : dm.entry = m := by
      cases shape with
      | none => rw [← hblk]
      | some rc => obtain ⟨r0, c0⟩ := rc; rw [← hblk]
    rw [hentry, vectDenseLoop_ok norbs orbOffs siteOffs _ _ _ hdm]
    have he : vectInstEv norbs orbOffs sg h i ∈
        vectEvents norbs orbOffs (subgraphs.zip hams) :=
      List.mem_flatMap.mpr ⟨(sg, h), hmem,
        List.mem_map.mpr ⟨i, List.mem_range.mpr hi, rfl⟩⟩
    have hsh2 : norbs sg.ta = h.n2 := hsh.1
    have hsh3 : norbs sg.fa = h.n3 := hsh.2
    have hcov : covers (vectInstEv norbs orbOffs sg h i)
        (orbOffs sg.ta + norbs sg.ta * sg.tsOffs.getD i 0 + j)
        (orbOffs sg.fa + norbs sg.fa * sg.fsOffs.getD i 0 + k) := by
      refine ⟨?_, ?_, ?_, ?_⟩
      · show orbOffs sg.ta + norbs sg.ta * sg.tsOffs.getD i 0 ≤ _
        omega
      · show _ < orbOffs sg.ta + norbs sg.ta * sg.tsOffs.getD i 0 + h.n2
        omega
      · show orbOffs sg.fa + norbs sg.fa * sg.fsOffs.getD i 0 ≤ _
        omega
      · show _ < orbOffs sg.fa + norbs sg.fa * sg.fsOffs.getD i 0 + h.n3
        omega
    rw [applyEvents_covered _ _ hp _ he _ _ hcov]
    show h.entry i
        (orbOffs sg.ta + norbs sg.ta * sg.tsOffs.getD i 0 + j -
          (orbOffs sg.ta + norbs sg.ta * sg.tsOffs.getD i 0))
        (orbOffs sg.fa + norbs sg.fa * sg.fsOffs.getD i 0 + k -
          (orbOffs sg.fa + norbs sg.fa * sg.fsOffs.getD i 0)) = h.entry i j k
    rw [Nat.add_sub_cancel_left, Nat.add_sub_cancel_left]

/-- **C5** (witness): placement evaluated on a pair with two `1 × 1`
instances at distinct positions. -/
theorem C5_witness :
    (∃ coo : Coo ℤ,
      _vectorized_make_sparse [exSubgTwo] [exBlk3Ones]
        (fun _ => 1) id id 2 none = .ok coo ∧
      (0, 0, (1 : ℤ)) ∈ coo.data ∧ (1, 1, (1 : ℤ)) ∈ coo.data) ∧
    (∃ dm : Blk ℤ,
      _vectorized_make_dense [exSubgTwo] [exBlk3Ones]
        (fun _ => 1) id id 2 none = .ok dm ∧
      dm.entry 0 0 = 1 ∧ dm.entry 1 1 = 1) := by
  have hthm := C5_vectorized_write_placement [exSubgTwo] [exBlk3Ones]
    (fun _ => (1 : Nat)) id id 2 (none : Option (Nat × Nat)) (α := ℤ)
  have hs : _vectorized_make_sparse [exSubgTwo] [exBlk3Ones]
      (fun _ => 1) id id 2 none = .ok ⟨2, 2, [(0, 0, 1), (1, 1, 1)]⟩ := by decide
  have hm : (_vectorized_make_dense [exSubgTwo] [exBlk3Ones]
      (fun _ => 1) id id 2 none).map (fun dm => dm.rows) = .ok 2 := by decide
  constructor
  · refine ⟨_, hs, ?_, ?_⟩
    · exact hthm.1 _ hs exSubgTwo exBlk3Ones (List.mem_cons_self _ _) 0
        (by decide) 0 (by decide) 0 (by decide)
    · exact hthm.1 _ hs exSubgTwo exBlk3Ones (List.mem_cons_self _ _) 1
        (by decide) 0 (by decide) 0 (by decide)
  · rcases hdm : _vectorized_make_dense [exSubgTwo] [exBlk3Ones]
        (fun _ => 1) id id 2 none with e | dm
    · rw [hdm] at hm
      simp [Except.map] at hm
    · refine ⟨dm, rfl, ?_, ?_⟩
      · exact hthm.2 dm hdm (by decide) exSubgTwo exBlk3Ones
          (List.mem_cons_self _ _) 0 (by decide) 0 (by decide) 0 (by decide)
      · exact hthm.2 dm hdm (by decide) exSubgTwo exBlk3Ones
          (List.mem_cons_self _ _) 1 (by decide) 0 (by decide) 0 (by decide)

theorem vectSparseLoop_all_ok (norbs orbOffs siteOffs : Nat → Nat) :
    ∀ pairs : List (Subg × Blk3 α),
      (∀ p ∈ pairs, norbs p.1.ta = p.2.n2 ∧ norbs p.1.fa = p.2.n3) →
      ∃ tl, vectSparseLoop norbs orbOffs siteOffs pairs = .ok tl := by
  intro pairs
  induction pairs with
  | nil => intro _; exact ⟨[], rfl⟩
  | cons p rest ih =>
      intro hv
      obtain ⟨sg, h⟩ := p
      obtain ⟨tl, htl⟩ := ih fun q hq => hv q (List.mem_cons_of_mem _ hq)
      refine ⟨vectPairTriplets norbs orbOffs sg h ++ tl, ?_⟩
      simp only [vectSparseLoop]
      rw [if_pos (hv (sg, h) (List.mem_cons_self _ _)), htl]
      rfl

theorem vectDenseLoop_all_ok (norbs orbOffs siteOffs : Nat → Nat) :
    ∀ (pairs : List (Subg × Blk3 α)) (m : Nat → Nat → α),
      (∀ p ∈ pairs, norbs p.1.ta = p.2.n2 ∧ norbs p.1.fa = p.2.n3) →
      ∃ m2, vectDenseLoop norbs orbOffs siteOffs m pairs = .ok m2 := by
  intro pairs
  induction pairs with
  | nil => intro m _; exact ⟨m, rfl⟩
  | cons p rest ih =>
      intro m hv
      obtain ⟨sg, h⟩ := p
      obtain ⟨m2, hm2⟩ := ih (applyEvents m (vectPairEvents norbs orbOffs sg h))
        fun q hq => hv q (List.mem_cons_of_mem _ hq)
      refine ⟨m2, ?_⟩
      simp only [vectDenseLoop]
      rw [if_pos (hv (sg, h) (List.mem_cons_self _ _)), hm2]

theorem vectSparseLoop_first_err (norbs orbOffs siteOffs : Nat → Nat)
    (sg : Subg) (h : Blk3 α) (post : List (Subg × Blk3 α))
    (hbad : ¬(norbs sg.ta = h.n2 ∧ norbs sg.fa = h.n3)) :
    ∀ pre : List (Subg × Blk3 α),
      (∀ p ∈ pre, norbs p.1.ta = p.2.n2 ∧ norbs p.1.fa = p.2.n3) →
      vectSparseLoop norbs orbOffs siteOffs (pre ++ (sg, h) :: post) =
        .error (shapeErrPairs siteOffs sg) := by
  intro pre
  induction pre with
  | nil =>
      intro _
      simp only [List.nil_append, vectSparseLoop]
      rw [if_neg hbad]
  | cons p rest ih =>
      intro hv
      obtain ⟨sg0, h0⟩ := p
      simp only [List.cons_append, vectSparseLoop]
      rw [if_pos (hv (sg0, h0) (List.mem_cons_self _ _))]
      rw [show rest.append ((sg, h) :: post) = rest ++ (sg, h) :: post from rfl]
      rw [ih fun q hq => hv q (List.mem_cons_of_mem _ hq)]
      rfl

theorem vectDenseLoop_first_err (norbs orbOffs siteOffs : Nat → Nat)
    (sg : Subg) (h : Blk3 α) (post : List (Subg × Blk3 α))
    (hbad : ¬(norbs sg.ta = h.n2 ∧ norbs sg.fa = h.n3)) :
    ∀ (pre : List (Subg × Blk3 α)) (m : Nat → Nat → α),
      (∀ p ∈ pre, norbs p.1.ta = p.2.n2 ∧ norbs p.1.fa = p.2.n3) →
      vectDenseLoop norbs orbOffs siteOffs m (pre ++ (sg, h) :: post) =
        .error (shapeErrPairs siteOffs sg) := by
  intro pre
  induction pre with
  | nil =>
      intro m _
      simp only [List.nil_append, vectDenseLoop]
      rw [if_neg hbad]
  | cons p rest ih =>
      intro m hv
      obtain ⟨sg0, h0⟩ := p
      simp only [List.cons_append, vectDenseLoop]
      rw [if_pos (hv (sg0, h0) (List.mem_cons_self _ _))]
      rw [show rest.append ((sg, h) :: post) = rest ++ (sg, h) :: post from rfl]
      exact ih _ fun q hq => hv q (List.mem_cons_of_mem _ hq)

theorem zip_map_getD_mem (f g : Nat → Nat) :
    ∀ (l1 l2 : List Nat) (i : Nat), i < l1.length → i < l2.length →
      (f (l1.getD i 0), g (l2.getD i 0)) ∈ (l1.map f).zip (l2.map g) := by
  intro l1
  induction l1 with
  | nil =>
      intro l2 i h1
      simp at h1
  | cons a t1 ih =>
      intro l2 i h1 h2
      cases l2 with
      | nil => simp at h2
      | cons b t2 =>
          cases i with
          | zero => exact List.mem_cons_self _ _
          | succ i2 =>
              refine List.mem_cons_of_mem _ (ih t2 i2 ?_ ?_)
              · simp only [List.length_cons] at h1
                omega
              · simp only [List.length_cons] at h2
                omega

/-- **C7**: the vectorized assemblers never raise the shape error when
every pair's trailing block dimensions match `(norbs[ta], norbs[fa])`;
when some pair mismatches, both assemblers fail at the first such pair
with the error payload listing *every* `(to_site, from_site)` pair of
that term — each obtained by adding `site_offsets[array]` to the
corresponding local offset — not just the first instance. -/
theorem C7_vectorized_shape_error
    {α : Type} [CommRing α] [StarRing α] [DecidableEq α]
    (subgraphs : List Subg) (hams : List (Blk3 α))
    (norbs orbOffs siteOffs : Nat → Nat) (A : Nat)
    (shape : Option (Nat × Nat)) :
    ((∀ p ∈ subgraphs.zip hams,
        norbs p.1.ta = p.2.n2 ∧ norbs p.1.fa = p.2.n3) →
      (∃ coo, _vectorized_make_sparse subgraphs hams norbs orbOffs siteOffs A
        shape = .ok coo) ∧
      (∃ dm, _vectorized_make_dense subgraphs hams norbs orbOffs siteOffs A
        shape = .ok dm)) ∧
    (∀ (pre : List (Subg × Blk3 α)) (sg : Subg) (h : Blk3 α)
       (post : List (Subg × Blk3 α)),
      subgraphs.zip hams = pre ++ (sg, h) :: post →
      (∀ p ∈ pre, norbs p.1.ta = p.2.n2 ∧ norbs p.1.fa = p.2.n3) →
      ¬(norbs sg.ta = h.n2 ∧ norbs sg.fa = h.n3) →
      _vectorized_make_sparse subgraphs hams norbs orbOffs siteOffs A shape =
        .error (shapeErrPairs siteOffs sg) ∧
      _vectorized_make_dense subgraphs hams norbs orbOffs siteOffs A shape =
        .error (shapeErrPairs siteOffs sg) ∧
      ∀ i, i < sg.tsOffs.length → i < sg.fsOffs.length →
        (siteOffs sg.ta + sg.tsOffs.getD i 0,
         siteOffs sg.fa + sg.fsOffs.getD i 0) ∈ shapeErrPairs siteOffs sg) := by
  constructor
  · intro hv
    constructor
    · obtain ⟨tl, htl⟩ := vectSparseLoop_all_ok norbs orbOffs siteOffs _ hv
      unfold _vectorized_make_sparse
      rw [htl]
      exact ⟨_, rfl⟩
    · obtain ⟨m2, hm2⟩ := vectDenseLoop_all_ok norbs orbOffs siteOffs _
        (fun _ _ => 0) hv
      unfold _vectorized_make_dense
      rw [hm2]
      exact ⟨_, rfl⟩
  · intro pre sg h post hdec hpre hbad
    refine ⟨?_, ?_, ?_⟩
    · unfold _vectorized_make_sparse
      rw [hdec, vectSparseLoop_first_err norbs orbOffs siteOffs sg h post
        hbad pre hpre]
      rfl
    · unfold _vectorized_make_dense
      rw [hdec, vectDenseLoop_first_err norbs orbOffs siteOffs sg h post
        hbad pre (fun _ _ => 0) hpre]
      rfl
    · intro i h1 h2
      exact zip_map_getD_mem _ _ sg.tsOffs sg.fsOffs i h1 h2

/-- Fixture: block array whose trailing dimensions `(2, 2)` mismatch
per-array orbital counts `(1, 1)`. -/
def exBlk3Bad : Blk3 ℤ := ⟨2, 2, 2, fun _ _ _ => 1⟩

/-- **C7** (witness): the no-error case on a well-shaped input and the
error case on a term with two instances and mismatched trailing
dimensions, whose payload lists both site pairs. -/
theorem C7_witness :
    ((∃ coo, _vectorized_make_sparse [exSubgTwo] [exBlk3Ones]
        (fun _ => 1) id id 2 none = .ok coo) ∧
     (∃ dm, _vectorized_make_dense [exSubgTwo] [exBlk3Ones]
        (fun _ => 1) id id 2 none = .ok dm)) ∧
    (_vectorized_make_sparse [exSubgTwo] [exBlk3Bad]
        (fun _ => 1) id id 2 none = .error [(0, 0), (1, 1)] ∧
     _vectorized_make_dense [exSubgTwo] [exBlk3Bad]
        (fun _ => 1) id id 2 none = .error [(0, 0), (1, 1)] ∧
     (0, 0) ∈ ([(0, 0), (1, 1)] : List (Nat × Nat)) ∧
     (1, 1) ∈ ([(0, 0), (1, 1)] : List (Nat × Nat))) := by
  constructor
  · exact (C7_vectorized_shape_error [exSubgTwo] [exBlk3Ones]
      (fun _ => 1) id id 2 none).1
      (by
        intro p hp
        have hp2 : p = (exSubgTwo, exBlk3Ones) := List.mem_singleton.mp hp
        subst hp2
        exact ⟨rfl, rfl⟩)
  · have hmain := (C7_vectorized_shape_error [exSubgTwo] [exBlk3Bad]
      (fun _ => 1) id id 2 none).2 [] exSubgTwo exBlk3Bad [] rfl
      (by intro p hp; cases hp) (by decide)
    have hpairs : shapeErrPairs id exSubgTwo = [(0, 0), (1, 1)] := by decide
    refine ⟨?_, ?_, ?_, ?_⟩
    · rw [hmain.1, hpairs]
    · rw [hmain.2.1, hpairs]
    · have := hmain.2.2 0 (by decide) (by decide)
      rw [hpairs] at this
      exact this
    · have := hmain.2.2 1 (by decide) (by decide)
      rw [hpairs] at this
      exact this

/-! ## Vectorized system model, `_count_norbs` (lines 456-515) and the
`vectorized_hamiltonian_submatrix` pipeline (lines 532-598) -/

/-- A site array: its length and its site family. -/
structure SiteArray where
  len : Nat
  family : Nat
  deriving DecidableEq

/-- A term: the index of its subgraph and its Hermitian flag. -/
structure VTerm where
  subgraph : Nat
  hermitian : Bool
  deriving DecidableEq

/-- The system interface consumed by the vectorized methods. -/
structure VSystem (α : Type) where
  site_arrays : List SiteArray
  subgraphs : List Subg
  terms : List VTerm
  hamiltonian_term : Nat → Blk3 α
  site_ranges : Option (List (Nat × Nat × Nat))
  cell_size : Nat

/-- Error classes of the vectorized methods: the unresolvable-norb
`ValueError`, the `site_ranges` length assertion, and the shape-mismatch
`ValueError` carrying its hops payload. -/
inductive VErr where
  | norb : VErr
  | tableLen : VErr
  | shape : List (Nat × Nat) → VErr
  deriving DecidableEq

def famOf (syst : VSystem α) (w : Nat) : Nat :=
  (syst.site_arrays.getD w ⟨0, 0⟩).family

def subgraphOf (syst : VSystem α) (t : VTerm) : Subg :=
  syst.subgraphs.getD t.subgraph ⟨0, 0, [], []⟩

/-- `np.cumsum([0] + [len(arr) for arr in self.site_arrays])`. -/
def vsys_site_offsets (syst : VSystem α) : List Nat :=
  (List.range (syst.site_arrays.length + 1)).map fun k =>
    ((syst.site_arrays.take k).map SiteArray.len).sum

/-- Overwrite one key of the family-norb dictionary. -/
def updFam (f : Nat → Option Nat) (key v : Nat) : Nat → Option Nat :=
  fun x => if x = key then some v else f x

/-- First pass of `_count_norbs` (lines 480-484): seed the per-family
norbs from the already-evaluated term blocks (`None` entries skipped),
reading the block's trailing two dimensions. -/
def count_norbs_pass1 (syst : VSystem α) (hams : List (Option (Blk3 α))) :
    Nat → Option Nat :=
  (hams.zip syst.terms).foldl
    (fun fams ph =>
      match ph.1 with
      | some ham =>
          updFam (updFam fams (famOf syst (subgraphOf syst ph.2).ta) ham.n2)
            (famOf syst (subgraphOf syst ph.2).fa) ham.n3
      | none => fams)
    fun _ => none

/-- Second pass of `_count_norbs` (lines 487-494): for each term whose
endpoint families are not both known yet, evaluate the term and record
both endpoint norbs. -/
def count_norbs_pass2 (syst : VSystem α) (fams0 : Nat → Option Nat) :
    Nat → Option Nat :=
  (List.range syst.terms.length).foldl
    (fun fams n =>
      if fams (famOf syst (subgraphOf syst (syst.terms.getD n ⟨0, false⟩)).ta)
          = none ∨
         fams (famOf syst (subgraphOf syst (syst.terms.getD n ⟨0, false⟩)).fa)
          = none then
        updFam
          (updFam fams
            (famOf syst (subgraphOf syst (syst.terms.getD n ⟨0, false⟩)).ta)
            (syst.hamiltonian_term n).n2)
          (famOf syst (subgraphOf syst (syst.terms.getD n ⟨0, false⟩)).fa)
          (syst.hamiltonian_term n).n3
      else fams)
    fams0

/-- The family-norb dictionary after both passes. -/
def count_norbs_fams (syst : VSystem α) (hams : List (Option (Blk3 α))) :
    Nat → Option Nat :=
  count_norbs_pass2 syst (count_norbs_pass1 syst hams)

/-- The `site_ranges` rows built by lines 502-509: one
`(start, norbs, orb_offset)` row per site array with `orb_offset`
accumulating `len * norbs`, plus the trailing
`(site_offsets[-1], 0, total)` row. -/
def buildRanges (fams : Nat → Option Nat) :
    List (Nat × SiteArray) → Nat → Nat → List (Nat × Nat × Nat)
  | [], acc, last => [(last, 0, acc)]
  | (start, sa) :: rest, acc, last =>
      (start, (fams sa.family).getD 0, acc) ::
        buildRanges fams rest (acc + sa.len * (fams sa.family).getD 0) last

/-- `_count_norbs`: fast path from precomputed `site_ranges` (with the
length assertion), otherwise the two seeding passes, the unresolvable
check, and the cumulative construction; returns the per-array norbs and
orbital offsets (each with the trailing row included, as
`site_ranges.transpose()` yields). -/
def _count_norbs (syst : VSystem α) (site_offsets : List Nat)
    (hams : List (Option (Blk3 α))) : Except VErr (List Nat × List Nat) :=
  match syst.site_ranges with
  | some ranges =>
      if ranges.length = syst.site_arrays.length + 1 then
        .ok (ranges.map fun x => x.2.1, ranges.map fun x => x.2.2)
      else .error .tableLen
  | none =>
      if syst.site_arrays.any fun sa =>
          (count_norbs_fams syst hams sa.family).isNone then
        .error .norb
      else
        .ok ((buildRanges (count_norbs_fams syst hams)
            (site_offsets.zip syst.site_arrays) 0
            (site_offsets.getD syst.site_arrays.length 0)).map (fun x => x.2.1),
          (buildRanges (count_norbs_fams syst hams)
            (site_offsets.zip syst.site_arrays) 0
            (site_offsets.getD syst.site_arrays.length 0)).map (fun x => x.2.2))

/-- The evaluated per-term block arrays (lines 578-581). -/
def vhs_base_hams (syst : VSystem α) : List (Blk3 α) :=
  (List.range syst.terms.length).map syst.hamiltonian_term

/-- The subgraph list passed to the assembler (lines 567-576): the terms'
subgraphs followed by, for every Hermitian term, its reversed subgraph. -/
def vhs_subgraphs (syst : VSystem α) : List Subg :=
  syst.terms.map (subgraphOf syst) ++
    (syst.terms.filter fun t => t.hermitian).map
      fun t => _reverse_subgraph (subgraphOf syst t)

/-- The block-array list passed to the assembler (lines 578-587): the
evaluated blocks followed by, for every Hermitian term, the conjugate
transpose of its block array. -/
def vhs_hams (syst : VSystem α) : List (Blk3 α) :=
  vhs_base_hams syst ++
    (((vhs_base_hams syst).zip syst.terms).filter fun p => p.2.hermitian).map
      fun p => p.1.adjoint

/-- `vectorized_hamiltonian_submatrix(sparse=True)`. -/
def vectorized_hamiltonian_submatrix_sparse (syst : VSystem α) :
    Except VErr (Coo α) :=
  match _count_norbs syst (vsys_site_offsets syst)
      ((vhs_hams syst).map some) with
  | .error e => .error e
  | .ok (norbs, orbOffs) =>
      match _vectorized_make_sparse (vhs_subgraphs syst) (vhs_hams syst)
          (fun k => norbs.getD k 0) (fun k => orbOffs.getD k 0)
          (fun k => (vsys_site_offsets syst).getD k 0)
          syst.site_arrays.length none with
      | .error e => .error (.shape e)
      | .ok coo => .ok coo

/-- `vectorized_hamiltonian_submatrix(sparse=False)`. -/
def vectorized_hamiltonian_submatrix_dense (syst : VSystem α) :
    Except VErr (Blk α) :=
  match _count_norbs syst (vsys_site_offsets syst)
      ((vhs_hams syst).map some) with
  | .error e => .error e
  | .ok (norbs, orbOffs) =>
      match _vectorized_make_dense (vhs_subgraphs syst) (vhs_hams syst)
          (fun k => norbs.getD k 0) (fun k => orbOffs.getD k 0)
          (fun k => (vsys_site_offsets syst).getD k 0)
          syst.site_arrays.length none with
      | .error e => .error (.shape e)
      | .ok dm => .ok dm

theorem list_sum_star {β : Type} (l : List β) (g : β → α) :
    (l.map fun x => star (g x)).sum = star (l.map g).sum := by
  induction l with
  | nil => simp
  | cons x t ih => simp [ih, star_add]

/-- The COO contribution of a reversed subgraph paired with the
conjugate-transposed block array is exactly the conjugate transpose of the
original pair's contribution: the assembler itself applies no
conjugation. -/
theorem vectPairTriplets_reverse_adjoint (norbs orbOffs : Nat → Nat)
    (sg : Subg) (h : Blk3 α) (r c : Nat) :
    cooAt (vectPairTriplets norbs orbOffs (_reverse_subgraph sg) h.adjoint) r c
      = star (cooAt (vectPairTriplets norbs orbOffs sg h) c r) := by
  unfold vectPairTriplets vectPairEvents
  rw [cooAt_flatMap, cooAt_flatMap, List.map_map, List.map_map]
  rw [show h.adjoint.n1 = h.n1 from rfl, ← list_sum_star]
  apply congrArg List.sum
  apply List.map_congr_left
  intro i _
  simp only [Function.comp]
  show cooAt (blkTripletsAll
      (orbOffs sg.fa + norbs sg.fa * sg.fsOffs.getD i 0)
      (orbOffs sg.ta + norbs sg.ta * sg.tsOffs.getD i 0)
      ⟨h.n3, h.n2, h.adjoint.entry i⟩) r c =
    star (cooAt (blkTripletsAll
      (orbOffs sg.ta + norbs sg.ta * sg.tsOffs.getD i 0)
      (orbOffs sg.fa + norbs sg.fa * sg.fsOffs.getD i 0)
      ⟨h.n2, h.n3, h.entry i⟩) c r)
  rw [cooAt_blkTripletsAll, cooAt_blkTripletsAll]
  by_cases hreg :
      orbOffs sg.fa + norbs sg.fa * sg.fsOffs.getD i 0 ≤ r ∧
      r < orbOffs sg.fa + norbs sg.fa * sg.fsOffs.getD i 0 + h.n3 ∧
      orbOffs sg.ta + norbs sg.ta * sg.tsOffs.getD i 0 ≤ c ∧
      c < orbOffs sg.ta + norbs sg.ta * sg.tsOffs.getD i 0 + h.n2
  · rw [if_pos (show _ ∧ _ ∧ _ ∧ _ from by
      constructor
      · exact hreg.1
      · exact ⟨hreg.2.1, hreg.2.2.1, hreg.2.2.2⟩)]
    rw [if_pos (show _ ∧ _ ∧ _ ∧ _ from by
      exact ⟨hreg.2.2.1, hreg.2.2.2, hreg.1, hreg.2.1⟩)]
    rfl
  · rw [if_neg (by
      intro hx
      exact hreg ⟨hx.1, hx.2.1, hx.2.2.1, hx.2.2.2⟩)]
    rw [if_neg (by
      intro hx
      exact hreg ⟨hx.2.2.1, hx.2.2.2, hx.1, hx.2.1⟩)]
    rw [star_zero]

/-- **C4**: Hermitian-conjugate duplication happens before the assembler
is invoked. (1-2) The subgraph and block lists handed to the assembler are
the original terms followed by, for every term with the hermitian flag, a
synthesized reversed subgraph paired with the conjugate transpose of the
term's block array. (3) The pipeline invokes the conjugation-agnostic
assembler on exactly these lists. (4) Reversal swaps the site-array
endpoints and swaps the local-offset arrays. (5) The conjugate transpose
swaps axes 1 and 2 and conjugates values. (6) The assembler applies no
conjugation of its own: a duplicate pair's accumulated contribution is
exactly the conjugate transpose of the original pair's contribution. -/
theorem C4_hermitian_duplication_before_assembly
    {α : Type} [CommRing α] [StarRing α] [DecidableEq α]
    (syst : VSystem α) (sg : Subg) (h : Blk3 α) :
    (vhs_subgraphs syst = syst.terms.map (subgraphOf syst) ++
      (syst.terms.filter fun t => t.hermitian).map
        fun t => _reverse_subgraph (subgraphOf syst t)) ∧
    (vhs_hams syst = vhs_base_hams syst ++
      (((vhs_base_hams syst).zip syst.terms).filter
        fun p => p.2.hermitian).map fun p => p.1.adjoint) ∧
    (∀ norbs orbOffs : List Nat,
      _count_norbs syst (vsys_site_offsets syst) ((vhs_hams syst).map some) =
        .ok (norbs, orbOffs) →
      vectorized_hamiltonian_submatrix_sparse syst =
        match _vectorized_make_sparse (vhs_subgraphs syst) (vhs_hams syst)
            (fun k => norbs.getD k 0) (fun k => orbOffs.getD k 0)
            (fun k => (vsys_site_offsets syst).getD k 0)
            syst.site_arrays.length none with
        | .error e => .error (.shape e)
        | .ok coo => .ok coo) ∧
    (_reverse_subgraph sg = ⟨sg.fa, sg.ta, sg.fsOffs, sg.tsOffs⟩) ∧
    (h.adjoint.n1 = h.n1 ∧ h.adjoint.n2 = h.n3 ∧ h.adjoint.n3 = h.n2 ∧
      ∀ i j k, h.adjoint.entry i j k = star (h.entry i k j)) ∧
    (∀ (norbs orbOffs : Nat → Nat) (r c : Nat),
      cooAt (vectPairTriplets norbs orbOffs (_reverse_subgraph sg) h.adjoint)
          r c =
        star (cooAt (vectPairTriplets norbs orbOffs sg h) c r)) := by
  refine ⟨rfl, rfl, ?_, rfl, ⟨rfl, rfl, rfl, fun i j k => rfl⟩, ?_⟩
  · intro norbs orbOffs hok
    unfold vectorized_hamiltonian_submatrix_sparse
    rw [hok]
  · intro norbs orbOffs r c
    exact vectPairTriplets_reverse_adjoint norbs orbOffs sg h r c

/-- Fixture: a two-array system with one Hermitian hopping term. -/
def exVSys : VSystem ℤ :=
  ⟨[⟨1, 0⟩, ⟨1, 1⟩], [⟨0, 1, [0], [0]⟩], [⟨0, true⟩],
   fun _ => ⟨1, 1, 1, fun _ _ _ => 2⟩, none, 1⟩

/-- **C4** (witness): the duplication and the mirror property evaluated on
a concrete one-term Hermitian system. -/
theorem C4_witness :
    (vhs_subgraphs exVSys = [⟨0, 1, [0], [0]⟩, ⟨1, 0, [0], [0]⟩]) ∧
    (vectorized_hamiltonian_submatrix_sparse exVSys =
      .ok ⟨2, 2, [(0, 1, 2), (1, 0, 2)]⟩) ∧
    (cooAt (vectPairTriplets (fun k => [1, 1, 0].getD k 0)
        (fun k => [0, 1, 2].getD k 0)
        (_reverse_subgraph ⟨0, 1, [0], [0]⟩)
        (Blk3.adjoint ⟨1, 1, 1, fun _ _ _ => (2 : ℤ)⟩)) 1 0 =
      star (cooAt (vectPairTriplets (fun k => [1, 1, 0].getD k 0)
        (fun k => [0, 1, 2].getD k 0)
        ⟨0, 1, [0], [0]⟩ ⟨1, 1, 1, fun _ _ _ => (2 : ℤ)⟩) 0 1)) := by
  have hthm := C4_hermitian_duplication_before_assembly exVSys
    ⟨0, 1, [0], [0]⟩ ⟨1, 1, 1, fun _ _ _ => (2 : ℤ)⟩
  refine ⟨?_, ?_, ?_⟩
  · rw [hthm.1]
    decide
  · have hok : _count_norbs exVSys (vsys_site_offsets exVSys)
        ((vhs_hams exVSys).map some) = .ok ([1, 1, 0], [0, 1, 2]) := by decide
    rw [hthm.2.2.1 [1, 1, 0] [0, 1, 2] hok]
    decide
  · exact hthm.2.2.2.2.2 (fun k => [1, 1, 0].getD k 0)
      (fun k => [0, 1, 2].getD k 0) 1 0

/-! ### C8: the norb resolver (`_count_norbs` without `site_ranges`) -/

/-- With no precomputed `site_ranges`, `_count_norbs` is the unresolvable
check followed by the cumulative construction. -/
theorem count_norbs_none_eq (syst : VSystem α) (site_offsets : List Nat)
    (hams : List (Option (Blk3 α))) (hnone : syst.site_ranges = none) :
    _count_norbs syst site_offsets hams =
      if syst.site_arrays.any (fun sa =>
          (count_norbs_fams syst hams sa.family).isNone) then
        .error .norb
      else
        .ok ((buildRanges (count_norbs_fams syst hams)
            (site_offsets.zip syst.site_arrays) 0
            (site_offsets.getD syst.site_arrays.length 0)).map fun x => x.2.1,
          (buildRanges (count_norbs_fams syst hams)
            (site_offsets.zip syst.site_arrays) 0
            (site_offsets.getD syst.site_arrays.length 0)).map fun x => x.2.2) := by
  unfold _count_norbs
  rw [hnone]

theorem buildRanges_len (fams : Nat → Option Nat) :
    ∀ (pairs : List (Nat × SiteArray)) (acc last : Nat),
      (buildRanges fams pairs acc last).length = pairs.length + 1 := by
  intro pairs
  induction pairs with
  | nil => intro acc last; rfl
  | cons p rest ih =>
      intro acc last
      cases p with
      | mk start sa =>
          simp only [buildRanges, List.length_cons, ih]

/-- The `norbs` column of the constructed ranges: one entry per zipped
site array, plus the trailing `0`. -/
theorem buildRanges_zip_norb (fams : Nat → Option Nat) :
    ∀ (offs : List Nat) (arrays : List SiteArray) (acc last : Nat),
      arrays.length ≤ offs.length →
      (buildRanges fams (offs.zip arrays) acc last).map (fun x => x.2.1) =
        arrays.map (fun sa => (fams sa.family).getD 0) ++ [0] := by
  intro offs
  induction offs with
  | nil =>
      intro arrays acc last h
      have harr : arrays = [] := List.eq_nil_of_length_eq_zero (Nat.le_zero.mp h)
      subst harr
      rfl
  | cons o os ih =>
      intro arrays acc last h
      cases arrays with
      | nil => rfl
      | cons sa rest =>
          simp only [List.zip_cons_cons, buildRanges, List.map_cons,
            List.cons_append]
          rw [show List.zipWith Prod.mk os rest = os.zip rest from rfl,
            ih rest _ _ (by simpa using Nat.le_of_succ_le_succ (by simpa using h))]

/-- The orbital-offset column of the constructed ranges: entry `k` is
`acc` plus the cumulative sum of `len * norb` over the first `k` arrays. -/
theorem buildRanges_zip_off_getD (fams : Nat → Option Nat) :
    ∀ (arrays : List SiteArray) (offs : List Nat) (acc last k : Nat),
      arrays.length ≤ offs.length → k ≤ arrays.length →
      ((buildRanges fams (offs.zip arrays) acc last).map
          (fun x => x.2.2)).getD k 0 =
        acc + ((arrays.take k).map
          (fun sa => sa.len * (fams sa.family).getD 0)).sum := by
  intro arrays
  induction arrays with
  | nil =>
      intro offs acc last k h hk
      have hk0 : k = 0 := Nat.le_zero.mp hk
      subst hk0
      simp [List.zip_nil_right, buildRanges]
  | cons sa rest ih =>
      intro offs acc last k h hk
      cases offs with
      | nil => exact absurd h (by simp)
      | cons o os =>
          cases k with
          | zero => simp [List.zip_cons_cons, buildRanges]
          | succ k =>
              simp only [List.zip_cons_cons, buildRanges, List.map_cons,
                List.getD_cons_succ, List.take_succ_cons, List.sum_cons]
              rw [show List.zipWith Prod.mk os rest = os.zip rest from rfl]
              rw [ih os (acc + sa.len * (fams sa.family).getD 0) last k
                (Nat.le_of_succ_le_succ (by simpa using h))
                (Nat.le_of_succ_le_succ hk)]
              ring

/-- **C8**: with no precomputed `site_ranges`, the norb resolver raises
the unresolvable-norb `ValueError` if and only if, after seeding from
already-evaluated term blocks (pass 1) and evaluating terms touching
still-unknown families (pass 2), some site array's family is still
unresolved; otherwise it succeeds and returns the per-array norbs (with
the trailing `0` row) together with orbital offsets built by cumulative
summation of `len(site_array) * norb(site_array)`, whose final (extra)
entry is the total orbital count. -/
theorem C8_count_norbs_resolution
    {α : Type} [CommRing α] [StarRing α] [DecidableEq α]
    (syst : VSystem α) (site_offsets : List Nat)
    (hams : List (Option (Blk3 α)))
    (hnone : syst.site_ranges = none)
    (hlen : site_offsets.length = syst.site_arrays.length + 1) :
    (_count_norbs syst site_offsets hams = .error .norb ↔
      ∃ sa ∈ syst.site_arrays, count_norbs_fams syst hams sa.family = none) ∧
    (∀ norbs orbOffs : List Nat,
      _count_norbs syst site_offsets hams = .ok (norbs, orbOffs) →
      norbs = syst.site_arrays.map
          (fun sa => (count_norbs_fams syst hams sa.family).getD 0) ++ [0] ∧
      orbOffs.length = syst.site_arrays.length + 1 ∧
      ∀ k, k ≤ syst.site_arrays.length →
        orbOffs.getD k 0 = ((syst.site_arrays.take k).map
          (fun sa => sa.len *
            (count_norbs_fams syst hams sa.family).getD 0)).sum) := by
  have heq := count_norbs_none_eq syst site_offsets hams hnone
  have hle : syst.site_arrays.length ≤ site_offsets.length := by
    rw [hlen]; exact Nat.le_succ _
  have hzlen : (site_offsets.zip syst.site_arrays).length =
      syst.site_arrays.length := by
    rw [List.length_zip, hlen]; omega
  constructor
  · rw [heq]
    by_cases hc : (syst.site_arrays.any fun sa =>
        (count_norbs_fams syst hams sa.family).isNone) = true
    · rw [if_pos hc]
      constructor
      · intro _
        rcases List.any_eq_true.mp hc with ⟨sa, hmem, hsa⟩
        exact ⟨sa, hmem, Option.isNone_iff_eq_none.mp hsa⟩
      · intro _; rfl
    · rw [if_neg hc]
      constructor
      · intro h; exact Except.noConfusion h
      · rintro ⟨sa, hmem, hsa⟩
        exact absurd (List.any_eq_true.mpr ⟨sa, hmem,
          Option.isNone_iff_eq_none.mpr hsa⟩) hc
  · intro norbs orbOffs hok
    rw [heq] at hok
    by_cases hc : (syst.site_arrays.any fun sa =>
        (count_norbs_fams syst hams sa.family).isNone) = true
    · rw [if_pos hc] at hok
      exact Except.noConfusion hok
    · rw [if_neg hc] at hok
      have hpair : ((buildRanges (count_norbs_fams syst hams)
            (site_offsets.zip syst.site_arrays) 0
            (site_offsets.getD syst.site_arrays.length 0)).map
              (fun x => x.2.1),
          (buildRanges (count_norbs_fams syst hams)
            (site_offsets.zip syst.site_arrays) 0
            (site_offsets.getD syst.site_arrays.length 0)).map
              (fun x => x.2.2)) = (norbs, orbOffs) := by
        injection hok
      have hn : norbs = (buildRanges (count_norbs_fams syst hams)
          (site_offsets.zip syst.site_arrays) 0
          (site_offsets.getD syst.site_arrays.length 0)).map
            (fun x => x.2.1) := (congrArg Prod.fst hpair).symm
      have ho : orbOffs = (buildRanges (count_norbs_fams syst hams)
          (site_offsets.zip syst.site_arrays) 0
          (site_offsets.getD syst.site_arrays.length 0)).map
            (fun x => x.2.2) := (congrArg Prod.snd hpair).symm
      refine ⟨?_, ?_, ?_⟩
      · rw [hn,
          buildRanges_zip_norb (count_norbs_fams syst hams) site_offsets
            syst.site_arrays 0 _ hle]
      · rw [ho, List.length_map,
          buildRanges_len (count_norbs_fams syst hams), hzlen]
      · intro k hk
        rw [ho, buildRanges_zip_off_getD (count_norbs_fams syst hams)
          syst.site_arrays site_offsets 0
          (site_offsets.getD syst.site_arrays.length 0) k hle hk,
          Nat.zero_add]

/-- Fixture: one site array whose family is touched by no term at all. -/
def exVSysNoTerm : VSystem ℤ :=
  ⟨[⟨1, 0⟩], [], [], fun _ => ⟨1, 1, 1, fun _ _ _ => 0⟩, none, 1⟩

/-- **C8** (witness): the resolver fails on a system whose only site
family is touched by no term, and on the resolvable two-array system it
returns norbs `[1, 1, 0]` and the cumulative offsets `[0, 1, 2]`. -/
theorem C8_witness :
    (_count_norbs exVSysNoTerm [0, 1] ([] : List (Option (Blk3 ℤ))) =
      .error .norb) ∧
    ([1, 1, 0] = exVSys.site_arrays.map (fun sa =>
        (count_norbs_fams exVSys ((vhs_hams exVSys).map some)
          sa.family).getD 0) ++ [0]) ∧
    (([0, 1, 2] : List Nat).getD 2 0 = ((exVSys.site_arrays.take 2).map
        (fun sa => sa.len * (count_norbs_fams exVSys
          ((vhs_hams exVSys).map some) sa.family).getD 0)).sum) := by
  have h1 := C8_count_norbs_resolution exVSysNoTerm [0, 1]
    ([] : List (Option (Blk3 ℤ))) rfl (by decide)
  have h2 := C8_count_norbs_resolution exVSys (vsys_site_offsets exVSys)
    ((vhs_hams exVSys).map some) rfl (by decide)
  refine ⟨?_, ?_, ?_⟩
  · exact h1.1.mpr ⟨⟨1, 0⟩, by decide, by decide⟩
  · exact (h2.2 [1, 1, 0] [0, 1, 2] (by decide)).1
  · exact (h2.2 [1, 1, 0] [0, 1, 2] (by decide)).2.2 2 (by decide)

/-! ### C6: cell Hamiltonian and inter-cell hopping of a periodic system -/

/-- `bisect.bisect(site_offsets, x)`: on the sorted cumulative-offset
lists it is applied to, the rightmost insertion point is the number of
elements `≤ x`. -/
def bisectRight (l : List Nat) (x : Nat) : Nat :=
  l.countP fun v => decide (v ≤ x)

/-- `next_cell` (lines 612 and 677): the site array where the next cell
starts, `bisect.bisect(site_offsets, self.cell_size) - 1`. -/
def next_cell (syst : VSystem α) : Nat :=
  bisectRight (vsys_site_offsets syst) syst.cell_size - 1

/-- `inside_cell` (lines 614-616): both endpoint site arrays of the
term's subgraph lie before `next_cell`. -/
def inside_cell (syst : VSystem α) (t : VTerm) : Bool :=
  decide ((subgraphOf syst t).ta < next_cell syst) &&
    decide ((subgraphOf syst t).fa < next_cell syst)

/-- `cell_terms` (lines 618-621): the term indices inside the cell. -/
def cell_terms (syst : VSystem α) : List Nat :=
  (List.range syst.terms.length).filter fun n =>
    inside_cell syst (syst.terms.getD n ⟨0, false⟩)

/-- The subgraphs passed by `vectorized_cell_hamiltonian` (lines
623-632): the cell terms' subgraphs followed by the reversed subgraphs of
the Hermitian cell terms. -/
def cell_subgraphs (syst : VSystem α) : List Subg :=
  (cell_terms syst).map
      (fun n => subgraphOf syst (syst.terms.getD n ⟨0, false⟩)) ++
    ((cell_terms syst).filter
        (fun n => (syst.terms.getD n ⟨0, false⟩).hermitian)).map
      fun n => _reverse_subgraph (subgraphOf syst (syst.terms.getD n ⟨0, false⟩))

/-- The block arrays passed by `vectorized_cell_hamiltonian` (lines
634-643): the evaluated cell terms followed by the conjugate transposes
of the Hermitian ones. -/
def cell_hams (syst : VSystem α) : List (Blk3 α) :=
  (cell_terms syst).map syst.hamiltonian_term ++
    ((cell_terms syst).filter
        (fun n => (syst.terms.getD n ⟨0, false⟩).hermitian)).map
      fun n => (syst.hamiltonian_term n).adjoint

/-- The per-term `all_hams` table of `vectorized_cell_hamiltonian` (lines
645-649): `None` except at the cell terms, which carry their evaluated
block (the fill loop `all_hams[n] = ham` visits each cell term index
once, in order, with its base block). -/
def cell_all_hams (syst : VSystem α) : List (Option (Blk3 α)) :=
  (List.range syst.terms.length).map fun n =>
    if n ∈ cell_terms syst then some (syst.hamiltonian_term n) else none

/-- The `norbs, orb_offsets = _count_norbs(...)` call of
`vectorized_cell_hamiltonian` (lines 650-651). -/
def cell_norb_data (syst : VSystem α) : Except VErr (List Nat × List Nat) :=
  _count_norbs syst (vsys_site_offsets syst) (cell_all_hams syst)

/-- The common tail of all vectorized pipelines: unpack the norb data,
then run the assembler, wrapping its hops payload into the shape error. -/
def pipeRun {β : Type} (data : Except VErr (List Nat × List Nat))
    (f : List Nat → List Nat → Except (List (Nat × Nat)) β) :
    Except VErr β :=
  match data with
  | .error e => .error e
  | .ok (norbs, orbOffs) =>
      match f norbs orbOffs with
      | .error e => .error (.shape e)
      | .ok x => .ok x

/-- `vectorized_cell_hamiltonian(sparse=True)` (lines 610-657): shape
`(orb_offsets[next_cell], orb_offsets[next_cell])`. -/
def vectorized_cell_hamiltonian_sparse (syst : VSystem α) :
    Except VErr (Coo α) :=
  pipeRun (cell_norb_data syst) fun norbs orbOffs =>
    _vectorized_make_sparse (cell_subgraphs syst) (cell_hams syst)
      (fun k => norbs.getD k 0) (fun k => orbOffs.getD k 0)
      (fun k => (vsys_site_offsets syst).getD k 0)
      syst.site_arrays.length
      (some (orbOffs.getD (next_cell syst) 0, orbOffs.getD (next_cell syst) 0))

/-- `vectorized_cell_hamiltonian(sparse=False)`. -/
def vectorized_cell_hamiltonian_dense (syst : VSystem α) :
    Except VErr (Blk α) :=
  pipeRun (cell_norb_data syst) fun norbs orbOffs =>
    _vectorized_make_dense (cell_subgraphs syst) (cell_hams syst)
      (fun k => norbs.getD k 0) (fun k => orbOffs.getD k 0)
      (fun k => (vsys_site_offsets syst).getD k 0)
      syst.site_arrays.length
      (some (orbOffs.getD (next_cell syst) 0, orbOffs.getD (next_cell syst) 0))

/-- `inter_cell_hopping_terms` (lines 679-684): terms whose *from* array
is in the interface and whose *to* array is in the cell. -/
def inter_cell_hopping_terms (syst : VSystem α) : List Nat :=
  (List.range syst.terms.length).filter fun n =>
    decide (next_cell syst ≤
        (subgraphOf syst (syst.terms.getD n ⟨0, false⟩)).fa) &&
      decide ((subgraphOf syst (syst.terms.getD n ⟨0, false⟩)).ta <
        next_cell syst)

/-- `reversed_inter_cell_hopping_terms` (lines 685-690): terms whose *to*
array is in the interface and whose *from* array is in the cell. -/
def reversed_inter_cell_hopping_terms (syst : VSystem α) : List Nat :=
  (List.range syst.terms.length).filter fun n =>
    decide (next_cell syst ≤
        (subgraphOf syst (syst.terms.getD n ⟨0, false⟩)).ta) &&
      decide ((subgraphOf syst (syst.terms.getD n ⟨0, false⟩)).fa <
        next_cell syst)

/-- `inter_cell_hams` (lines 693-696). -/
def inter_cell_hams (syst : VSystem α) : List (Blk3 α) :=
  (inter_cell_hopping_terms syst).map syst.hamiltonian_term

/-- `reversed_inter_cell_hams` (lines 697-701): evaluated, conjugated and
axis-transposed. -/
def reversed_inter_cell_hams (syst : VSystem α) : List (Blk3 α) :=
  (reversed_inter_cell_hopping_terms syst).map
    fun n => (syst.hamiltonian_term n).adjoint

/-- The re-expression of the *from* site array in the fundamental domain
(lines 717-720): `from_sa - next_cell`. -/
def shift_from_array (b : Nat) (sg : Subg) : Subg :=
  ⟨sg.ta, sg.fa - b, sg.tsOffs, sg.fsOffs⟩

/-- The subgraphs passed by `vectorized_inter_cell_hopping` (lines
705-720). -/
def inter_cell_subgraphs (syst : VSystem α) : List Subg :=
  ((inter_cell_hopping_terms syst).map
      (fun n => subgraphOf syst (syst.terms.getD n ⟨0, false⟩)) ++
    (reversed_inter_cell_hopping_terms syst).map
      (fun n => _reverse_subgraph
        (subgraphOf syst (syst.terms.getD n ⟨0, false⟩)))).map
    (shift_from_array (next_cell syst))

/-- `a.transpose(0, 2, 1)`: swap the two block axes without
conjugating. -/
def Blk3.swapAxes (h : Blk3 α) : Blk3 α :=
  ⟨h.n1, h.n3, h.n2, fun i j k => h.entry i k j⟩

/-- The per-term `all_hams` table of `vectorized_inter_cell_hopping`
(lines 722-730): the forward hoppings carry their evaluated block, the
reversed ones carry their conjugate transpose transposed back to the
original term's shape (the two fill loops write disjoint index sets: a
term cannot be both forward and reversed). -/
def inter_cell_all_hams (syst : VSystem α) : List (Option (Blk3 α)) :=
  (List.range syst.terms.length).map fun n =>
    if n ∈ inter_cell_hopping_terms syst then some (syst.hamiltonian_term n)
    else if n ∈ reversed_inter_cell_hopping_terms syst then
      some (Blk3.swapAxes (syst.hamiltonian_term n).adjoint)
    else none

/-- The `_count_norbs` call of `vectorized_inter_cell_hopping` (lines
731-732). -/
def inter_cell_norb_data (syst : VSystem α) :
    Except VErr (List Nat × List Nat) :=
  _count_norbs syst (vsys_site_offsets syst) (inter_cell_all_hams syst)

/-- `vectorized_inter_cell_hopping(sparse=True)` (lines 675-738): shape
`(orb_offsets[next_cell], orb_offsets[len(site_arrays) - next_cell])`. -/
def vectorized_inter_cell_hopping_sparse (syst : VSystem α) :
    Except VErr (Coo α) :=
  pipeRun (inter_cell_norb_data syst) fun norbs orbOffs =>
    _vectorized_make_sparse (inter_cell_subgraphs syst)
      (inter_cell_hams syst ++ reversed_inter_cell_hams syst)
      (fun k => norbs.getD k 0) (fun k => orbOffs.getD k 0)
      (fun k => (vsys_site_offsets syst).getD k 0)
      syst.site_arrays.length
      (some (orbOffs.getD (next_cell syst) 0,
        orbOffs.getD (syst.site_arrays.length - next_cell syst) 0))

/-- `vectorized_inter_cell_hopping(sparse=False)`. -/
def vectorized_inter_cell_hopping_dense (syst : VSystem α) :
    Except VErr (Blk α) :=
  pipeRun (inter_cell_norb_data syst) fun norbs orbOffs =>
    _vectorized_make_dense (inter_cell_subgraphs syst)
      (inter_cell_hams syst ++ reversed_inter_cell_hams syst)
      (fun k => norbs.getD k 0) (fun k => orbOffs.getD k 0)
      (fun k => (vsys_site_offsets syst).getD k 0)
      syst.site_arrays.length
      (some (orbOffs.getD (next_cell syst) 0,
        orbOffs.getD (syst.site_arrays.length - next_cell syst) 0))

theorem take_map_sum_mono :
    ∀ (arrays : List SiteArray) (i j : Nat), i ≤ j →
      ((arrays.take i).map SiteArray.len).sum ≤
        ((arrays.take j).map SiteArray.len).sum := by
  intro arrays
  induction arrays with
  | nil => intro i j _; simp
  | cons a t ih =>
      intro i j hij
      cases i with
      | zero => simp
      | succ i =>
          cases j with
          | zero => omega
          | succ j =>
              simp only [List.take_succ_cons, List.map_cons, List.sum_cons]
              exact Nat.add_le_add_left (ih i j (Nat.le_of_succ_le_succ hij)) _

/-- Counting a monotone-threshold predicate over `range n`: an index
satisfies the predicate exactly when it lies below the count. -/
theorem countP_range_mono (p : Nat → Bool)
    (hmono : ∀ i j, i ≤ j → p j = true → p i = true) :
    ∀ n k, k < n → (k < (List.range n).countP p ↔ p k = true) := by
  intro n
  induction n with
  | zero => intro k hk; omega
  | succ n ih =>
      intro k hk
      rw [List.range_succ, List.countP_append]
      by_cases hp : p n = true
      · have hall : (List.range n).countP p = n := by
          have h1 := List.countP_eq_length.mpr fun a ha =>
            hmono a n (Nat.le_of_lt (List.mem_range.mp ha)) hp
          simpa using h1
        have h1 : List.countP p [n] = 1 := by
          simp [List.countP_cons, hp]
        rw [hall, h1]
        constructor
        · intro _
          exact hmono k n (Nat.le_of_lt_succ hk) hp
        · intro _; omega
      · have h0 : List.countP p [n] = 0 := by
          simp [List.countP_cons, hp]
        rw [h0, Nat.add_zero]
        rcases Nat.lt_succ_iff_lt_or_eq.mp hk with hlt | heq
        · exact ih k hlt
        · subst heq
          have hle : (List.range k).countP p ≤ k := by
            have h2 := @List.countP_le_length Nat p (List.range k)
            simpa using h2
          constructor
          · intro h; omega
          · intro h; exact absurd h hp

theorem vsys_site_offsets_length (syst : VSystem α) :
    (vsys_site_offsets syst).length = syst.site_arrays.length + 1 := by
  simp [vsys_site_offsets]

theorem vsys_site_offsets_getD (syst : VSystem α) (i : Nat)
    (hi : i < syst.site_arrays.length + 1) :
    (vsys_site_offsets syst).getD i 0 =
      ((syst.site_arrays.take i).map SiteArray.len).sum := by
  unfold vsys_site_offsets
  rw [List.getD_eq_getElem?_getD, List.getElem?_map, List.getElem?_range hi]
  rfl

/-- The boundary array: every site array before `next_cell` ends at or
before `cell_size`, and array `next_cell` itself does not; in particular
`next_cell` is the first site array not fully inside the declared cell
size, and it is a valid array index. -/
theorem next_cell_spec (syst : VSystem α)
    (hcs : syst.cell_size <
      (vsys_site_offsets syst).getD syst.site_arrays.length 0) :
    next_cell syst < syst.site_arrays.length ∧
    (∀ j, j < next_cell syst →
      (vsys_site_offsets syst).getD (j + 1) 0 ≤ syst.cell_size) ∧
    syst.cell_size <
      (vsys_site_offsets syst).getD (next_cell syst + 1) 0 := by
  have hmono : ∀ i j : Nat, i ≤ j →
      (fun k => decide (((syst.site_arrays.take k).map SiteArray.len).sum ≤
        syst.cell_size)) j = true →
      (fun k => decide (((syst.site_arrays.take k).map SiteArray.len).sum ≤
        syst.cell_size)) i = true := by
    intro i j hij hj
    simp only [decide_eq_true_eq] at hj ⊢
    exact Nat.le_trans (take_map_sum_mono syst.site_arrays i j hij) hj
  have hcount : bisectRight (vsys_site_offsets syst) syst.cell_size =
      (List.range (syst.site_arrays.length + 1)).countP
        (fun k => decide (((syst.site_arrays.take k).map SiteArray.len).sum ≤
          syst.cell_size)) := by
    unfold bisectRight vsys_site_offsets
    rw [List.countP_map]
    rfl
  have hiff := countP_range_mono _ hmono (syst.site_arrays.length + 1)
  have hp0 : (fun k => decide (((syst.site_arrays.take k).map
      SiteArray.len).sum ≤ syst.cell_size)) 0 = true := by
    simp
  have hc1 : 0 < (List.range (syst.site_arrays.length + 1)).countP
      (fun k => decide (((syst.site_arrays.take k).map SiteArray.len).sum ≤
        syst.cell_size)) :=
    (hiff 0 (Nat.succ_pos _)).mpr hp0
  have hcsum : syst.cell_size <
      ((syst.site_arrays.take syst.site_arrays.length).map
        SiteArray.len).sum := by
    have h4 := hcs
    rw [vsys_site_offsets_getD syst syst.site_arrays.length
      (Nat.lt_succ_self _)] at h4
    exact h4
  have hcA : (List.range (syst.site_arrays.length + 1)).countP
      (fun k => decide (((syst.site_arrays.take k).map SiteArray.len).sum ≤
        syst.cell_size)) ≤ syst.site_arrays.length := by
    by_contra hlt
    have h3 := (hiff syst.site_arrays.length (Nat.lt_succ_self _)).mp
      (by omega)
    simp only [decide_eq_true_eq] at h3
    omega
  have hb : next_cell syst + 1 =
      (List.range (syst.site_arrays.length + 1)).countP
        (fun k => decide (((syst.site_arrays.take k).map SiteArray.len).sum ≤
          syst.cell_size)) := by
    unfold next_cell
    rw [hcount]
    omega
  refine ⟨by omega, ?_, ?_⟩
  · intro j hj
    have hj1 := (hiff (j + 1) (by omega)).mp (by omega)
    simp only [decide_eq_true_eq] at hj1
    rw [vsys_site_offsets_getD syst (j + 1) (by omega)]
    exact hj1
  · have hblt : next_cell syst + 1 < syst.site_arrays.length + 1 := by omega
    have hnp : ¬ ((fun k => decide (((syst.site_arrays.take k).map
        SiteArray.len).sum ≤ syst.cell_size)) (next_cell syst + 1) = true) := by
      intro hp
      have hlt := (hiff (next_cell syst + 1) hblt).mpr hp
      omega
    simp only [decide_eq_true_eq] at hnp
    rw [vsys_site_offsets_getD syst (next_cell syst + 1) hblt]
    omega

theorem pipeRun_ok {β : Type} (data : Except VErr (List Nat × List Nat))
    (f : List Nat → List Nat → Except (List (Nat × Nat)) β)
    (norbs orbOffs : List Nat) (x : β)
    (hok : data = .ok (norbs, orbOffs))
    (hres : pipeRun data f = .ok x) :
    f norbs orbOffs = .ok x := by
  rw [hok] at hres
  rcases hf : f norbs orbOffs with e | y
  · rw [show pipeRun (.ok (norbs, orbOffs)) f = .error (.shape e) from by
      show (match f norbs orbOffs with
        | .error e => (.error (.shape e) : Except VErr β)
        | .ok x => .ok x) = .error (.shape e)
      rw [hf]] at hres
    exact Except.noConfusion hres
  · rw [show pipeRun (.ok (norbs, orbOffs)) f = .ok y from by
      show (match f norbs orbOffs with
        | .error e => (.error (.shape e) : Except VErr β)
        | .ok x => .ok x) = .ok y
      rw [hf]] at hres
    injection hres with h
    rw [h]

theorem make_sparse_shape_of_some (subgraphs : List Subg)
    (hams : List (Blk3 α)) (norbs orbOffs siteOffs : Nat → Nat) (A r c : Nat)
    (coo : Coo α)
    (h : _vectorized_make_sparse subgraphs hams norbs orbOffs siteOffs A
        (some (r, c)) = .ok coo) :
    coo.rows = r ∧ coo.cols = c := by
  obtain ⟨tl, _, hcoo⟩ := except_ok_of_map_ok _ _ _ h
  rw [← hcoo]
  exact ⟨rfl, rfl⟩

theorem make_dense_shape_of_some (subgraphs : List Subg)
    (hams : List (Blk3 α)) (norbs orbOffs siteOffs : Nat → Nat) (A r c : Nat)
    (dm : Blk α)
    (h : _vectorized_make_dense subgraphs hams norbs orbOffs siteOffs A
        (some (r, c)) = .ok dm) :
    dm.rows = r ∧ dm.cols = c := by
  obtain ⟨m, _, hblk⟩ := except_ok_of_map_ok _ _ _ h
  rw [← hblk]
  exact ⟨rfl, rfl⟩

/-- A cumulative sum over `take k` as a sum over `range k`. -/
theorem take_map_sum_range {γ : Type} (F : γ → Nat) (d : γ) :
    ∀ (l : List γ) (k : Nat), k ≤ l.length →
      ((l.take k).map F).sum =
        ((List.range k).map fun i => F (l.getD i d)).sum := by
  intro l
  induction l with
  | nil =>
      intro k hk
      have hk0 : k = 0 := Nat.le_zero.mp hk
      subst hk0
      rfl
  | cons a t ih =>
      intro k hk
      cases k with
      | zero => rfl
      | succ k =>
          rw [List.take_succ_cons, List.map_cons, List.sum_cons,
            ih k (Nat.le_of_succ_le_succ hk), List.range_succ_eq_map,
            List.map_cons, List.sum_cons, List.map_map]
          have h1 : F ((a :: t).getD 0 d) = F a := rfl
          rw [h1]
          congr 1

/-- On success without precomputed `site_ranges`, entry `k` of the
orbital-offset table is the sum of `len * norb` over the first `k` site
arrays. -/
theorem count_norbs_ok_off_range (syst : VSystem α) (site_offsets : List Nat)
    (hams : List (Option (Blk3 α))) (norbs orbOffs : List Nat)
    (hnone : syst.site_ranges = none)
    (hlen : site_offsets.length = syst.site_arrays.length + 1)
    (hok : _count_norbs syst site_offsets hams = .ok (norbs, orbOffs)) :
    ∀ k, k ≤ syst.site_arrays.length →
      orbOffs.getD k 0 = ((List.range k).map fun i =>
        (syst.site_arrays.getD i ⟨0, 0⟩).len *
          (count_norbs_fams syst hams
            (syst.site_arrays.getD i ⟨0, 0⟩).family).getD 0).sum := by
  have hle : syst.site_arrays.length ≤ site_offsets.length := by
    rw [hlen]; exact Nat.le_succ _
  rw [count_norbs_none_eq syst site_offsets hams hnone] at hok
  by_cases hc : (syst.site_arrays.any fun sa =>
      (count_norbs_fams syst hams sa.family).isNone) = true
  · rw [if_pos hc] at hok
    exact Except.noConfusion hok
  · rw [if_neg hc] at hok
    have hpair : ((buildRanges (count_norbs_fams syst hams)
          (site_offsets.zip syst.site_arrays) 0
          (site_offsets.getD syst.site_arrays.length 0)).map
            (fun x => x.2.1),
        (buildRanges (count_norbs_fams syst hams)
          (site_offsets.zip syst.site_arrays) 0
          (site_offsets.getD syst.site_arrays.length 0)).map
            (fun x => x.2.2)) = (norbs, orbOffs) := by
      injection hok
    have ho : orbOffs = (buildRanges (count_norbs_fams syst hams)
        (site_offsets.zip syst.site_arrays) 0
        (site_offsets.getD syst.site_arrays.length 0)).map
          (fun x => x.2.2) := (congrArg Prod.snd hpair).symm
    intro k hk
    rw [ho, buildRanges_zip_off_getD (count_norbs_fams syst hams)
      syst.site_arrays site_offsets 0
      (site_offsets.getD syst.site_arrays.length 0) k hle hk,
      Nat.zero_add,
      take_map_sum_range (fun sa => sa.len *
        (count_norbs_fams syst hams sa.family).getD 0) ⟨0, 0⟩
        syst.site_arrays k hk]

/-- **C6**: for a periodic system whose declared cell size lies strictly
inside the site range, (1) `next_cell` (computed by bisection over the
cumulative site-array sizes) is a valid array index, every array before
it ends at or before `cell_size`, and it is the first array not fully
inside the cell; (2-3) the cell Hamiltonian (sparse and dense) has shape
`(orb_offsets[next_cell], orb_offsets[next_cell])`; (4-5) the inter-cell
hopping matrix has shape
`(orb_offsets[next_cell], orb_offsets[A - next_cell])` where `A` is the
number of site arrays; and (6) when each interface array repeats the
length and norb of its fundamental-domain translate, the second dimension
equals `total_orbitals - orb_offsets[next_cell]`:
`orb_offsets[next_cell] + orb_offsets[A - next_cell] = orb_offsets[A]`,
the total orbital count. -/
theorem C6_cell_and_inter_cell_shapes
    {α : Type} [CommRing α] [StarRing α] [DecidableEq α]
    (syst : VSystem α)
    (hcs : syst.cell_size <
      (vsys_site_offsets syst).getD syst.site_arrays.length 0)
    (hnone : syst.site_ranges = none)
    (hper : ∀ k, k < syst.site_arrays.length - next_cell syst →
      (syst.site_arrays.getD (next_cell syst + k) ⟨0, 0⟩).len *
          (count_norbs_fams syst (inter_cell_all_hams syst)
            (syst.site_arrays.getD (next_cell syst + k) ⟨0, 0⟩).family).getD 0
        = (syst.site_arrays.getD k ⟨0, 0⟩).len *
            (count_norbs_fams syst (inter_cell_all_hams syst)
              (syst.site_arrays.getD k ⟨0, 0⟩).family).getD 0) :
    (next_cell syst < syst.site_arrays.length ∧
      (∀ j, j < next_cell syst →
        (vsys_site_offsets syst).getD (j + 1) 0 ≤ syst.cell_size) ∧
      syst.cell_size <
        (vsys_site_offsets syst).getD (next_cell syst + 1) 0) ∧
    (∀ (norbs orbOffs : List Nat) (coo : Coo α),
      cell_norb_data syst = .ok (norbs, orbOffs) →
      vectorized_cell_hamiltonian_sparse syst = .ok coo →
      coo.rows = orbOffs.getD (next_cell syst) 0 ∧
      coo.cols = orbOffs.getD (next_cell syst) 0) ∧
    (∀ (norbs orbOffs : List Nat) (dm : Blk α),
      cell_norb_data syst = .ok (norbs, orbOffs) →
      vectorized_cell_hamiltonian_dense syst = .ok dm →
      dm.rows = orbOffs.getD (next_cell syst) 0 ∧
      dm.cols = orbOffs.getD (next_cell syst) 0) ∧
    (∀ (norbs orbOffs : List Nat) (coo : Coo α),
      inter_cell_norb_data syst = .ok (norbs, orbOffs) →
      vectorized_inter_cell_hopping_sparse syst = .ok coo →
      coo.rows = orbOffs.getD (next_cell syst) 0 ∧
      coo.cols = orbOffs.getD
        (syst.site_arrays.length - next_cell syst) 0) ∧
    (∀ (norbs orbOffs : List Nat) (dm : Blk α),
      inter_cell_norb_data syst = .ok (norbs, orbOffs) →
      vectorized_inter_cell_hopping_dense syst = .ok dm →
      dm.rows = orbOffs.getD (next_cell syst) 0 ∧
      dm.cols = orbOffs.getD
        (syst.site_arrays.length - next_cell syst) 0) ∧
    (∀ norbs orbOffs : List Nat,
      inter_cell_norb_data syst = .ok (norbs, orbOffs) →
      orbOffs.getD (next_cell syst) 0 +
          orbOffs.getD (syst.site_arrays.length - next_cell syst) 0 =
        orbOffs.getD syst.site_arrays.length 0) := by
  refine ⟨next_cell_spec syst hcs, ?_, ?_, ?_, ?_, ?_⟩
  · intro norbs orbOffs coo hok hres
    exact make_sparse_shape_of_some _ _ _ _ _ _ _ _ _
      (pipeRun_ok _ _ norbs orbOffs coo hok hres)
  · intro norbs orbOffs dm hok hres
    exact make_dense_shape_of_some _ _ _ _ _ _ _ _ _
      (pipeRun_ok _ _ norbs orbOffs dm hok hres)
  · intro norbs orbOffs coo hok hres
    exact make_sparse_shape_of_some _ _ _ _ _ _ _ _ _
      (pipeRun_ok _ _ norbs orbOffs coo hok hres)
  · intro norbs orbOffs dm hok hres
    exact make_dense_shape_of_some _ _ _ _ _ _ _ _ _
      (pipeRun_ok _ _ norbs orbOffs dm hok hres)
  · intro norbs orbOffs hok
    obtain ⟨hbA, -, -⟩ := next_cell_spec syst hcs
    have hoff := count_norbs_ok_off_range syst (vsys_site_offsets syst)
      (inter_cell_all_hams syst) norbs orbOffs hnone
      (vsys_site_offsets_length syst) hok
    rw [hoff (next_cell syst) (Nat.le_of_lt hbA),
      hoff (syst.site_arrays.length - next_cell syst) (Nat.sub_le _ _),
      hoff syst.site_arrays.length (Nat.le_refl _)]
    have hA : syst.site_arrays.length =
        next_cell syst + (syst.site_arrays.length - next_cell syst) := by
      omega
    have hsplit := List.range_add (next_cell syst)
      (syst.site_arrays.length - next_cell syst)
    rw [← hA] at hsplit
    rw [hsplit, List.map_append, List.sum_append, List.map_map]
    congr 1
    apply congrArg List.sum
    apply List.map_congr_left
    intro k hk
    simp only [Function.comp]
    exact (hper k (List.mem_range.mp hk)).symm

/-- **C6** (witness): on the concrete two-array periodic system the
boundary index is the second array, the cell Hamiltonian is the empty
`1 x 1` sparse matrix, the inter-cell hopping is `1 x 1`, and the two
shape dimensions add up to the total orbital count. -/
theorem C6_witness :
    (next_cell exVSys < exVSys.site_arrays.length ∧
      exVSys.cell_size <
        (vsys_site_offsets exVSys).getD (next_cell exVSys + 1) 0) ∧
    ((⟨1, 1, []⟩ : Coo ℤ).rows =
        ([0, 1, 2] : List Nat).getD (next_cell exVSys) 0 ∧
      (⟨1, 1, []⟩ : Coo ℤ).cols =
        ([0, 1, 2] : List Nat).getD (next_cell exVSys) 0) ∧
    ((⟨1, 1, [(0, 0, 2)]⟩ : Coo ℤ).rows =
        ([0, 1, 2] : List Nat).getD (next_cell exVSys) 0 ∧
      (⟨1, 1, [(0, 0, 2)]⟩ : Coo ℤ).cols = ([0, 1, 2] : List Nat).getD
        (exVSys.site_arrays.length - next_cell exVSys) 0) ∧
    (([0, 1, 2] : List Nat).getD (next_cell exVSys) 0 +
        ([0, 1, 2] : List Nat).getD
          (exVSys.site_arrays.length - next_cell exVSys) 0 =
      ([0, 1, 2] : List Nat).getD exVSys.site_arrays.length 0) := by
  have hthm := C6_cell_and_inter_cell_shapes exVSys (by decide) rfl (by decide)
  refine ⟨⟨hthm.1.1, hthm.1.2.2⟩, ?_, ?_, ?_⟩
  · exact hthm.2.1 [1, 1, 0] [0, 1, 2] ⟨1, 1, []⟩ (by decide) (by decide)
  · exact hthm.2.2.2.1 [1, 1, 0] [0, 1, 2] ⟨1, 1, [(0, 0, 2)]⟩ (by decide)
      (by decide)
  · exact hthm.2.2.2.2.2 [1, 1, 0] [0, 1, 2] (by decide)
